import Mathlib

/-!
# Tone-Generator: sweep synthesis and WAV header

Shallow embedding of `src/main.cpp`.

* `double` is IEEE-754 binary64 with round-to-nearest-even, every operation rounded once
  (no fused multiply-add, no extended precision).  A statement whose arithmetic is that of
  the real numbers is compared with the values these machine operations produce; where the
  two differ, the statement is given for the machine values together with a bound on their
  distance from the exact ones.
* `uint32_t` values are naturals below `2 ^ 32`; `int` is 32-bit two's complement, `short`
  16-bit; objects lie in memory least significant byte first (x86-64, AArch64).
* `sin` is the C library function; it is a parameter of the embedding.  For a statement
  about one sample, `sinAt` gives it a value at the angle of that sample.
* An operation whose behaviour the language leaves undefined (a floating value converted to
  an integer type that cannot hold it, a remainder by zero) yields `none`.
* A `std::ofstream` is the bytes that reached the file, the bytes still in the stream
  buffer and the error state; the environment decides whether the file opens, how many bytes
  it accepts and how large the buffer is.
* Where a statement is about the sweep formulas as real functions, the formulas are also
  given over a field, and the values the source computes are related to them by error bounds.
-/

namespace ToneGenerator

/-! ## Binary64 arithmetic -/

/-- A binary64 datum: `finite neg m e` stands for `(-1) ^ neg * m * 2 ^ e`. -/
inductive Double where
  | finite (neg : Bool) (m : Nat) (e : Int)
  | inf (neg : Bool)
  | nan
deriving DecidableEq

namespace Double

/-- Positive zero. -/
def zero : Double := finite false 0 (-1074)

/-- Rational value of a finite datum (`0` for infinities and NaN). -/
def toRat : Double → ℚ
  | finite neg m e => (if neg then -1 else 1) * (m : ℚ) * (2 : ℚ) ^ e
  | _ => 0

/-- Finite data, the ones that denote a number. -/
def isFinite : Double → Bool
  | finite _ _ _ => true
  | _ => false

/-- Test `p / q < 2 ^ (e + 53)`: the quotient measured in units of `2 ^ e` needs at most
53 bits. -/
def fits (p q : Nat) (e : Int) : Bool :=
  if 0 ≤ e + 53 then decide (p < q <<< (e + 53).toNat)
  else decide (p <<< (-(e + 53)).toNat < q)

/-- Bisection for the least exponent `e` in `[lo, lo + 2 ^ j)` with `fits p q e`
(`lo + 2 ^ j - 1` when there is none). -/
def findExp (p q : Nat) : Nat → Int → Int
  | 0, lo => lo
  | j + 1, lo =>
    if fits p q (lo + 2 ^ j - 1) then findExp p q j lo else findExp p q j (lo + 2 ^ j)

/-- Nearest integer to `num / den`, ties to the even one. -/
def rne (num den : Nat) : Nat :=
  let m := num / den
  let r := num % den
  if 2 * r < den then m
  else if den < 2 * r then m + 1
  else if m % 2 = 0 then m else m + 1

/-- Round the exact magnitude `p / q` (with `0 < q`) to binary64. -/
def roundQ (neg : Bool) (p q : Nat) : Double :=
  let e := findExp p q 11 (-1074)
  let m := if 0 ≤ e then rne p (q <<< e.toNat) else rne (p <<< (-e).toNat) q
  let e1 := if m = 9007199254740992 then e + 1 else e
  let m1 := if m = 9007199254740992 then 4503599627370496 else m
  if 971 < e1 then inf neg else finite neg m1 e1

/-- Round the exact magnitude `p / q * 2 ^ e`. -/
def roundScaled (neg : Bool) (p q : Nat) (e : Int) : Double :=
  if 0 ≤ e then roundQ neg (p <<< e.toNat) q else roundQ neg p (q <<< (-e).toNat)

/-- Conversion of an unsigned integer. -/
def ofNat (n : Nat) : Double := roundQ false n 1

/-- Conversion of a signed integer. -/
def ofInt (z : Int) : Double := roundQ (decide (z < 0)) z.natAbs 1

/-- A decimal literal `mant / 10 ^ digits`, correctly rounded. -/
def ofDecimal (mant digits : Nat) : Double := roundQ false mant (10 ^ digits)

/-- Binary64 product. -/
def mul : Double → Double → Double
  | nan, _ => nan
  | _, nan => nan
  | inf s, inf t => inf (xor s t)
  | inf s, finite t n _ => if n = 0 then nan else inf (xor s t)
  | finite s m _, inf t => if m = 0 then nan else inf (xor s t)
  | finite s m e, finite t n f => roundScaled (xor s t) (m * n) 1 (e + f)

/-- Binary64 quotient. -/
def div : Double → Double → Double
  | nan, _ => nan
  | _, nan => nan
  | inf _, inf _ => nan
  | inf s, finite t _ _ => inf (xor s t)
  | finite s _ _, inf t => finite (xor s t) 0 (-1074)
  | finite s m e, finite t n f =>
    if n = 0 then (if m = 0 then nan else inf (xor s t))
    else roundScaled (xor s t) m n (e - f)

/-- The integer `(-1) ^ neg * m * 2 ^ (e - c)`, for `c ≤ e`. -/
def aligned (neg : Bool) (m : Nat) (e c : Int) : Int :=
  if neg then -((m <<< (e - c).toNat : Nat) : Int) else ((m <<< (e - c).toNat : Nat) : Int)

/-- Binary64 sum. -/
def add : Double → Double → Double
  | nan, _ => nan
  | _, nan => nan
  | inf s, inf t => if s = t then inf s else nan
  | inf s, finite _ _ _ => inf s
  | finite _ _ _, inf t => inf t
  | finite s m e, finite t n f =>
    let c := min e f
    let z := aligned s m e c + aligned t n f c
    if z = 0 then finite (s && t) 0 (-1074)
    else roundScaled (decide (z < 0)) z.natAbs 1 c

/-- The comparison `x < y`; false as soon as one side is NaN. -/
def lt : Double → Double → Bool
  | nan, _ => false
  | _, nan => false
  | inf s, inf t => s && !t
  | inf s, finite _ _ _ => s
  | finite _ _ _, inf t => !t
  | finite s m e, finite t n f =>
    decide (aligned s m e (min e f) < aligned t n f (min e f))

/-- Integral part of the magnitude. -/
def truncMag (m : Nat) (e : Int) : Nat :=
  if 0 ≤ e then m <<< e.toNat else m >>> (-e).toNat

/-- The conversion `static_cast<uint32_t>`: truncation toward zero, undefined when the
truncated value is not a `uint32_t`. -/
def toUInt32 : Double → Option Nat
  | finite neg m e =>
    let t := truncMag m e
    if neg && t != 0 then none else if t < 4294967296 then some t else none
  | _ => none

/-- The conversion `static_cast<int16_t>`: truncation toward zero, undefined when the
truncated value is not an `int16_t`. -/
def toInt16 : Double → Option Int
  | finite neg m e =>
    let t := truncMag m e
    if neg then (if t ≤ 32768 then some (-(t : Int)) else none)
    else (if t ≤ 32767 then some (t : Int) else none)
  | _ => none

/-- Finite, non-negative, of value at most `B`. -/
def NonnegLe (x : Double) (B : ℚ) : Prop :=
  ∃ m e, x = finite false m e ∧ (m : ℚ) * 2 ^ e ≤ B

/-- Truncation toward zero of a rational. -/
def roundTowardZero (x : ℚ) : Int := if 0 ≤ x then ⌊x⌋ else ⌈x⌉

end Double

/-! ## `Tone<int16_t>` -/

/-- Waveform shape (`enum Waveform`). -/
inductive Waveform where
  | Sine
  | Square
deriving DecidableEq

/-- The static data of `Tone`: the process-wide sample rate, a `uint32_t`. -/
structure ToneStatics where
  _sampleRate : Nat
deriving DecidableEq

/-- Initial value of the static member: `_sampleRate = 44100`. -/
def ToneStatics.initial : ToneStatics := ⟨44100⟩

/-- `Tone::setSampleRate`. -/
def setSampleRate (_st : ToneStatics) (sampleRate : Nat) : ToneStatics := ⟨sampleRate⟩

/-- `_PI = 3.14159265358979323846`. -/
def _PI : Double := Double.ofDecimal 314159265358979323846 20

/-- `_D_PI = 2.0 * _PI`. -/
def _D_PI : Double := Double.mul (Double.ofDecimal 20 1) _PI

/-- `uint32_t totalSamples = static_cast<uint32_t>(_sampleRate * duration)`. -/
def sweepTotalSamples (st : ToneStatics) (duration : Double) : Option Nat :=
  Double.toUInt32 (Double.mul (Double.ofNat st._sampleRate) duration)

/-- `double freqStep = (endFreq - startFreq) / duration`: the difference is taken in
`uint32_t`, hence modulo `2 ^ 32`, before the conversion to `double`. -/
def sweepFreqStep (startFreq endFreq : Nat) (duration : Double) : Double :=
  Double.div (Double.ofNat ((endFreq + 4294967296 - startFreq) % 4294967296)) duration

/-- `double time = static_cast<double>(i) / _sampleRate`. -/
def sweepTime (st : ToneStatics) (i : Nat) : Double :=
  Double.div (Double.ofNat i) (Double.ofNat st._sampleRate)

/-- `double freq = startFreq + freqStep * time`. -/
def sweepFreq (st : ToneStatics) (startFreq : Nat) (freqStep : Double) (i : Nat) : Double :=
  Double.add (Double.ofNat startFreq) (Double.mul freqStep (sweepTime st i))

/-- `double angle = _D_PI * freq * time`. -/
def sweepAngle (st : ToneStatics) (startFreq : Nat) (freqStep : Double) (i : Nat) : Double :=
  Double.mul (Double.mul _D_PI (sweepFreq st startFreq freqStep i)) (sweepTime st i)

/-- The `switch (waveform)` of the loop body. -/
def sweepNormalized (sin : Double → Double) (waveform : Waveform) (angle : Double) : Double :=
  match waveform with
  | Waveform.Sine => sin angle
  | Waveform.Square =>
    if Double.lt (Double.ofInt 0) (sin angle) then Double.ofInt 1 else Double.ofInt (-1)

/-- One iteration of the loop: the value stored in `samples[i]`. -/
def sweepSample (sin : Double → Double) (st : ToneStatics) (startFreq : Nat)
    (freqStep : Double) (waveform : Waveform) (i : Nat) : Option Int :=
  Double.toInt16
    (Double.mul (sweepNormalized sin waveform (sweepAngle st startFreq freqStep i))
      (Double.ofInt 32767))

/-- `Tone<int16_t>::generateSweep`. -/
def generateSweep (sin : Double → Double) (st : ToneStatics) (startFreq endFreq : Nat)
    (duration : Double) (waveform : Waveform) : Option (List Int) :=
  match sweepTotalSamples st duration with
  | none => none
  | some totalSamples =>
    (List.range totalSamples).mapM
      (sweepSample sin st startFreq (sweepFreqStep startFreq endFreq duration) waveform)

/-- A function with the two properties assumed of the library `sin`: finite arguments give
finite results of magnitude at most 1, and `+0` gives `+0`.  It serves to instantiate
statements that hold for every such function. -/
def zeroSin : Double → Double
  | Double.finite _ _ _ => Double.zero
  | _ => Double.nan

/-- A sine given at the single argument `x`, where its value is `y`; elsewhere it is
`zeroSin`.  It stands for the library function in a statement about the one sample whose
angle is `x`. -/
def sinAt (x y : Double) : Double → Double :=
  fun a => if a = x then y else zeroSin a

/-! ## The frequency step as the specification words it -/

/-- Frequency step `(endFrequency - startFrequency) / duration`, the difference being the
signed one. -/
def specStep (startFreq endFreq : Nat) (duration : Double) : Double :=
  Double.div (Double.ofInt ((endFreq : Int) - (startFreq : Int))) duration

/-! ## WAV container -/

/-- Reduction of an integer to the range of `int`. -/
def wrapInt32 (x : Int) : Int := (x + 2147483648) % 4294967296 - 2147483648

/-- The `w` low-order bytes of `x`, least significant first. -/
def leBytes : Nat → Nat → List Nat
  | 0, _ => []
  | w + 1, x => x % 256 :: leBytes w (x / 256)

/-- Memory image of a `w`-byte two's-complement integer object holding `x`. -/
def memBytes (w : Nat) (x : Int) : List Nat := leBytes w (x % 256 ^ w).toNat

/-- The call `file.write(reinterpret_cast<char*>(&x), n)` on a `w`-byte object: its first
`n` bytes. -/
def writeObject (w n : Nat) (x : Int) : List Nat := (memBytes w x).take n

/-- The call `file.write(s, n)` on a character string. -/
def writeChars (s : String) (n : Nat) : List Nat := (s.toList.map Char.toNat).take n

/-- The local variables of `writeWavHeader`. -/
structure HeaderFields where
  byteRate : Int
  blockAlign : Int
  dataSize : Int
  fileSize : Int
deriving DecidableEq

/-- Lines 109 to 116 of `writeWavHeader`: `int` arithmetic, the division truncating. -/
def headerFields (sampleRate bitsPerSample numChannels numSamples : Int) : HeaderFields :=
  let byteRate := Int.tdiv (wrapInt32 (wrapInt32 (sampleRate * numChannels) * bitsPerSample)) 8
  let blockAlign := Int.tdiv (wrapInt32 (numChannels * bitsPerSample)) 8
  let dataSize := wrapInt32 (numSamples * blockAlign)
  let fileSize := wrapInt32 (36 + dataSize)
  ⟨byteRate, blockAlign, dataSize, fileSize⟩

/-- `writeWavHeader`: the bytes appended to the stream. -/
def writeWavHeader (sampleRate bitsPerSample numChannels numSamples : Int) : List Nat :=
  let h := headerFields sampleRate bitsPerSample numChannels numSamples
  writeChars "RIFF" 4
    ++ writeObject 4 4 h.fileSize
    ++ writeChars "WAVEfmt " 8
    ++ writeObject 4 4 16
    ++ writeObject 2 2 1
    ++ writeObject 4 2 numChannels
    ++ writeObject 4 4 sampleRate
    ++ writeObject 4 4 h.byteRate
    ++ writeObject 4 2 h.blockAlign
    ++ writeObject 4 2 bitsPerSample
    ++ writeChars "data" 4
    ++ writeObject 4 4 h.dataSize

/-- The payload loop of `main`: `wavFile.write(&sample, sizeof(sample))` per sample. -/
def writeSamples (samples : List Int) : List Nat :=
  samples.flatMap (fun sample => writeObject 2 2 sample)

/-- Lines 147 to 152 of `main` for a given buffer and format: the header, with
`static_cast<int>(sweep.size())` samples, then the payload. -/
def writeWav (sampleRate bitsPerSample numChannels : Int) (sweep : List Int) : List Nat :=
  writeWavHeader sampleRate bitsPerSample numChannels (wrapInt32 sweep.length)
    ++ writeSamples sweep

/-- The bytes `main` writes to `sweep.wav`. -/
def mainOutput (sin : Double → Double) : Option (List Nat) :=
  (generateSweep sin ToneStatics.initial 20 20000 (Double.ofDecimal 100 1) Waveform.Sine).map
    (writeWav 44100 16 1)

/-- Value of a little-endian unsigned field. -/
def leValue : List Nat → Nat
  | [] => 0
  | b :: bs => b + 256 * leValue bs

/-- The `n`-byte field at offset `off`. -/
def field (bytes : List Nat) (off n : Nat) : List Nat := (bytes.drop off).take n

/-- Value of a little-endian two's-complement 16-bit field. -/
def int16Value (bytes : List Nat) : Int :=
  if leValue bytes < 32768 then (leValue bytes : Int) else (leValue bytes : Int) - 65536

/-! ## Rounding as a relation -/

/-- The datum `x` is the binary64 rounding of the exact non-negative value `v`. -/
def Double.RoundsTo (x : Double) (v : ℚ) : Prop :=
  ∃ p q a, 0 < q ∧ x = Double.roundScaled false p q a ∧ (p : ℚ) / q * 2 ^ a = v

/-- Finite data with the sign bit clear. -/
def Double.Nonneg (x : Double) : Prop := ∃ m e, x = Double.finite false m e

/-- The value `x` is within `k` roundings of `v`: between `v * (1 - 2 ^ (-53)) ^ k` and
`v * (1 + 2 ^ (-53)) ^ k`. -/
def Double.Within (k : Nat) (x v : ℚ) : Prop :=
  v * (1 - 2 ^ (-53 : Int)) ^ k ≤ x ∧ x ≤ v * (1 + 2 ^ (-53 : Int)) ^ k

/-! ## The `Tone` object -/

/-- The non-static members of a `Tone<int16_t>`: `_length` and the buffer that `_samples`
points to. -/
structure Tone where
  _length : Nat
  _samples : List Int
deriving DecidableEq

/-- Member `operator[]` (line 96): the position `i % _length` of the element the returned
reference denotes. The remainder by zero and a position outside the buffer are undefined. -/
def Tone.subscript (t : Tone) (i : Nat) : Option Nat :=
  if t._length = 0 then none
  else if i % t._length < t._samples.length then some (i % t._length) else none

/-- Reading through the reference `operator[]` returns. -/
def Tone.read (t : Tone) (i : Nat) : Option Int :=
  (t.subscript i).bind (fun p => t._samples[p]?)

/-- Everything a member function of `Tone<int16_t>` can reach besides its arguments: the static
`_sampleRate` and the members of the object it is called on. -/
structure ToneState where
  statics : ToneStatics
  self : Tone
deriving DecidableEq

/-- A call `self.generateSweep(startFreq, endFreq, duration, waveform)` in a given state (lines
56 to 80): the returned vector and the state after the call. The body reads its arguments and
`_sampleRate`; it names neither `_length` nor `_samples` and assigns to no member. -/
def callGenerateSweep (sin : Double → Double) (s : ToneState) (startFreq endFreq : Nat)
    (duration : Double) (waveform : Waveform) : Option (List Int) × ToneState :=
  (generateSweep sin s.statics startFreq endFreq duration waveform, s)

/-! ## The output stream -/

/-- State of a `std::ofstream`: the bytes that reached the file, the bytes still in the stream
buffer, whether `failbit` or `badbit` is set, how many more bytes the destination accepts
(`none`: no limit) and the size of the buffer, which the implementation chooses. -/
structure OFStream where
  file : List Nat
  buffer : List Nat
  failed : Bool
  room : Option Nat
  bufSize : Nat
deriving DecidableEq

/-- Constructor `std::ofstream(name, std::ios::binary)`: `failbit` is set when the file
cannot be opened. -/
def OFStream.open (opened : Bool) (room : Option Nat) (bufSize : Nat) : OFStream :=
  ⟨[], [], !opened, room, bufSize⟩

/-- The buffer handed to the destination: the destination takes the bytes it has room for, and
the stream enters its error state when some are left over. -/
def OFStream.flush (s : OFStream) : OFStream :=
  match s.room with
  | none => ⟨s.file ++ s.buffer, [], s.failed, none, s.bufSize⟩
  | some r =>
    if s.buffer.length ≤ r then
      ⟨s.file ++ s.buffer, [], s.failed, some (r - s.buffer.length), s.bufSize⟩
    else ⟨s.file ++ s.buffer.take r, [], true, some 0, s.bufSize⟩

/-- One byte of a `write`: nothing happens on a stream in error state; a full buffer is flushed
before the byte is stored in it. -/
def OFStream.put (s : OFStream) (b : Nat) : OFStream :=
  if s.failed then s
  else if s.buffer.length < s.bufSize then
    ⟨s.file, s.buffer ++ [b], false, s.room, s.bufSize⟩
  else if s.flush.failed then s.flush
  else ⟨s.flush.file, s.flush.buffer ++ [b], false, s.flush.room, s.bufSize⟩

/-- Member `write(s, n)` with the `n` bytes `data`. -/
def OFStream.write (s : OFStream) (data : List Nat) : OFStream := data.foldl OFStream.put s

/-- Member `close()`: what is buffered is flushed. -/
def OFStream.close (s : OFStream) : OFStream := if s.failed then s else s.flush

/-- The twelve `file.write` calls of `writeWavHeader`, in order. -/
def headerWrites (sampleRate bitsPerSample numChannels numSamples : Int) : List (List Nat) :=
  let h := headerFields sampleRate bitsPerSample numChannels numSamples
  [writeChars "RIFF" 4, writeObject 4 4 h.fileSize, writeChars "WAVEfmt " 8, writeObject 4 4 16,
    writeObject 2 2 1, writeObject 4 2 numChannels, writeObject 4 4 sampleRate,
    writeObject 4 4 h.byteRate, writeObject 4 2 h.blockAlign, writeObject 4 2 bitsPerSample,
    writeChars "data" 4, writeObject 4 4 h.dataSize]

/-- Function `writeWavHeader` on a stream (lines 107 to 130). It returns `void`: the stream,
which the caller passed by reference, is all it leaves behind. -/
def writeWavHeaderTo (file : OFStream) (sampleRate bitsPerSample numChannels numSamples : Int) :
    OFStream :=
  (headerWrites sampleRate bitsPerSample numChannels numSamples).foldl OFStream.write file

/-- What a run of `main` leaves behind: the value it returns, the line it sends to `std::cout`
and the stream `wavFile` after `close()`. -/
structure MainResult where
  exitStatus : Int
  output : String
  wavFile : OFStream
deriving DecidableEq

/-- Lines 142 to 157 of `main` for a given buffer `sweep`: `opened` tells whether `sweep.wav`
could be opened, `room` how many bytes it accepts and `bufSize` the size of the stream
buffer. -/
def mainWrite (opened : Bool) (room : Option Nat) (bufSize : Nat) (sweep : List Int) :
    MainResult :=
  let wavFile := writeWavHeaderTo (OFStream.open opened room bufSize) 44100 16 1
    (wrapInt32 sweep.length)
  let wavFile := sweep.foldl (fun file sample => file.write (writeObject 2 2 sample)) wavFile
  ⟨0, "Sweep WAV file has been written.", wavFile.close⟩

/-- Function `main`. -/
def mainRun (sin : Double → Double) (opened : Bool) (room : Option Nat) (bufSize : Nat) :
    Option MainResult :=
  (generateSweep sin ToneStatics.initial 20 20000 (Double.ofDecimal 100 1) Waveform.Sine).map
    (mainWrite opened room bufSize)

/-! ## The sweep formulas in exact arithmetic -/

/-- The frequency of line 64 with the operations taken in a field: `f0 + step × t`. -/
def exactFreq {K : Type} [Field K] (f0 step t : K) : K := f0 + step * t

/-- The phase of line 65 with the operations taken in a field, `c` standing for 2π:
`c × (f0 + step × t) × t`. -/
def directPhase {K : Type} [Field K] (c f0 step t : K) : K := c * exactFreq f0 step t * t

/-- The phase of a linear sweep as the specification gives it:
`c × (f0 × t + step × t² / 2)`. -/
def linearSweepPhase {K : Type} [Field K] (c f0 step t : K) : K :=
  c * (f0 * t + step * t ^ 2 / 2)

/-! ## Lemmas on the byte stream -/

theorem wrapInt32_of_range {x : Int} (h0 : -2147483648 ≤ x) (h1 : x < 2147483648) :
    wrapInt32 x = x := by
  unfold wrapInt32; omega

theorem writeChars_RIFF : writeChars "RIFF" 4 = [82, 73, 70, 70] := by decide
theorem writeChars_WAVEfmt : writeChars "WAVEfmt " 8 = [87, 65, 86, 69, 102, 109, 116, 32] := by decide
theorem writeChars_data : writeChars "data" 4 = [100, 97, 116, 97] := by decide

theorem writeObject_4_4 (x : Int) :
    writeObject 4 4 x = [(x % 4294967296).toNat % 256, (x % 4294967296).toNat / 256 % 256,
      (x % 4294967296).toNat / 256 / 256 % 256, (x % 4294967296).toNat / 256 / 256 / 256 % 256] := by
  simp [writeObject, memBytes, leBytes]

theorem writeObject_4_2 (x : Int) :
    writeObject 4 2 x = [(x % 4294967296).toNat % 256, (x % 4294967296).toNat / 256 % 256] := by
  simp [writeObject, memBytes, leBytes]

theorem writeObject_2_2 (x : Int) :
    writeObject 2 2 x = [(x % 65536).toNat % 256, (x % 65536).toNat / 256 % 256] := by
  simp [writeObject, memBytes, leBytes]

theorem leValue_four (a b c d : Nat) : leValue [a, b, c, d] = a + 256 * (b + 256 * (c + 256 * d)) := by
  simp [leValue]

theorem leValue_two (a b : Nat) : leValue [a, b] = a + 256 * b := by
  simp [leValue]

/-- Unsigned value of the 4-byte image. -/
theorem leValue_writeObject_4_4 (x : Int) : (leValue (writeObject 4 4 x) : Int) = x % 4294967296 := by
  rw [writeObject_4_4, leValue_four]; omega

theorem leValue_writeObject_4_2 (x : Int) : (leValue (writeObject 4 2 x) : Int) = x % 65536 := by
  rw [writeObject_4_2, leValue_two]; omega

theorem leValue_writeObject_2_2 (x : Int) : (leValue (writeObject 2 2 x) : Int) = x % 65536 := by
  rw [writeObject_2_2, leValue_two]; omega

theorem writeWavHeader_length (sr bps nc ns : Int) : (writeWavHeader sr bps nc ns).length = 44 := by
  simp [writeWavHeader, writeChars_RIFF, writeChars_WAVEfmt, writeChars_data, writeObject_4_4, writeObject_4_2, writeObject_2_2]

theorem writeWavHeader_fields (sr bps nc ns : Int) :
    field (writeWavHeader sr bps nc ns) 0 4 = [82, 73, 70, 70]
    ∧ field (writeWavHeader sr bps nc ns) 4 4 = writeObject 4 4 (headerFields sr bps nc ns).fileSize
    ∧ field (writeWavHeader sr bps nc ns) 8 8 = [87, 65, 86, 69, 102, 109, 116, 32]
    ∧ field (writeWavHeader sr bps nc ns) 16 4 = writeObject 4 4 16
    ∧ field (writeWavHeader sr bps nc ns) 20 2 = writeObject 2 2 1
    ∧ field (writeWavHeader sr bps nc ns) 22 2 = writeObject 4 2 nc
    ∧ field (writeWavHeader sr bps nc ns) 24 4 = writeObject 4 4 sr
    ∧ field (writeWavHeader sr bps nc ns) 28 4 = writeObject 4 4 (headerFields sr bps nc ns).byteRate
    ∧ field (writeWavHeader sr bps nc ns) 32 2 = writeObject 4 2 (headerFields sr bps nc ns).blockAlign
    ∧ field (writeWavHeader sr bps nc ns) 34 2 = writeObject 4 2 bps
    ∧ field (writeWavHeader sr bps nc ns) 36 4 = [100, 97, 116, 97]
    ∧ field (writeWavHeader sr bps nc ns) 40 4 = writeObject 4 4 (headerFields sr bps nc ns).dataSize := by
  simp only [writeWavHeader, writeChars_RIFF, writeChars_WAVEfmt, writeChars_data, writeObject_4_4, writeObject_4_2, writeObject_2_2, field]
  simp

theorem mem_writeWavHeader_lt (sr bps nc ns : Int) : ∀ b ∈ writeWavHeader sr bps nc ns, b < 256 := by
  intro b hb
  simp only [writeWavHeader, writeChars_RIFF, writeChars_WAVEfmt, writeChars_data, writeObject_4_4, writeObject_4_2, writeObject_2_2] at hb
  simp at hb
  omega

/-- The local variables when no `int` operation overflows. -/
theorem headerFields_of_no_overflow (sr bps nc ns : Int)
    (h1 : 0 ≤ sr) (h2 : 0 ≤ bps) (h3 : 0 ≤ nc) (h4 : 0 ≤ ns)
    (o1 : sr * nc < 2147483648) (o2 : sr * nc * bps < 2147483648)
    (o3 : nc * bps < 2147483648) (o4 : 36 + ns * (nc * bps / 8) < 2147483648) :
    headerFields sr bps nc ns
      = ⟨sr * nc * bps / 8, nc * bps / 8, ns * (nc * bps / 8), 36 + ns * (nc * bps / 8)⟩ := by
  have p1 : 0 ≤ sr * nc := Int.mul_nonneg h1 h3
  have p2 : 0 ≤ sr * nc * bps := Int.mul_nonneg p1 h2
  have p3 : 0 ≤ nc * bps := Int.mul_nonneg h3 h2
  have p4 : 0 ≤ nc * bps / 8 := Int.ediv_nonneg p3 (by norm_num)
  have p5 : 0 ≤ ns * (nc * bps / 8) := Int.mul_nonneg h4 p4
  unfold headerFields
  simp only
  rw [wrapInt32_of_range (by omega) o1, wrapInt32_of_range (by omega) o2,
    wrapInt32_of_range (by omega) o3, Int.tdiv_eq_ediv p2 (by norm_num),
    Int.tdiv_eq_ediv p3 (by norm_num), wrapInt32_of_range (by omega) (by omega),
    wrapInt32_of_range (by omega) (by omega)]

theorem field_append_left (a b : List Nat) (off n : Nat) (h : off + n ≤ a.length) :
    field (a ++ b) off n = field a off n := by
  unfold field
  rw [List.drop_append_of_le_length (by omega), List.take_append_of_le_length (by simp; omega)]

theorem field_append_right (a b : List Nat) (off n : Nat) :
    field (a ++ b) (a.length + off) n = field b off n := by
  unfold field
  rw [List.drop_append]

theorem writeSamples_length (l : List Int) : (writeSamples l).length = 2 * l.length := by
  induction l with
  | nil => simp [writeSamples]
  | cons x xs ih =>
    simp only [writeSamples, List.flatMap_cons, List.length_append, List.length_cons] at ih ⊢
    rw [ih, writeObject_2_2]; simp; omega

theorem field_writeSamples (l : List Int) (k : Nat) (x : Int) (h : l[k]? = some x) :
    field (writeSamples l) (2 * k) 2 = writeObject 2 2 x := by
  induction l generalizing k with
  | nil => simp at h
  | cons y ys ih =>
    cases k with
    | zero =>
      simp at h; subst h
      simp [writeSamples, field, writeObject_2_2]
    | succ k =>
      simp at h
      have := ih k h
      have e : 2 * (k + 1) = (writeObject 2 2 y).length + 2 * k := by
        rw [writeObject_2_2]; simp; omega
      simp only [writeSamples, List.flatMap_cons] at this ⊢
      rw [e, field_append_right]; exact this

theorem int16Value_writeObject (x : Int) (h0 : -32768 ≤ x) (h1 : x ≤ 32767) :
    int16Value (writeObject 2 2 x) = x := by
  unfold int16Value
  have := leValue_writeObject_2_2 x
  split_ifs with h <;> omega

theorem field_header_append (sr bps nc ns : Int) (b : List Nat) (off n : Nat)
    (h : off + n ≤ 44) :
    field (writeWavHeader sr bps nc ns ++ b) off n = field (writeWavHeader sr bps nc ns) off n :=
  field_append_left _ _ _ _ (by rw [writeWavHeader_length]; exact h)

theorem headerFields_mono16 (sampleRate numSamples : Int) :
    (headerFields sampleRate 16 1 numSamples).dataSize = wrapInt32 (numSamples * 2)
    ∧ (headerFields sampleRate 16 1 numSamples).fileSize
        = wrapInt32 (36 + wrapInt32 (numSamples * 2)) := by
  have e : Int.tdiv (wrapInt32 (1 * 16)) 8 = 2 := by decide
  simp only [headerFields, e, and_self]

/-- Sizes of a mono 16-bit container whose size fields do not overflow. -/
theorem writeWav_sizes (sampleRate : Int) (samples : List Int)
    (hn : 36 + 2 * samples.length < 2147483648) :
    (writeWav sampleRate 16 1 samples).length = 44 + 2 * samples.length
    ∧ leValue (field (writeWav sampleRate 16 1 samples) 40 4) = 2 * samples.length
    ∧ leValue (field (writeWav sampleRate 16 1 samples) 4 4) = 36 + 2 * samples.length := by
  have hw : wrapInt32 (samples.length : Int) = samples.length :=
    wrapInt32_of_range (by omega) (by omega)
  obtain ⟨d1, d2⟩ := headerFields_mono16 sampleRate (samples.length : Int)
  have w2 : wrapInt32 ((samples.length : Int) * 2) = (samples.length : Int) * 2 :=
    wrapInt32_of_range (by omega) (by omega)
  have w3 : wrapInt32 (36 + (samples.length : Int) * 2) = 36 + (samples.length : Int) * 2 :=
    wrapInt32_of_range (by omega) (by omega)
  rw [w2] at d1 d2
  rw [w3] at d2
  obtain ⟨-, f4, -, -, -, -, -, -, -, -, -, f40⟩ :=
    writeWavHeader_fields sampleRate 16 1 (samples.length : Int)
  unfold writeWav
  rw [hw]
  refine ⟨?_, ?_, ?_⟩
  · rw [List.length_append, writeWavHeader_length, writeSamples_length]
  · rw [field_header_append _ _ _ _ _ _ _ (by omega), f40, d1]
    have := leValue_writeObject_4_4 ((samples.length : Int) * 2)
    omega
  · rw [field_header_append _ _ _ _ _ _ _ (by omega), f4, d2]
    have := leValue_writeObject_4_4 (36 + (samples.length : Int) * 2)
    omega

/-! ## Lemmas on binary64 rounding -/

namespace Double

theorem two_zpow_pos (e : Int) : (0 : ℚ) < 2 ^ e := zpow_pos (by norm_num) e

theorem two_zpow_add (a b : Int) : (2 : ℚ) ^ (a + b) = 2 ^ a * 2 ^ b :=
  zpow_add₀ (by norm_num) a b

theorem two_zpow_mono {a b : Int} (h : a ≤ b) : (2 : ℚ) ^ a ≤ 2 ^ b :=
  zpow_le_zpow_right₀ (by norm_num) h

theorem two_zpow_strict {a b : Int} (h : a < b) : (2 : ℚ) ^ a < 2 ^ b :=
  zpow_lt_zpow_right₀ (by norm_num) h

theorem shiftLeft_cast (a k : Nat) : ((a <<< k : Nat) : ℚ) = a * 2 ^ k := by
  rw [Nat.shiftLeft_eq]; push_cast; ring

theorem pow_toNat {e : Int} (h : 0 ≤ e) : (2 : ℚ) ^ e.toNat = 2 ^ e := by
  rw [← zpow_natCast, Int.toNat_of_nonneg h]

theorem pow_neg_toNat {e : Int} (h : e ≤ 0) : (2 : ℚ) ^ (-e).toNat = (2 ^ e)⁻¹ := by
  rw [← zpow_natCast, Int.toNat_of_nonneg (by omega), zpow_neg]

/-- Meaning of `fits`. -/
theorem fits_iff {p q : Nat} (hq : 0 < q) (e : Int) :
    fits p q e = true ↔ (p : ℚ) / q < 2 ^ (e + 53) := by
  have hq' : (0 : ℚ) < q := by exact_mod_cast hq
  unfold fits
  split_ifs with h
  · rw [decide_eq_true_iff, div_lt_iff₀ hq', ← pow_toNat h, ← Nat.cast_lt (α := ℚ),
      shiftLeft_cast, mul_comm]
  · have h' : e + 53 ≤ 0 := by omega
    have hpos := two_zpow_pos (e + 53)
    rw [decide_eq_true_iff, ← Nat.cast_lt (α := ℚ), shiftLeft_cast, pow_neg_toNat h',
      div_lt_iff₀ hq', ← div_eq_mul_inv, div_lt_iff₀ hpos, mul_comm (2 ^ (e + 53) : ℚ)]

theorem fits_mono {p q : Nat} (hq : 0 < q) {e e' : Int} (h : e ≤ e')
    (hf : fits p q e = true) : fits p q e' = true := by
  rw [fits_iff hq] at hf ⊢
  exact lt_of_lt_of_le hf (two_zpow_mono (by omega))

/-- The bisection returns the least fitting exponent of its window. -/
theorem findExp_spec {p q : Nat} (hq : 0 < q) (j : Nat) (lo : Int) :
    lo ≤ findExp p q j lo ∧ findExp p q j lo < lo + 2 ^ j
    ∧ (fits p q (lo + 2 ^ j - 1) = true → fits p q (findExp p q j lo) = true)
    ∧ (∀ e, lo ≤ e → e < findExp p q j lo → fits p q e = false) := by
  induction j generalizing lo with
  | zero =>
    refine ⟨le_refl _, by simp [findExp], ?_, ?_⟩
    · intro h; simpa [findExp] using h
    · intro e h1 h2; simp only [findExp] at h2; omega
  | succ j ih =>
    have hp : (2 : Int) ^ (j + 1) = 2 * 2 ^ j := by rw [pow_succ]; ring
    have hpos : (0 : Int) < 2 ^ j := by positivity
    by_cases hmid : fits p q (lo + 2 ^ j - 1) = true
    · obtain ⟨a, b, c, d⟩ := ih lo
      have e1 : findExp p q (j + 1) lo = findExp p q j lo := by
        simp only [findExp, hmid, if_true]
      rw [e1, hp]
      exact ⟨a, by omega, fun _ => c hmid, d⟩
    · obtain ⟨a, b, c, d⟩ := ih (lo + 2 ^ j)
      have e1 : findExp p q (j + 1) lo = findExp p q j (lo + 2 ^ j) := by
        simp only [findExp, hmid]; rfl
      rw [e1, hp]
      refine ⟨by omega, by omega, ?_, ?_⟩
      · intro h; apply c
        have e2 : lo + 2 ^ j + 2 ^ j - 1 = lo + 2 * 2 ^ j - 1 := by ring
        rw [e2]; exact h
      · intro e h1 h2
        by_cases hle : e ≤ lo + 2 ^ j - 1
        · by_contra hf
          have hf' : fits p q e = true := by simpa using hf
          exact hmid (fits_mono hq hle hf')
        · exact d e (by omega) h2

theorem rne_le {num den K : Nat} (hd : 0 < den) (h : num ≤ K * den) : rne num den ≤ K := by
  have hm : num / den ≤ K := Nat.div_le_of_le_mul (by rw [Nat.mul_comm]; exact h)
  have hdm := Nat.div_add_mod num den
  have hr := Nat.mod_lt num hd
  unfold rne
  simp only
  rcases Nat.lt_or_ge (num / den) K with hlt | hge
  · split_ifs <;> omega
  · have hK : num / den = K := by omega
    have h0 : num % den = 0 := by
      rw [hK] at hdm
      have : den * K = K * den := Nat.mul_comm _ _
      omega
    rw [h0, if_pos (by omega)]
    exact hm

theorem le_rne {num den K : Nat} (hd : 0 < den) (h : K * den ≤ num) : K ≤ rne num den := by
  have hm : K ≤ num / den := (Nat.le_div_iff_mul_le hd).mpr h
  unfold rne
  simp only
  split_ifs <;> omega

/-- The significand chosen for exponent `e`. -/
theorem scaled_le {p q : Nat} (hq : 0 < q) (e : Int) (K : Nat)
    (h : (p : ℚ) / q ≤ K * 2 ^ e) :
    (if 0 ≤ e then rne p (q <<< e.toNat) else rne (p <<< (-e).toNat) q) ≤ K := by
  have hq' : (0 : ℚ) < q := by exact_mod_cast hq
  rw [div_le_iff₀ hq'] at h
  split_ifs with he
  · apply rne_le (by rw [Nat.shiftLeft_eq]; positivity)
    rw [← Nat.cast_le (α := ℚ)]; push_cast
    rw [shiftLeft_cast, pow_toNat he]; linarith
  · apply rne_le hq
    rw [← Nat.cast_le (α := ℚ)]; push_cast
    rw [shiftLeft_cast, pow_neg_toNat (by omega)]
    have hpos := two_zpow_pos e
    rw [← div_eq_mul_inv, div_le_iff₀ hpos]; linarith

theorem le_scaled {p q : Nat} (hq : 0 < q) (e : Int) (K : Nat)
    (h : (K : ℚ) * 2 ^ e ≤ p / q) :
    K ≤ (if 0 ≤ e then rne p (q <<< e.toNat) else rne (p <<< (-e).toNat) q) := by
  have hq' : (0 : ℚ) < q := by exact_mod_cast hq
  rw [le_div_iff₀ hq'] at h
  split_ifs with he
  · apply le_rne (by rw [Nat.shiftLeft_eq]; positivity)
    rw [← Nat.cast_le (α := ℚ)]; push_cast
    rw [shiftLeft_cast, pow_toNat he]; linarith
  · apply le_rne hq
    rw [← Nat.cast_le (α := ℚ)]; push_cast
    rw [shiftLeft_cast, pow_neg_toNat (by omega)]
    have hpos := two_zpow_pos e
    rw [← div_eq_mul_inv, le_div_iff₀ hpos]; linarith

theorem two_zpow_52 : (2 : ℚ) ^ (52 : Int) = 4503599627370496 := by norm_num
theorem two_zpow_53 : (2 : ℚ) ^ (53 : Int) = 9007199254740992 := by norm_num

theorem mul_zpow_split (n : Nat) {c e : Int} (h : e ≤ c) :
    ((n * 2 ^ (c - e).toNat : Nat) : ℚ) * 2 ^ e = n * 2 ^ c := by
  push_cast
  rw [pow_toNat (by omega), mul_assoc, ← two_zpow_add]
  congr 2; ring

/-- Rounding stays between any two representable bounds of the exact value. -/
theorem roundQ_bounds (neg : Bool) {p q : Nat} (hq : 0 < q) (n1 n2 : Nat) (c1 c2 : Int)
    (hn1 : n1 ≤ 9007199254740992) (hc1 : -1074 ≤ c1)
    (hn2 : n2 < 9007199254740992) (hc2 : -1074 ≤ c2) (hc2' : c2 ≤ 971)
    (hlo : (n1 : ℚ) * 2 ^ c1 ≤ p / q) (hhi : (p : ℚ) / q ≤ n2 * 2 ^ c2) :
    ∃ m e, roundQ neg p q = finite neg m e
      ∧ (n1 : ℚ) * 2 ^ c1 ≤ m * 2 ^ e ∧ (m : ℚ) * 2 ^ e ≤ n2 * 2 ^ c2 := by
  obtain ⟨hlo_e, hhi_e, hfit, hmin⟩ := findExp_spec (p := p) hq 11 (-1074)
  have h53 := two_zpow_53
  have h52 := two_zpow_52
  have hn2q : (n2 : ℚ) < 9007199254740992 := by exact_mod_cast hn2
  have hn1q : (n1 : ℚ) ≤ 9007199254740992 := by exact_mod_cast hn1
  have hn2' : (n2 : ℚ) * 2 ^ c2 < 2 ^ (c2 + 53) := by
    rw [two_zpow_add, h53, mul_comm]
    exact mul_lt_mul_of_pos_left hn2q (two_zpow_pos c2)
  have hfe : fits p q (findExp p q 11 (-1074)) = true := by
    apply hfit
    rw [fits_iff hq]
    calc (p : ℚ) / q ≤ n2 * 2 ^ c2 := hhi
      _ < 2 ^ (c2 + 53) := hn2'
      _ ≤ 2 ^ (-1074 + 2 ^ 11 - 1 + 53) := two_zpow_mono (by norm_num; omega)
  have hx_lt := (fits_iff hq _).1 hfe
  have hx_ge : findExp p q 11 (-1074) ≠ -1074 →
      (2 : ℚ) ^ (findExp p q 11 (-1074) + 52) ≤ p / q := by
    intro hne
    have hf := hmin (findExp p q 11 (-1074) - 1) (by omega) (by omega)
    by_contra hcon
    push_neg at hcon
    have : fits p q (findExp p q 11 (-1074) - 1) = true := by
      rw [fits_iff hq]
      have e : findExp p q 11 (-1074) - 1 + 53 = findExp p q 11 (-1074) + 52 := by ring
      rw [e]; exact hcon
    rw [hf] at this; exact Bool.false_ne_true this
  unfold roundQ
  generalize findExp p q 11 (-1074) = e at *
  generalize hm : (if 0 ≤ e then rne p (q <<< e.toNat) else rne (p <<< (-e).toNat) q) = m
  have hm52 : e ≠ -1074 → 4503599627370496 ≤ m := by
    intro hne
    rw [← hm]
    apply le_scaled hq
    have := hx_ge hne
    rw [add_comm, two_zpow_add, h52] at this
    exact_mod_cast this
  have hmlo : (n1 : ℚ) * 2 ^ c1 ≤ m * 2 ^ e := by
    by_cases hc : e ≤ c1
    · have : n1 * 2 ^ (c1 - e).toNat ≤ m := by
        rw [← hm]; apply le_scaled hq
        rw [mul_zpow_split n1 hc]; exact hlo
      calc (n1 : ℚ) * 2 ^ c1 = ((n1 * 2 ^ (c1 - e).toNat : Nat) : ℚ) * 2 ^ e :=
            (mul_zpow_split n1 hc).symm
        _ ≤ m * 2 ^ e := by
            apply mul_le_mul_of_nonneg_right _ (two_zpow_pos e).le
            exact_mod_cast this
    · have hm' : (4503599627370496 : ℚ) ≤ m := by exact_mod_cast hm52 (by omega)
      have h1 : (2 : ℚ) ^ c1 ≤ 2 ^ (e - 1) := two_zpow_mono (by omega)
      have h2 : (2 : ℚ) ^ e = 2 * 2 ^ (e - 1) := by
        rw [show e = 1 + (e - 1) by ring, two_zpow_add]; norm_num
      have hp := two_zpow_pos (e - 1)
      have hp1 := two_zpow_pos c1
      rw [h2]
      nlinarith
  have hmhi : (m : ℚ) * 2 ^ e ≤ n2 * 2 ^ c2 := by
    by_cases hc : e ≤ c2
    · have : m ≤ n2 * 2 ^ (c2 - e).toNat := by
        rw [← hm]; apply scaled_le hq
        rw [mul_zpow_split n2 hc]; exact hhi
      calc (m : ℚ) * 2 ^ e ≤ ((n2 * 2 ^ (c2 - e).toNat : Nat) : ℚ) * 2 ^ e := by
            apply mul_le_mul_of_nonneg_right _ (two_zpow_pos e).le
            exact_mod_cast this
        _ = n2 * 2 ^ c2 := mul_zpow_split n2 hc
    · exfalso
      have hge := hx_ge (by omega)
      have h1 : (2 : ℚ) ^ (c2 + 53) ≤ 2 ^ (e + 52) := two_zpow_mono (by omega)
      linarith
  have hval : ((if m = 9007199254740992 then 4503599627370496 else m : Nat) : ℚ)
      * 2 ^ (if m = 9007199254740992 then e + 1 else e) = m * 2 ^ e := by
    split_ifs with h
    · rw [h, add_comm, two_zpow_add]; norm_num; ring
    · rfl
  have hfin : ¬ (971 < (if m = 9007199254740992 then e + 1 else e)) := by
    intro hbig
    have he971 : 971 ≤ e := by split_ifs at hbig <;> omega
    have hm' : (4503599627370496 : ℚ) ≤ m := by exact_mod_cast hm52 (by omega)
    have hlt : (m : ℚ) * 2 ^ e < 2 ^ (c2 + 53) := lt_of_le_of_lt hmhi hn2'
    have h1024 : (2 : ℚ) ^ (c2 + 53) ≤ 2 ^ (1024 : Int) := two_zpow_mono (by omega)
    split_ifs at hbig with h
    · have h3 : (2 : ℚ) ^ (1024 : Int) ≤ 2 ^ (53 + e) := two_zpow_mono (by omega)
      rw [two_zpow_add, h53] at h3
      rw [h] at hlt; push_cast at hlt; linarith
    · have h3 : (2 : ℚ) ^ (1024 : Int) ≤ 2 ^ (52 + e) := two_zpow_mono (by omega)
      rw [two_zpow_add, h52] at h3
      have hp := two_zpow_pos e
      nlinarith
  simp only [hm]
  rw [if_neg hfin]
  exact ⟨_, _, rfl, by rw [hval]; exact hmlo, by rw [hval]; exact hmhi⟩

/-- `roundScaled` stays between any two representable bounds of the exact value. -/
theorem roundScaled_bounds (neg : Bool) {p q : Nat} (hq : 0 < q) (e : Int) (n1 n2 : Nat)
    (c1 c2 : Int) (hn1 : n1 ≤ 9007199254740992) (hc1 : -1074 ≤ c1)
    (hn2 : n2 < 9007199254740992) (hc2 : -1074 ≤ c2) (hc2' : c2 ≤ 971)
    (hlo : (n1 : ℚ) * 2 ^ c1 ≤ p / q * 2 ^ e) (hhi : (p : ℚ) / q * 2 ^ e ≤ n2 * 2 ^ c2) :
    ∃ m e', roundScaled neg p q e = finite neg m e'
      ∧ (n1 : ℚ) * 2 ^ c1 ≤ m * 2 ^ e' ∧ (m : ℚ) * 2 ^ e' ≤ n2 * 2 ^ c2 := by
  unfold roundScaled
  split_ifs with he
  · have hx : ((p <<< e.toNat : Nat) : ℚ) / q = p / q * 2 ^ e := by
      rw [shiftLeft_cast, pow_toNat he]; ring
    exact roundQ_bounds neg hq n1 n2 c1 c2 hn1 hc1 hn2 hc2 hc2' (by rw [hx]; exact hlo) (by rw [hx]; exact hhi)
  · have hq2 : 0 < q <<< (-e).toNat := by rw [Nat.shiftLeft_eq]; positivity
    have hx : (p : ℚ) / ((q <<< (-e).toNat : Nat) : ℚ) = p / q * 2 ^ e := by
      rw [shiftLeft_cast, pow_neg_toNat (by omega)]
      have := (two_zpow_pos e).ne'
      field_simp
    exact roundQ_bounds neg hq2 n1 n2 c1 c2 hn1 hc1 hn2 hc2 hc2' (by rw [hx]; exact hlo)
      (by rw [hx]; exact hhi)

/-- Bounds of a product of finite data. -/
theorem mul_finite_bounds (s t : Bool) (m n : Nat) (e f : Int) (n1 n2 : Nat) (c1 c2 : Int)
    (hn1 : n1 ≤ 9007199254740992) (hc1 : -1074 ≤ c1)
    (hn2 : n2 < 9007199254740992) (hc2 : -1074 ≤ c2) (hc2' : c2 ≤ 971)
    (hlo : (n1 : ℚ) * 2 ^ c1 ≤ (m * 2 ^ e) * (n * 2 ^ f))
    (hhi : ((m : ℚ) * 2 ^ e) * (n * 2 ^ f) ≤ n2 * 2 ^ c2) :
    ∃ m' e', mul (finite s m e) (finite t n f) = finite (xor s t) m' e'
      ∧ (n1 : ℚ) * 2 ^ c1 ≤ m' * 2 ^ e' ∧ (m' : ℚ) * 2 ^ e' ≤ n2 * 2 ^ c2 := by
  have hx : ((m * n : Nat) : ℚ) / ((1 : Nat) : ℚ) * 2 ^ (e + f) = (m * 2 ^ e) * (n * 2 ^ f) := by
    rw [two_zpow_add]; push_cast; ring
  exact roundScaled_bounds (xor s t) Nat.one_pos (e + f) n1 n2 c1 c2 hn1 hc1 hn2 hc2 hc2'
    (by rw [hx]; exact hlo) (by rw [hx]; exact hhi)

/-- Bounds of a quotient of finite data. -/
theorem div_finite_bounds (s t : Bool) (m n : Nat) (e f : Int) (hn : 0 < n) (n1 n2 : Nat)
    (c1 c2 : Int) (hn1 : n1 ≤ 9007199254740992) (hc1 : -1074 ≤ c1)
    (hn2 : n2 < 9007199254740992) (hc2 : -1074 ≤ c2) (hc2' : c2 ≤ 971)
    (hlo : (n1 : ℚ) * 2 ^ c1 ≤ (m * 2 ^ e) / (n * 2 ^ f))
    (hhi : ((m : ℚ) * 2 ^ e) / (n * 2 ^ f) ≤ n2 * 2 ^ c2) :
    ∃ m' e', div (finite s m e) (finite t n f) = finite (xor s t) m' e'
      ∧ (n1 : ℚ) * 2 ^ c1 ≤ m' * 2 ^ e' ∧ (m' : ℚ) * 2 ^ e' ≤ n2 * 2 ^ c2 := by
  have hx : (m : ℚ) / n * 2 ^ (e - f) = (m * 2 ^ e) / (n * 2 ^ f) := by
    have h1 := (two_zpow_pos f).ne'
    have h2 : (n : ℚ) ≠ 0 := by exact_mod_cast hn.ne'
    rw [sub_eq_add_neg, two_zpow_add, zpow_neg]
    field_simp
  have hd : div (finite s m e) (finite t n f) = roundScaled (xor s t) m n (e - f) := by
    simp only [div, if_neg hn.ne']
  rw [hd]
  exact roundScaled_bounds (xor s t) hn (e - f) n1 n2 c1 c2 hn1 hc1 hn2 hc2 hc2'
    (by rw [hx]; exact hlo) (by rw [hx]; exact hhi)

theorem aligned_false_cast (m : Nat) {e c : Int} (h : c ≤ e) :
    ((aligned false m e c : Int) : ℚ) * 2 ^ c = m * 2 ^ e := by
  simp only [aligned, Bool.false_eq_true, if_false, Int.cast_natCast]
  rw [shiftLeft_cast, pow_toNat (by omega), mul_assoc, ← two_zpow_add]
  congr 2; ring

/-- Bounds of a sum of finite non-negative data. -/
theorem add_nonneg_bounds (m n : Nat) (e f : Int) (n1 n2 : Nat) (c1 c2 : Int)
    (hn1 : n1 ≤ 9007199254740992) (hc1 : -1074 ≤ c1)
    (hn2 : n2 < 9007199254740992) (hc2 : -1074 ≤ c2) (hc2' : c2 ≤ 971)
    (hlo : (n1 : ℚ) * 2 ^ c1 ≤ m * 2 ^ e + n * 2 ^ f)
    (hhi : (m : ℚ) * 2 ^ e + n * 2 ^ f ≤ n2 * 2 ^ c2) :
    ∃ m' e', add (finite false m e) (finite false n f) = finite false m' e'
      ∧ (n1 : ℚ) * 2 ^ c1 ≤ m' * 2 ^ e' ∧ (m' : ℚ) * 2 ^ e' ≤ n2 * 2 ^ c2 := by
  have ha := aligned_false_cast m (min_le_left e f)
  have hb := aligned_false_cast n (min_le_right e f)
  have hza : 0 ≤ aligned false m e (min e f) := by simp [aligned]
  have hzb : 0 ≤ aligned false n f (min e f) := by simp [aligned]
  have hsum : ((aligned false m e (min e f) + aligned false n f (min e f) : Int) : ℚ)
      * 2 ^ (min e f) = m * 2 ^ e + n * 2 ^ f := by
    push_cast; rw [add_mul, ha, hb]
  unfold add
  simp only
  split_ifs with hz
  · refine ⟨0, -1074, by simp, ?_, ?_⟩
    · rw [hz] at hsum; simp at hsum; rw [← hsum] at hlo; simpa using hlo
    · have := two_zpow_pos c2
      simp only [Nat.cast_zero, zero_mul]; positivity
  · have hpos : 0 < aligned false m e (min e f) + aligned false n f (min e f) := by omega
    have hneg : decide (aligned false m e (min e f) + aligned false n f (min e f) < 0) = false := by
      simp; omega
    rw [hneg]
    have hx : (((aligned false m e (min e f) + aligned false n f (min e f)).natAbs : Nat) : ℚ)
        / ((1 : Nat) : ℚ) * 2 ^ (min e f) = m * 2 ^ e + n * 2 ^ f := by
      rw [← hsum]
      have hcast : (((aligned false m e (min e f) + aligned false n f (min e f)).natAbs : Nat) : ℚ)
          = ((aligned false m e (min e f) + aligned false n f (min e f) : Int) : ℚ) := by
        rw [Nat.cast_natAbs, abs_of_nonneg hpos.le]
      rw [Nat.cast_one, div_one, hcast]
    exact roundScaled_bounds false Nat.one_pos (min e f) n1 n2 c1 c2 hn1 hc1 hn2 hc2 hc2'
      (by rw [hx]; exact hlo) (by rw [hx]; exact hhi)

theorem roundQ_sign (neg : Bool) (p q : Nat) :
    roundQ neg p q = inf neg ∨ ∃ m e, roundQ neg p q = finite neg m e := by
  unfold roundQ
  simp only
  split_ifs <;> first | exact Or.inl rfl | exact Or.inr ⟨_, _, rfl⟩

theorem roundScaled_sign (neg : Bool) (p q : Nat) (e : Int) :
    roundScaled neg p q e = inf neg ∨ ∃ m e', roundScaled neg p q e = finite neg m e' := by
  unfold roundScaled
  split_ifs <;> exact roundQ_sign _ _ _

theorem fits_zero {q : Nat} (hq : 0 < q) (e : Int) : fits 0 q e = true := by
  rw [fits_iff hq]; simp only [Nat.cast_zero, zero_div]; exact two_zpow_pos _

/-- Zero rounds to the zero of the same sign. -/
theorem roundQ_zero (neg : Bool) {q : Nat} (hq : 0 < q) : roundQ neg 0 q = finite neg 0 (-1074) := by
  obtain ⟨h1, -, -, h4⟩ := findExp_spec (p := 0) hq 11 (-1074)
  have he : findExp 0 q 11 (-1074) = -1074 := by
    by_contra hne
    have := h4 (-1074) (le_refl _) (by omega)
    rw [fits_zero hq] at this
    exact Bool.noConfusion this
  unfold roundQ
  simp [he, rne]

theorem roundScaled_zero (neg : Bool) {q : Nat} (hq : 0 < q) (e : Int) :
    roundScaled neg 0 q e = finite neg 0 (-1074) := by
  unfold roundScaled
  split_ifs
  · rw [Nat.zero_shiftLeft]; exact roundQ_zero neg hq
  · exact roundQ_zero neg (by rw [Nat.shiftLeft_eq]; positivity)

/-- Integers below `2 ^ 53` convert exactly. -/
theorem ofNat_exact {n : Nat} (hn : n < 9007199254740992) :
    ∃ m e, ofNat n = finite false m e ∧ (m : ℚ) * 2 ^ e = n := by
  have hx : (n : ℚ) * 2 ^ (0 : Int) = (n : ℚ) / ((1 : Nat) : ℚ) := by simp
  obtain ⟨m, e, h, h1, h2⟩ := roundQ_bounds false Nat.one_pos n n 0 0 hn.le (by norm_num) hn
    (by norm_num) (by norm_num) hx.le hx.ge
  refine ⟨m, e, h, ?_⟩
  have : (n : ℚ) * 2 ^ (0 : Int) = n := by simp
  linarith

theorem truncMag_eq_floor (m : Nat) (e : Int) : truncMag m e = ⌊(m : ℚ) * 2 ^ e⌋₊ := by
  unfold truncMag
  split_ifs with h
  · rw [← pow_toNat h, Nat.shiftLeft_eq]
    have : (m : ℚ) * 2 ^ e.toNat = ((m * 2 ^ e.toNat : Nat) : ℚ) := by push_cast; ring
    rw [this, Nat.floor_natCast]
  · have h2 : (m : ℚ) * 2 ^ e = (m : ℚ) / ((2 ^ (-e).toNat : Nat) : ℚ) := by
      push_cast; rw [pow_neg_toNat (by omega), div_eq_mul_inv, inv_inv]
    rw [h2, Nat.floor_div_eq_div, Nat.shiftRight_eq_div_pow]

theorem toUInt32_nonneg {m : Nat} {e : Int} (h : (m : ℚ) * 2 ^ e < 4294967296) :
    toUInt32 (finite false m e) = some ⌊(m : ℚ) * 2 ^ e⌋₊ := by
  have hnn : (0 : ℚ) ≤ m * 2 ^ e := mul_nonneg (Nat.cast_nonneg _) (two_zpow_pos e).le
  have hlt : ⌊(m : ℚ) * 2 ^ e⌋₊ < 4294967296 := by
    rw [Nat.floor_lt hnn]; exact_mod_cast h
  simp only [toUInt32, truncMag_eq_floor, Bool.false_and, Bool.false_eq_true, if_false, if_pos hlt]

theorem toUInt32_eq_some {x : Double} {n : Nat} (h : toUInt32 x = some n) :
    ∃ s m e, x = finite s m e ∧ n = ⌊(m : ℚ) * 2 ^ e⌋₊ ∧ (s = true → n = 0) := by
  cases x with
  | finite s m e =>
    refine ⟨s, m, e, rfl, ?_⟩
    simp only [toUInt32, truncMag_eq_floor] at h
    split_ifs at h with h1 h2
    simp only [Option.some.injEq] at h
    refine ⟨h.symm, ?_⟩
    intro hs
    subst hs
    rw [← h]
    by_contra hne
    exact h1 (by simp [hne])
  | inf s => simp [toUInt32] at h
  | nan => simp [toUInt32] at h

theorem ofInt_zero : ofInt 0 = finite false 0 (-1074) := by decide
theorem ofNat_zero : ofNat 0 = finite false 0 (-1074) := by decide
theorem ofInt_one : ofInt 1 = finite false 4503599627370496 (-52) := by decide
theorem ofNat_one : ofNat 1 = finite false 4503599627370496 (-52) := by decide
theorem ofInt_neg_one : ofInt (-1) = finite true 4503599627370496 (-52) := by decide
theorem ofInt_32767 : ofInt 32767 = finite false 9006924376834048 (-38) := by decide
theorem ofNat_two_pow_32 : ofNat 4294967296 = finite false 4503599627370496 (-20) := by decide

theorem aligned_false_lt_iff (m n : Nat) (e f : Int) :
    aligned false m e (min e f) < aligned false n f (min e f)
      ↔ (m : ℚ) * 2 ^ e < n * 2 ^ f := by
  rw [← aligned_false_cast m (min_le_left e f), ← aligned_false_cast n (min_le_right e f)]
  rw [mul_lt_mul_right (two_zpow_pos _)]
  exact Int.cast_lt.symm

/-- Meaning of `<` on finite non-negative data. -/
theorem lt_nonneg_iff (m n : Nat) (e f : Int) :
    lt (finite false m e) (finite false n f) = true ↔ (m : ℚ) * 2 ^ e < n * 2 ^ f := by
  simp only [lt, decide_eq_true_iff]
  exact aligned_false_lt_iff m n e f

theorem aligned_false_nonneg (m : Nat) (e c : Int) : 0 ≤ aligned false m e c := by
  simp only [aligned, Bool.false_eq_true, if_false]; exact Int.natCast_nonneg _

theorem aligned_true_nonpos (m : Nat) (e c : Int) : aligned true m e c ≤ 0 := by
  simp only [aligned, if_true]
  have : (0 : Int) ≤ ((m <<< (e - c).toNat : Nat) : Int) := Int.natCast_nonneg _
  omega

/-- A datum is `> 0` exactly when it is positive infinity or finite, positive, non-zero. -/
theorem zero_lt_iff (d : Double) :
    lt (ofInt 0) d = true ↔ d = inf false ∨ ∃ m e, d = finite false m e ∧ 0 < m := by
  rw [ofInt_zero]
  cases d with
  | nan => simp [lt]
  | inf t => cases t <;> simp [lt]
  | finite t n f =>
    cases t with
    | false =>
      rw [lt_nonneg_iff]
      constructor
      · intro h
        refine Or.inr ⟨n, f, rfl, ?_⟩
        by_contra h0
        have : n = 0 := by omega
        subst this; simp at h
      · rintro (h | ⟨m, e, h, hm⟩)
        · exact Double.noConfusion h
        · injection h with _ h2 h3
          subst h2; subst h3
          simp only [Nat.cast_zero, zero_mul]
          exact mul_pos (by exact_mod_cast hm) (two_zpow_pos _)
    | true =>
      have h1 := aligned_false_nonneg 0 (-1074) (min (-1074) f)
      have h2 := aligned_true_nonpos n f (min (-1074) f)
      constructor
      · intro h
        simp only [lt, decide_eq_true_iff] at h
        omega
      · rintro (h | ⟨m, e, h, -⟩)
        · exact Double.noConfusion h
        · injection h with h1 _ _
          exact Bool.noConfusion h1

theorem NonnegLe.bound_nonneg {x : Double} {B : ℚ} (h : NonnegLe x B) : 0 ≤ B := by
  obtain ⟨m, e, -, hle⟩ := h
  exact le_trans (mul_nonneg (Nat.cast_nonneg _) (two_zpow_pos e).le) hle

theorem NonnegLe.mono {x : Double} {A B : ℚ} (h : NonnegLe x A) (hAB : A ≤ B) : NonnegLe x B := by
  obtain ⟨m, e, hx, hle⟩ := h
  exact ⟨m, e, hx, le_trans hle hAB⟩

theorem NonnegLe.ofNat {n : Nat} (hn : n < 9007199254740992) : NonnegLe (Double.ofNat n) n := by
  obtain ⟨m, e, h, hv⟩ := ofNat_exact hn
  exact ⟨m, e, h, hv.le⟩

theorem NonnegLe.ofNat_pow32 {n : Nat} (hn : n < 4294967296) :
    NonnegLe (Double.ofNat n) (2 ^ (32 : Int)) := by
  refine (NonnegLe.ofNat (by omega)).mono ?_
  have : (n : ℚ) < 4294967296 := by exact_mod_cast hn
  norm_num; linarith

theorem NonnegLe.mul_pow {x y : Double} {a b : Int} (hx : NonnegLe x (2 ^ a))
    (hy : NonnegLe y (2 ^ b)) (h1 : -1074 ≤ a + b) (h2 : a + b ≤ 971) :
    NonnegLe (mul x y) (2 ^ (a + b)) := by
  obtain ⟨m, e, rfl, hm⟩ := hx
  obtain ⟨n, f, rfl, hn⟩ := hy
  have hm0 : (0 : ℚ) ≤ m * 2 ^ e := mul_nonneg (Nat.cast_nonneg _) (two_zpow_pos e).le
  have hn0 : (0 : ℚ) ≤ n * 2 ^ f := mul_nonneg (Nat.cast_nonneg _) (two_zpow_pos f).le
  obtain ⟨m', e', h, -, hhi⟩ := mul_finite_bounds false false m n e f 0 1 0 (a + b)
    (by norm_num) (by norm_num) (by norm_num) h1 h2
    (by simpa using mul_nonneg hm0 hn0)
    (by rw [Nat.cast_one, one_mul, two_zpow_add]
        exact mul_le_mul hm hn hn0 (two_zpow_pos a).le)
  exact ⟨m', e', h, by simpa using hhi⟩

theorem NonnegLe.div_pow {x : Double} {a b : Int} (hx : NonnegLe x (2 ^ a)) {n : Nat} {f : Int}
    (hy : (2 : ℚ) ^ b ≤ n * 2 ^ f) (h1 : -1074 ≤ a - b) (h2 : a - b ≤ 971) :
    NonnegLe (div x (finite false n f)) (2 ^ (a - b)) := by
  obtain ⟨m, e, rfl, hm⟩ := hx
  have hm0 : (0 : ℚ) ≤ m * 2 ^ e := mul_nonneg (Nat.cast_nonneg _) (two_zpow_pos e).le
  have hb := two_zpow_pos b
  have hnpos : 0 < n := by
    rcases Nat.eq_zero_or_pos n with h0 | h0
    · subst h0; simp at hy; linarith
    · exact h0
  have hden : (0 : ℚ) < n * 2 ^ f := lt_of_lt_of_le hb hy
  obtain ⟨m', e', h, -, hhi⟩ := div_finite_bounds false false m n e f hnpos 0 1 0
    (a - b) (by norm_num) (by norm_num) (by norm_num) h1 h2
    (by simpa using div_nonneg hm0 hden.le)
    (by rw [Nat.cast_one, one_mul, sub_eq_add_neg, two_zpow_add, zpow_neg, ← div_eq_mul_inv]
        exact div_le_div₀ (two_zpow_pos a).le hm hb hy)
  exact ⟨m', e', h, by simpa using hhi⟩

theorem NonnegLe.add_pow {x y : Double} {a : Int} (hx : NonnegLe x (2 ^ a))
    (hy : NonnegLe y (2 ^ a)) (h1 : -1074 ≤ a + 1) (h2 : a + 1 ≤ 971) :
    NonnegLe (add x y) (2 ^ (a + 1)) := by
  obtain ⟨m, e, rfl, hm⟩ := hx
  obtain ⟨n, f, rfl, hn⟩ := hy
  have hm0 : (0 : ℚ) ≤ m * 2 ^ e := mul_nonneg (Nat.cast_nonneg _) (two_zpow_pos e).le
  have hn0 : (0 : ℚ) ≤ n * 2 ^ f := mul_nonneg (Nat.cast_nonneg _) (two_zpow_pos f).le
  obtain ⟨m', e', h, -, hhi⟩ := add_nonneg_bounds m n e f 0 1 0 (a + 1)
    (by norm_num) (by norm_num) (by norm_num) h1 h2
    (by simpa using add_nonneg hm0 hn0)
    (by rw [Nat.cast_one, one_mul, two_zpow_add]; norm_num; linarith)
  exact ⟨m', e', h, by simpa using hhi⟩

theorem NonnegLe.isFinite {x : Double} {B : ℚ} (h : NonnegLe x B) : x.isFinite = true := by
  obtain ⟨m, e, rfl, -⟩ := h; rfl

theorem toRat_finite_false (m : Nat) (e : Int) : (finite false m e).toRat = m * 2 ^ e := by
  simp [toRat]

theorem toRat_finite_true (m : Nat) (e : Int) : (finite true m e).toRat = -(m * 2 ^ e) := by
  simp [toRat]

/-- The `uint32_t` conversion, when defined, is the floor of the value. -/
theorem toUInt32_eq_floor {x : Double} {n : Nat} (h : toUInt32 x = some n) :
    n = ⌊x.toRat⌋₊ := by
  obtain ⟨s, m, e, rfl, hn, hs⟩ := toUInt32_eq_some h
  cases s with
  | false => rw [toRat_finite_false]; exact hn
  | true =>
    rw [hs rfl, toRat_finite_true]
    symm
    apply Nat.floor_of_nonpos
    have : (0 : ℚ) ≤ m * 2 ^ e := mul_nonneg (Nat.cast_nonneg _) (two_zpow_pos e).le
    linarith

/-- The `int16_t` conversion, when defined, truncates the value toward zero. -/
theorem toInt16_eq_trunc {x : Double} {v : Int} (h : toInt16 x = some v) :
    v = roundTowardZero x.toRat := by
  cases x with
  | nan => simp [toInt16] at h
  | inf s => simp [toInt16] at h
  | finite s m e =>
    have h0 : (0 : ℚ) ≤ m * 2 ^ e := mul_nonneg (Nat.cast_nonneg _) (two_zpow_pos e).le
    simp only [toInt16, truncMag_eq_floor] at h
    cases s with
    | false =>
      simp only [Bool.false_eq_true, if_false] at h
      split_ifs at h
      simp only [Option.some.injEq] at h
      rw [toRat_finite_false, roundTowardZero, if_pos h0, ← h]
      exact Int.natCast_floor_eq_floor h0
    | true =>
      simp only [if_true] at h
      split_ifs at h
      simp only [Option.some.injEq] at h
      rw [toRat_finite_true, roundTowardZero, ← h]
      split_ifs with hc
      · have hz : (m : ℚ) * 2 ^ e = 0 := by linarith
        rw [hz]; simp
      · rw [Int.ceil_neg, Int.natCast_floor_eq_floor h0]

/-- A finite datum of magnitude at most 1, times 32767, converts to an `int16_t` of magnitude
at most 32767. -/
theorem toInt16_mul_32767 (s : Bool) (m : Nat) (e : Int) (h : (m : ℚ) * 2 ^ e ≤ 1) :
    ∃ v, toInt16 (mul (finite s m e) (ofInt 32767)) = some v ∧ -32767 ≤ v ∧ v ≤ 32767 := by
  have hm0 : (0 : ℚ) ≤ m * 2 ^ e := mul_nonneg (Nat.cast_nonneg _) (two_zpow_pos e).le
  rw [ofInt_32767]
  obtain ⟨m', e', hmul, -, hhi⟩ := mul_finite_bounds s false m 9006924376834048 e (-38)
    0 32767 0 0 (by norm_num) (by norm_num) (by norm_num)
    (by norm_num) (by norm_num)
    (by simp only [Nat.cast_zero, zero_mul]; positivity)
    (by norm_num; nlinarith)
  rw [hmul]
  have h0 : (0 : ℚ) ≤ m' * 2 ^ e' := mul_nonneg (Nat.cast_nonneg _) (two_zpow_pos e').le
  have hfl : ⌊(m' : ℚ) * 2 ^ e'⌋₊ ≤ 32767 := by
    apply Nat.floor_le_of_le
    simpa using hhi
  simp only [toInt16, truncMag_eq_floor]
  cases s with
  | false =>
    simp only [Bool.xor_false, Bool.false_eq_true, if_false, if_pos hfl]
    exact ⟨_, rfl, by omega, by omega⟩
  | true =>
    simp only [Bool.xor_false, if_true, if_pos (show ⌊(m' : ℚ) * 2 ^ e'⌋₊ ≤ 32768 by omega)]
    exact ⟨_, rfl, by omega, by omega⟩

end Double

/-- A loop whose body is defined at every index yields one element per index. -/
theorem mapM_some (f : Nat → Option Int) (l : List Nat)
    (h : ∀ a ∈ l, ∃ v, f a = some v) :
    ∃ ys, l.mapM f = some ys ∧ ys.length = l.length ∧ ∀ i : Nat, ys[i]? = (l[i]?).bind f := by
  induction l with
  | nil => exact ⟨[], by rw [List.mapM_nil]; rfl, by simp, by simp⟩
  | cons a l ih =>
    obtain ⟨v, hv⟩ := h a (List.mem_cons_self _ _)
    obtain ⟨ys, h1, h2, h3⟩ := ih (fun b hb => h b (List.mem_cons_of_mem _ hb))
    refine ⟨v :: ys, ?_, by simp [h2], ?_⟩
    · rw [List.mapM_cons, hv, h1]; rfl
    · intro i
      cases i with
      | zero => simp [hv]
      | succ i => simpa using h3 i

theorem mapM_range_some (f : Nat → Option Int) (n : Nat) (h : ∀ i < n, ∃ v, f i = some v) :
    ∃ ys, (List.range n).mapM f = some ys ∧ ys.length = n ∧ ∀ i < n, ys[i]? = f i := by
  obtain ⟨ys, h1, h2, h3⟩ := mapM_some f (List.range n)
    (fun a ha => h a (List.mem_range.mp ha))
  refine ⟨ys, h1, by simpa using h2, ?_⟩
  intro i hi
  rw [h3 i, List.getElem?_range hi]; rfl

/-! ## Lemmas on the loop of `generateSweep` -/

open Double

theorem _D_PI_eq : _D_PI = finite false 7074237752028440 (-50) := by decide

theorem _D_PI_nonnegLe : NonnegLe _D_PI (2 ^ (3 : Int)) := by
  refine ⟨_, _, _D_PI_eq, ?_⟩
  norm_num

theorem toUInt32_lt {x : Double} {n : Nat} (h : toUInt32 x = some n) : n < 4294967296 := by
  cases x with
  | finite s m e =>
    simp only [toUInt32] at h
    split_ifs at h with h1 h2
    simp only [Option.some.injEq] at h
    omega
  | inf s => simp [toUInt32] at h
  | nan => simp [toUInt32] at h

/-- A finite non-negative datum of value at most one half converts to 0. -/
theorem toUInt32_small {x : Double} (h : NonnegLe x (2 ^ (-1 : Int))) : toUInt32 x = some 0 := by
  obtain ⟨m, e, rfl, hle⟩ := h
  have h0 : (0 : ℚ) ≤ m * 2 ^ e := mul_nonneg (Nat.cast_nonneg _) (two_zpow_pos e).le
  have hlt : (m : ℚ) * 2 ^ e < 1 := by
    have : (2 : ℚ) ^ (-1 : Int) < 1 := by norm_num
    linarith
  rw [toUInt32_nonneg (by linarith)]
  congr 1
  rw [Nat.floor_eq_zero]; exact hlt

/-- When the loop runs at least once, the sample rate is positive and the duration is a
finite number not below `2 ^ (-33)`. -/
theorem sweepTotalSamples_pos {st : ToneStatics} {d : Double} {n : Nat}
    (hsr : st._sampleRate < 4294967296) (h : sweepTotalSamples st d = some n) (hn : 0 < n) :
    1 ≤ st._sampleRate ∧ ∃ dm de, d = finite false dm de ∧ (2 : ℚ) ^ (-33 : Int) ≤ dm * 2 ^ de := by
  obtain ⟨ms, es, hms, hval⟩ := ofNat_exact (n := st._sampleRate) (by omega)
  unfold sweepTotalSamples at h
  cases d with
  | nan => rw [hms] at h; simp [mul, toUInt32] at h
  | inf t =>
    rw [hms] at h
    simp only [mul] at h
    split_ifs at h <;> simp [toUInt32] at h
  | finite t dm de =>
    cases t with
    | true =>
      exfalso
      rw [hms] at h
      have hmul : mul (finite false ms es) (finite true dm de)
          = roundScaled true (ms * dm) 1 (es + de) := rfl
      rw [hmul] at h
      rcases roundScaled_sign true (ms * dm) 1 (es + de) with hinf | ⟨m, e, hfin⟩
      · rw [hinf] at h; simp [toUInt32] at h
      · rw [hfin] at h
        obtain ⟨s', m', e', hx, -, hs⟩ := toUInt32_eq_some h
        injection hx with h1 _ _
        have := hs h1.symm
        omega
    | false =>
      by_contra hcon
      have hsmall : NonnegLe (mul (Double.ofNat st._sampleRate) (finite false dm de))
          (2 ^ (-1 : Int)) := by
        by_cases hsr1 : 1 ≤ st._sampleRate
        · have hd : (dm : ℚ) * 2 ^ de ≤ 2 ^ (-33 : Int) := by
            by_contra hge
            exact hcon ⟨hsr1, dm, de, rfl, le_of_lt (not_le.mp hge)⟩
          have hx : NonnegLe (Double.ofNat st._sampleRate) (2 ^ (32 : Int)) :=
            NonnegLe.ofNat_pow32 hsr
          have hy : NonnegLe (finite false dm de) (2 ^ (-33 : Int)) := ⟨dm, de, rfl, hd⟩
          exact (NonnegLe.mul_pow hx hy (by norm_num) (by norm_num)).mono
            (two_zpow_mono (by norm_num))
        · have h0 : st._sampleRate = 0 := by omega
          rw [h0, ofNat_zero]
          have hmul : mul (finite false 0 (-1074)) (finite false dm de)
              = roundScaled false (0 * dm) 1 (-1074 + de) := rfl
          rw [hmul, Nat.zero_mul, roundScaled_zero false Nat.one_pos]
          exact ⟨0, -1074, rfl, by simp only [Nat.cast_zero, zero_mul]; positivity⟩
      rw [toUInt32_small hsmall] at h
      simp only [Option.some.injEq] at h
      omega

/-- In every iteration the frequency step, the time, the frequency, `_D_PI * freq` and the
angle are finite non-negative numbers. -/
theorem sweep_parts_nonnegLe {st : ToneStatics} {startFreq : Nat} (endFreq : Nat) {d : Double}
    {n i : Nat} (hsr : st._sampleRate < 4294967296) (hs : startFreq < 4294967296)
    (h : sweepTotalSamples st d = some n) (hi : i < n) :
    NonnegLe (sweepFreqStep startFreq endFreq d) (2 ^ ((32 : Int) - -33))
    ∧ NonnegLe (sweepTime st i) (2 ^ ((32 : Int) - 0))
    ∧ NonnegLe (sweepFreq st startFreq (sweepFreqStep startFreq endFreq d) i)
        (2 ^ ((32 : Int) - -33 + (32 - 0) + 1))
    ∧ NonnegLe (mul _D_PI (sweepFreq st startFreq (sweepFreqStep startFreq endFreq d) i))
        (2 ^ ((3 : Int) + ((32 - -33 + (32 - 0)) + 1)))
    ∧ NonnegLe (sweepAngle st startFreq (sweepFreqStep startFreq endFreq d) i)
        (2 ^ ((3 : Int) + ((32 - -33 + (32 - 0)) + 1) + (32 - 0))) := by
  obtain ⟨hsr1, dm, de, rfl, hd⟩ := sweepTotalSamples_pos hsr h (by omega)
  have hn := toUInt32_lt h
  obtain ⟨ms, es, hms, hval⟩ := ofNat_exact (n := st._sampleRate) (by omega)
  have hstep : NonnegLe (sweepFreqStep startFreq endFreq (finite false dm de))
      (2 ^ ((32 : Int) - -33)) :=
    NonnegLe.div_pow (NonnegLe.ofNat_pow32 (Nat.mod_lt _ (by norm_num))) hd
      (by norm_num) (by norm_num)
  have htime : NonnegLe (sweepTime st i) (2 ^ ((32 : Int) - 0)) := by
    unfold sweepTime
    rw [hms]
    refine NonnegLe.div_pow (NonnegLe.ofNat_pow32 (by omega)) ?_ (by norm_num) (by norm_num)
    rw [hval]
    have : (1 : ℚ) ≤ st._sampleRate := by exact_mod_cast hsr1
    simpa using this
  have hprod := NonnegLe.mul_pow hstep htime (by norm_num) (by norm_num)
  have hstart : NonnegLe (Double.ofNat startFreq) (2 ^ ((32 : Int) - -33 + (32 - 0))) :=
    (NonnegLe.ofNat_pow32 hs).mono (two_zpow_mono (by norm_num))
  have hfreq := NonnegLe.add_pow hstart hprod (by norm_num) (by norm_num)
  have hpf := NonnegLe.mul_pow _D_PI_nonnegLe hfreq (by norm_num) (by norm_num)
  exact ⟨hstep, htime, hfreq, hpf, NonnegLe.mul_pow hpf htime (by norm_num) (by norm_num)⟩

theorem mul_zero_right (s t : Bool) (m : Nat) (e f : Int) :
    mul (finite s m e) (finite t 0 f) = finite (xor s t) 0 (-1074) := by
  have hmul : mul (finite s m e) (finite t 0 f) = roundScaled (xor s t) (m * 0) 1 (e + f) := rfl
  rw [hmul, Nat.mul_zero, roundScaled_zero _ Nat.one_pos]

/-- At index 0 the time and the angle are exactly `+0`. -/
theorem sweepAngle_zero {st : ToneStatics} {startFreq : Nat} (endFreq : Nat) {d : Double}
    {n : Nat} (hsr : st._sampleRate < 4294967296) (hs : startFreq < 4294967296)
    (h : sweepTotalSamples st d = some n) (hn : 0 < n) :
    sweepAngle st startFreq (sweepFreqStep startFreq endFreq d) 0 = Double.zero := by
  obtain ⟨-, -, -, ⟨pm, pe, hpf, -⟩, -⟩ := sweep_parts_nonnegLe endFreq hsr hs h hn
  obtain ⟨hsr1, -⟩ := sweepTotalSamples_pos hsr h hn
  obtain ⟨ms, es, hms, hval⟩ := ofNat_exact (n := st._sampleRate) (by omega)
  have hms0 : 0 < ms := by
    rcases Nat.eq_zero_or_pos ms with h0 | h0
    · subst h0
      have : (1 : ℚ) ≤ st._sampleRate := by exact_mod_cast hsr1
      simp at hval; linarith
    · exact h0
  have htime : sweepTime st 0 = finite false 0 (-1074) := by
    unfold sweepTime
    rw [hms, ofNat_zero]
    have hdiv : div (finite false 0 (-1074)) (finite false ms es)
        = roundScaled (xor false false) 0 ms (-1074 - es) := by
      simp only [div, if_neg hms0.ne']
    rw [hdiv, roundScaled_zero _ hms0]; rfl
  unfold sweepAngle
  rw [hpf, htime, mul_zero_right]; rfl

theorem toInt16_square_pos : toInt16 (mul (ofInt 1) (ofInt 32767)) = some 32767 := by decide
theorem toInt16_square_neg : toInt16 (mul (ofInt (-1)) (ofInt 32767)) = some (-32767) := by decide

/-- The Square sample: the sign test on `sin(angle)`, nothing else. -/
theorem sweepSample_square (sin : Double → Double) (st : ToneStatics) (startFreq : Nat)
    (freqStep : Double) (i : Nat) :
    sweepSample sin st startFreq freqStep Waveform.Square i
      = some (if Double.lt (Double.ofInt 0) (sin (sweepAngle st startFreq freqStep i)) = true
          then 32767 else -32767) := by
  unfold sweepSample sweepNormalized
  simp only
  split_ifs
  · exact toInt16_square_pos
  · exact toInt16_square_neg

theorem abs_toRat_finite (s : Bool) (m : Nat) (e : Int) :
    |(finite s m e).toRat| = m * 2 ^ e := by
  have h0 : (0 : ℚ) ≤ m * 2 ^ e := mul_nonneg (Nat.cast_nonneg _) (two_zpow_pos e).le
  cases s with
  | false => rw [toRat_finite_false, abs_of_nonneg h0]
  | true => rw [toRat_finite_true, abs_neg, abs_of_nonneg h0]

/-- The Sine sample is defined and within range as soon as the angle is finite. -/
theorem sweepSample_sine (sin : Double → Double)
    (hsin : ∀ x, x.isFinite = true → (sin x).isFinite = true ∧ |(sin x).toRat| ≤ 1)
    (st : ToneStatics) (startFreq : Nat) (freqStep : Double) (i : Nat)
    (hfin : (sweepAngle st startFreq freqStep i).isFinite = true) :
    ∃ v, sweepSample sin st startFreq freqStep Waveform.Sine i = some v
      ∧ -32767 ≤ v ∧ v ≤ 32767 := by
  obtain ⟨hf, hb⟩ := hsin _ hfin
  unfold sweepSample sweepNormalized
  simp only
  cases hsx : sin (sweepAngle st startFreq freqStep i) with
  | nan => rw [hsx] at hf; exact Bool.noConfusion hf
  | inf t => rw [hsx] at hf; exact Bool.noConfusion hf
  | finite s m e =>
    rw [hsx, abs_toRat_finite] at hb
    exact toInt16_mul_32767 s m e hb

/-- The result of `generateSweep` from the sample count and the loop body. -/
theorem generateSweep_of_body (sin : Double → Double) {st : ToneStatics}
    {startFreq : Nat} (endFreq : Nat) {d : Double} (w : Waveform) {n : Nat}
    (hcount : sweepTotalSamples st d = some n)
    (hbody : ∀ i < n, ∃ v,
      sweepSample sin st startFreq (sweepFreqStep startFreq endFreq d) w i = some v) :
    ∃ samples, generateSweep sin st startFreq endFreq d w = some samples
      ∧ samples.length = n
      ∧ ∀ i < n, samples[i]?
          = sweepSample sin st startFreq (sweepFreqStep startFreq endFreq d) w i := by
  unfold generateSweep
  rw [hcount]
  exact mapM_range_some _ n hbody

/-- Every iteration stores a value: no conversion is undefined. -/
theorem sweepSample_defined (sin : Double → Double)
    (hsin : ∀ x, x.isFinite = true → (sin x).isFinite = true ∧ |(sin x).toRat| ≤ 1)
    {st : ToneStatics} {startFreq : Nat} (endFreq : Nat) {d : Double} (w : Waveform) {n i : Nat}
    (hsr : st._sampleRate < 4294967296) (hs : startFreq < 4294967296)
    (h : sweepTotalSamples st d = some n) (hi : i < n) :
    ∃ v, sweepSample sin st startFreq (sweepFreqStep startFreq endFreq d) w i = some v
      ∧ -32767 ≤ v ∧ v ≤ 32767 := by
  cases w with
  | Sine =>
    exact sweepSample_sine sin hsin st startFreq _ i
      (sweep_parts_nonnegLe endFreq hsr hs h hi).2.2.2.2.isFinite
  | Square =>
    rw [sweepSample_square]
    split_ifs
    · exact ⟨_, rfl, by norm_num, by norm_num⟩
    · exact ⟨_, rfl, by norm_num, by norm_num⟩

/-- For a positive duration, the product with the sample rate is NaN, positive infinity or a
finite non-negative number. -/
theorem mul_ofNat_pos_cases (sr : Nat) {d : Double} (hd : Double.lt (Double.ofInt 0) d = true) :
    mul (Double.ofNat sr) d = nan ∨ mul (Double.ofNat sr) d = inf false
      ∨ ∃ m e, mul (Double.ofNat sr) d = finite false m e := by
  have hsign : Double.ofNat sr = inf false ∨ ∃ m e, Double.ofNat sr = finite false m e :=
    roundQ_sign false _ 1
  rcases (zero_lt_iff d).mp hd with rfl | ⟨dm, de, rfl, -⟩
  · rcases hsign with h | ⟨m, e, h⟩
    · rw [h]; exact Or.inr (Or.inl rfl)
    · rw [h]
      simp only [mul]
      split_ifs
      · exact Or.inl rfl
      · exact Or.inr (Or.inl rfl)
  · rcases hsign with h | ⟨m, e, h⟩
    · rw [h]
      simp only [mul]
      split_ifs
      · exact Or.inl rfl
      · exact Or.inr (Or.inl rfl)
    · rw [h]
      have hmul : mul (finite false m e) (finite false dm de)
          = roundScaled false (m * dm) 1 (e + de) := rfl
      rw [hmul]
      exact Or.inr (roundScaled_sign false (m * dm) 1 (e + de))

/-- For a positive duration whose product with the sample rate is below the non-negative
finite datum `b`, the product is a finite non-negative number below `b`. -/
theorem mul_ofNat_lt (sr : Nat) {d : Double} (bm : Nat) (be : Int)
    (hd : Double.lt (Double.ofInt 0) d = true)
    (hlt : Double.lt (mul (Double.ofNat sr) d) (finite false bm be) = true) :
    ∃ m e, mul (Double.ofNat sr) d = finite false m e ∧ (m : ℚ) * 2 ^ e < bm * 2 ^ be := by
  rcases mul_ofNat_pos_cases sr hd with h | h | ⟨m, e, h⟩
  · rw [h] at hlt; simp [lt] at hlt
  · rw [h] at hlt; simp [lt] at hlt
  · rw [h, lt_nonneg_iff] at hlt
    exact ⟨m, e, h, hlt⟩

/-- For a positive duration whose product with the sample rate is below `2 ^ 32`, the sample
count is defined and is the floor of that product. -/
theorem sweepTotalSamples_of_valid {st : ToneStatics} {d : Double}
    (hd : Double.lt (Double.ofInt 0) d = true)
    (hlt : Double.lt (Double.mul (Double.ofNat st._sampleRate) d) (Double.ofNat 4294967296)
      = true) :
    sweepTotalSamples st d
      = some ⌊(Double.mul (Double.ofNat st._sampleRate) d).toRat⌋₊ := by
  rw [ofNat_two_pow_32] at hlt
  obtain ⟨m, e, h, hv⟩ := mul_ofNat_lt _ _ _ hd hlt
  unfold sweepTotalSamples
  rw [h, toRat_finite_false]
  exact toUInt32_nonneg (by norm_num at hv; linarith)

/-- For a positive duration whose product with the sample rate is below 1, the sample count
is 0. -/
theorem sweepTotalSamples_of_lt_one {st : ToneStatics} {d : Double}
    (hd : Double.lt (Double.ofInt 0) d = true)
    (hlt : Double.lt (Double.mul (Double.ofNat st._sampleRate) d) (Double.ofNat 1) = true) :
    sweepTotalSamples st d = some 0 := by
  rw [ofNat_one] at hlt
  obtain ⟨m, e, h, hv⟩ := mul_ofNat_lt _ _ _ hd hlt
  have hv1 : (m : ℚ) * 2 ^ e < 1 := by norm_num at hv; linarith
  have h0 : (0 : ℚ) ≤ m * 2 ^ e := mul_nonneg (Nat.cast_nonneg _) (two_zpow_pos e).le
  unfold sweepTotalSamples
  rw [h, toUInt32_nonneg (by linarith)]
  congr 1
  rw [Nat.floor_eq_zero]; exact hv1

/-- The static sample rate after a sequence of `setSampleRate` calls. -/
theorem sampleRate_after_calls (rates : List Nat) (st : ToneStatics) :
    (rates.foldl setSampleRate st)._sampleRate = (rates.getLast?).getD st._sampleRate := by
  induction rates using List.reverseRecOn with
  | nil => rfl
  | append_singleton l a _ =>
    rw [List.foldl_append, List.getLast?_append]
    simp [setSampleRate]

/-- For increasing or constant sweeps the step of the source is the signed step. -/
theorem specStep_eq {startFreq endFreq : Nat} (d : Double) (hse : startFreq ≤ endFreq)
    (he : endFreq < 4294967296) : specStep startFreq endFreq d = sweepFreqStep startFreq endFreq d := by
  unfold specStep sweepFreqStep
  have h1 : (endFreq + 4294967296 - startFreq) % 4294967296 = endFreq - startFreq := by omega
  have h2 : ((endFreq : Int) - (startFreq : Int)).natAbs = endFreq - startFreq := by omega
  have h3 : decide ((endFreq : Int) - (startFreq : Int) < 0) = false := by
    simp only [decide_eq_false_iff_not]; omega
  rw [h1]
  unfold Double.ofInt Double.ofNat
  rw [h2, h3]

theorem zeroSin_bounded :
    ∀ x, x.isFinite = true → (zeroSin x).isFinite = true ∧ |(zeroSin x).toRat| ≤ 1 := by
  intro x hx
  cases x with
  | finite s m e => simp [zeroSin, Double.zero, Double.isFinite, Double.toRat]
  | inf s => exact Bool.noConfusion hx
  | nan => exact Bool.noConfusion hx

/-- The whole result of `generateSweep` once the sample count is defined: one sample per
index, each the value of the loop body, each within `[-32767, 32767]`. -/
theorem generateSweep_defined (sin : Double → Double)
    (hsin : ∀ x, x.isFinite = true → (sin x).isFinite = true ∧ |(sin x).toRat| ≤ 1)
    {st : ToneStatics} {startFreq : Nat} (endFreq : Nat) {d : Double} (w : Waveform) {n : Nat}
    (hsr : st._sampleRate < 4294967296) (hs : startFreq < 4294967296)
    (h : sweepTotalSamples st d = some n) :
    ∃ samples, generateSweep sin st startFreq endFreq d w = some samples
      ∧ samples.length = n
      ∧ (∀ i < n, samples[i]?
          = sweepSample sin st startFreq (sweepFreqStep startFreq endFreq d) w i)
      ∧ ∀ v ∈ samples, -32767 ≤ v ∧ v ≤ 32767 := by
  obtain ⟨samples, h1, h2, h3⟩ := generateSweep_of_body sin endFreq w h
    (fun i hi => (sweepSample_defined sin hsin endFreq w hsr hs h hi).imp fun v hv => hv.1)
  refine ⟨samples, h1, h2, h3, ?_⟩
  intro v hv
  obtain ⟨i, hi⟩ := List.mem_iff_getElem?.mp hv
  have hlen : i < n := by
    obtain ⟨hlt, -⟩ := List.getElem?_eq_some.mp hi
    omega
  obtain ⟨v', hv', hb⟩ := sweepSample_defined sin hsin endFreq w hsr hs h hlen
  rw [h3 i hlen, hv'] at hi
  simp only [Option.some.injEq] at hi
  rw [← hi]; exact hb

theorem lastRate_lt (rates : List Nat) (hrates : ∀ r ∈ rates, r < 4294967296) :
    (rates.getLast?).getD 44100 < 4294967296 := by
  cases h : rates.getLast? with
  | none => simp
  | some r => simpa using hrates r (List.mem_of_getLast?_eq_some h)

/-! ## Lemmas on the output stream -/

theorem OFStream.put_failed (s : OFStream) (b : Nat) (h : s.failed = true) : s.put b = s := by
  simp [OFStream.put, h]

theorem foldl_put_failed (data : List Nat) (s : OFStream) (h : s.failed = true) :
    data.foldl OFStream.put s = s := by
  induction data with
  | nil => rfl
  | cons b rest ih => rw [List.foldl_cons, OFStream.put_failed s b h, ih]

theorem foldl_write_flatten (chunks : List (List Nat)) (s : OFStream) :
    chunks.foldl OFStream.write s = chunks.flatten.foldl OFStream.put s := by
  induction chunks generalizing s with
  | nil => rfl
  | cons d rest ih =>
    rw [List.foldl_cons, ih, List.flatten_cons, List.foldl_append]
    rfl

/-- Bytes that fit the buffer stay in it: nothing reaches the destination and the error state
does not change. -/
theorem foldl_put_fits (data f b : List Nat) (room : Option Nat) (B : Nat)
    (h : b.length + data.length ≤ B) :
    data.foldl OFStream.put ⟨f, b, false, room, B⟩ = ⟨f, b ++ data, false, room, B⟩ := by
  induction data generalizing b with
  | nil => simp
  | cons x rest ih =>
    have hlt : b.length < B := by simp only [List.length_cons] at h; omega
    have hput : OFStream.put ⟨f, b, false, room, B⟩ x = ⟨f, b ++ [x], false, room, B⟩ := by
      simp [OFStream.put, hlt]
    rw [List.foldl_cons, hput, ih (b ++ [x]) (by simp only [List.length_append,
      List.length_cons, List.length_nil] at h ⊢; omega)]
    simp

/-- Writes to a destination without limit: every byte is in the file or in the buffer. -/
theorem foldl_put_unlimited (data f b : List Nat) (B : Nat) :
    (data.foldl OFStream.put ⟨f, b, false, none, B⟩).failed = false
    ∧ (data.foldl OFStream.put ⟨f, b, false, none, B⟩).file
        ++ (data.foldl OFStream.put ⟨f, b, false, none, B⟩).buffer = f ++ b ++ data
    ∧ (data.foldl OFStream.put ⟨f, b, false, none, B⟩).room = none
    ∧ (data.foldl OFStream.put ⟨f, b, false, none, B⟩).bufSize = B := by
  induction data generalizing f b with
  | nil => simp
  | cons x rest ih =>
    rw [List.foldl_cons]
    by_cases hlt : b.length < B
    · have hput : OFStream.put ⟨f, b, false, none, B⟩ x = ⟨f, b ++ [x], false, none, B⟩ := by
        simp [OFStream.put, hlt]
      rw [hput]
      have := ih f (b ++ [x])
      simpa using this
    · have hput : OFStream.put ⟨f, b, false, none, B⟩ x = ⟨f ++ b, [x], false, none, B⟩ := by
        simp [OFStream.put, OFStream.flush, hlt]
      rw [hput]
      have := ih (f ++ b) [x]
      simpa using this

/-- Writes to a destination with room for `r` more bytes: either every byte is in the file or
in the buffer, or a flush was cut short, the stream is in error state and the file holds the
bytes the destination had room for. -/
theorem foldl_put_room (data f b : List Nat) (r B : Nat) :
    ((data.foldl OFStream.put ⟨f, b, false, some r, B⟩).failed = false
      ∧ (data.foldl OFStream.put ⟨f, b, false, some r, B⟩).file
          ++ (data.foldl OFStream.put ⟨f, b, false, some r, B⟩).buffer = f ++ b ++ data
      ∧ (data.foldl OFStream.put ⟨f, b, false, some r, B⟩).room
          = some (f.length + r - (data.foldl OFStream.put ⟨f, b, false, some r, B⟩).file.length)
      ∧ (data.foldl OFStream.put ⟨f, b, false, some r, B⟩).file.length ≤ f.length + r)
    ∨ ((data.foldl OFStream.put ⟨f, b, false, some r, B⟩).failed = true
      ∧ (data.foldl OFStream.put ⟨f, b, false, some r, B⟩).file
          = (f ++ b ++ data).take (f.length + r)
      ∧ f.length + r < (f ++ b ++ data).length) := by
  induction data generalizing f b r with
  | nil => left; simp
  | cons x rest ih =>
    rw [List.foldl_cons]
    by_cases hlt : b.length < B
    · have hput : OFStream.put ⟨f, b, false, some r, B⟩ x = ⟨f, b ++ [x], false, some r, B⟩ := by
        simp [OFStream.put, hlt]
      rw [hput]
      have := ih f (b ++ [x]) r
      simpa using this
    · by_cases hr : b.length ≤ r
      · have hput : OFStream.put ⟨f, b, false, some r, B⟩ x
            = ⟨f ++ b, [x], false, some (r - b.length), B⟩ := by
          simp [OFStream.put, OFStream.flush, hlt, hr]
        rw [hput]
        have := ih (f ++ b) [x] (r - b.length)
        have e : (f ++ b).length + (r - b.length) = f.length + r := by
          rw [List.length_append]; omega
        rw [e] at this
        simpa using this
      · have hput : OFStream.put ⟨f, b, false, some r, B⟩ x
            = ⟨f ++ b.take r, [], true, some 0, B⟩ := by
          simp [OFStream.put, OFStream.flush, hlt, hr]
        rw [hput, foldl_put_failed _ _ rfl]
        right
        refine ⟨rfl, ?_, ?_⟩
        · simp only [List.append_assoc]
          rw [List.take_append, List.take_append_of_le_length (by omega)]
        · simp only [List.length_append, List.length_cons]; omega

/-- After `close()` on a destination with room for `r` bytes the file holds the first `r` bytes
written, all of them when there are no more, and the stream is in error state exactly when
some were left over. -/
theorem close_foldl_put_room (data : List Nat) (r B : Nat) :
    ((data.foldl OFStream.put ⟨[], [], false, some r, B⟩).close).file = data.take r
    ∧ ((data.foldl OFStream.put ⟨[], [], false, some r, B⟩).close).failed
        = decide (r < data.length) := by
  rcases foldl_put_room data [] [] r B with ⟨h1, h2, h3, h4⟩ | ⟨h1, h2, h3⟩
  · generalize data.foldl OFStream.put ⟨[], [], false, some r, B⟩ = s at h1 h2 h3 h4
    obtain ⟨f, b, fl, rm, bs⟩ := s
    simp only [List.nil_append, List.length_nil, Nat.zero_add] at h1 h2 h3 h4
    subst h1 h2 h3
    simp only [OFStream.close, Bool.false_eq_true, if_false, OFStream.flush]
    rw [List.length_append]
    by_cases hb : b.length ≤ r - f.length
    · rw [if_pos hb]
      refine ⟨?_, ?_⟩
      · rw [List.take_of_length_le]
        rw [List.length_append]; omega
      · symm; simp only [decide_eq_false_iff_not]; omega
    · rw [if_neg hb]
      refine ⟨?_, ?_⟩
      · show f ++ List.take (r - f.length) b = List.take r (f ++ b)
        rw [List.take_append_eq_append_take, List.take_of_length_le h4]
      · symm; simp only [decide_eq_true_eq]; omega
  · generalize data.foldl OFStream.put ⟨[], [], false, some r, B⟩ = s at h1 h2 h3
    simp only [List.nil_append, List.length_nil, Nat.zero_add] at h2 h3
    simp only [OFStream.close, h1, if_true, h2]
    exact ⟨trivial, by symm; simp only [decide_eq_true_eq]; exact h3⟩

/-- After `close()` on a destination without limit the file holds every byte written. -/
theorem close_foldl_put_unlimited (data : List Nat) (B : Nat) :
    (data.foldl OFStream.put ⟨[], [], false, none, B⟩).close = ⟨data, [], false, none, B⟩ := by
  obtain ⟨h1, h2, h3, h4⟩ := foldl_put_unlimited data [] [] B
  generalize data.foldl OFStream.put ⟨[], [], false, none, B⟩ = s at h1 h2 h3 h4
  obtain ⟨f, b, fl, rm, bs⟩ := s
  simp only [List.nil_append] at h1 h2 h3 h4
  subst h1 h2 h3 h4
  simp [OFStream.close, OFStream.flush]

theorem headerWrites_flatten (sr bps nc ns : Int) :
    (headerWrites sr bps nc ns).flatten = writeWavHeader sr bps nc ns := by
  simp [headerWrites, writeWavHeader]

theorem writeWavHeaderTo_eq (s : OFStream) (sr bps nc ns : Int) :
    writeWavHeaderTo s sr bps nc ns = (writeWavHeader sr bps nc ns).foldl OFStream.put s := by
  rw [writeWavHeaderTo, foldl_write_flatten, headerWrites_flatten]

/-- The stream of `main` after the header, the payload loop and `close()`. -/
theorem mainWrite_wavFile (opened : Bool) (room : Option Nat) (B : Nat) (sweep : List Int) :
    (mainWrite opened room B sweep).wavFile
      = ((writeWav 44100 16 1 sweep).foldl OFStream.put (OFStream.open opened room B)).close := by
  have hloop : ∀ s : OFStream,
      sweep.foldl (fun file sample => file.write (writeObject 2 2 sample)) s
        = (writeSamples sweep).foldl OFStream.put s := by
    intro s
    have h := foldl_write_flatten (sweep.map (fun sample => writeObject 2 2 sample)) s
    rw [List.foldl_map] at h
    rw [h]
    rfl
  simp only [mainWrite, writeWavHeaderTo_eq, hloop, writeWav, List.foldl_append]

theorem writeWav_length (sweep : List Int) :
    (writeWav 44100 16 1 sweep).length = 44 + 2 * sweep.length := by
  rw [writeWav, List.length_append, writeWavHeader_length, writeSamples_length]

/-- On an open stream whose buffer takes the 44 bytes `writeWavHeader` stores them in the
buffer, whatever the destination accepts. -/
theorem writeWavHeaderTo_buffered (room : Option Nat) (k : Nat) (sr bps nc ns : Int) :
    writeWavHeaderTo (OFStream.open true room (44 + k)) sr bps nc ns
      = ⟨[], writeWavHeader sr bps nc ns, false, room, 44 + k⟩ := by
  rw [writeWavHeaderTo_eq]
  have h := foldl_put_fits (writeWavHeader sr bps nc ns) [] [] room (44 + k)
    (by rw [writeWavHeader_length]; simp)
  rw [List.nil_append] at h
  exact h

/-- The file `main` leaves on a destination with room for `c` bytes. -/
theorem mainWrite_room (c B : Nat) (sweep : List Int) :
    (mainWrite true (some c) B sweep).wavFile.file = (writeWav 44100 16 1 sweep).take c
    ∧ (mainWrite true (some c) B sweep).wavFile.failed = decide (c < 44 + 2 * sweep.length) := by
  rw [mainWrite_wavFile, ← writeWav_length]
  exact close_foldl_put_room _ _ _

/-- The file `main` leaves on a destination without limit. -/
theorem mainWrite_unlimited (B : Nat) (sweep : List Int) :
    (mainWrite true none B sweep).wavFile = ⟨writeWav 44100 16 1 sweep, [], false, none, B⟩ := by
  rw [mainWrite_wavFile]
  exact close_foldl_put_unlimited _ _

theorem toInt16_zero_mul : toInt16 (mul Double.zero (ofInt 32767)) = some 0 := by decide

/-! ## Rounding error and monotonicity -/

namespace Double

/-- The nearest integer is within one half of the quotient. -/
theorem rne_near (num : Nat) {den : Nat} (hd : 0 < den) :
    2 * (rne num den * den) ≤ 2 * num + den ∧ 2 * num ≤ 2 * (rne num den * den) + den := by
  have hdm := Nat.div_add_mod num den
  have hr := Nat.mod_lt num hd
  have hc : den * (num / den) = num / den * den := Nat.mul_comm _ _
  have hs : (num / den + 1) * den = num / den * den + den := by ring
  unfold rne
  simp only
  split_ifs <;> constructor <;> omega

/-- When the nearest integer is at most `K`. -/
theorem rne_le_iff (num : Nat) {den : Nat} (hd : 0 < den) (K : Nat) :
    rne num den ≤ K ↔
      2 * num < 2 * (K * den) + den ∨ (2 * num = 2 * (K * den) + den ∧ K % 2 = 0) := by
  have hdm := Nat.div_add_mod num den
  have hr := Nat.mod_lt num hd
  have hc : den * (num / den) = num / den * den := Nat.mul_comm _ _
  rcases Nat.lt_trichotomy (num / den) K with hlt | heq | hgt
  · have h1 : (num / den + 1) * den ≤ K * den := Nat.mul_le_mul_right den hlt
    have hs : (num / den + 1) * den = num / den * den + den := by ring
    have hle : rne num den ≤ K := by
      unfold rne
      simp only
      split_ifs <;> omega
    exact ⟨fun _ => Or.inl (by omega), fun _ => hle⟩
  · subst heq
    unfold rne
    simp only
    split_ifs <;> constructor <;> intro h <;> omega
  · have h1 : (K + 1) * den ≤ num / den * den := Nat.mul_le_mul_right den hgt
    have hs : (K + 1) * den = K * den + den := by ring
    have hgt' : K < rne num den := by
      unfold rne
      simp only
      split_ifs <;> omega
    constructor
    · intro h; omega
    · intro h; omega

/-- Rounding to the nearest integer is monotone in the quotient. -/
theorem rne_mono {n1 d1 n2 d2 : Nat} (hd1 : 0 < d1) (hd2 : 0 < d2) (h : n1 * d2 ≤ n2 * d1) :
    rne n1 d1 ≤ rne n2 d2 := by
  have h2 := (rne_le_iff n2 hd2 (rne n2 d2)).1 (le_refl _)
  rw [rne_le_iff n1 hd1]
  generalize rne n2 d2 = K at h2 ⊢
  have key : 2 * n1 * d2 ≤ 2 * n2 * d1 := by nlinarith
  rcases h2 with h2 | ⟨h2, hK⟩
  · left
    have : 2 * n1 * d2 < (2 * (K * d1) + d1) * d2 := by
      calc 2 * n1 * d2 ≤ 2 * n2 * d1 := key
        _ < (2 * (K * d2) + d2) * d1 := Nat.mul_lt_mul_of_pos_right h2 hd1
        _ = (2 * (K * d1) + d1) * d2 := by ring
    exact Nat.lt_of_mul_lt_mul_right this
  · have : 2 * n1 * d2 ≤ (2 * (K * d1) + d1) * d2 := by
      calc 2 * n1 * d2 ≤ 2 * n2 * d1 := key
        _ = (2 * (K * d2) + d2) * d1 := by rw [h2]
        _ = (2 * (K * d1) + d1) * d2 := by ring
    have hle : 2 * n1 ≤ 2 * (K * d1) + d1 := Nat.le_of_mul_le_mul_right this hd2
    rcases Nat.lt_or_eq_of_le hle with h3 | h3
    · exact Or.inl h3
    · exact Or.inr ⟨h3, hK⟩

/-- The significand chosen for exponent `e` is within one half of the scaled quotient. -/
theorem scaled_near {p q : Nat} (hq : 0 < q) (e : Int) :
    2 * (((if 0 ≤ e then rne p (q <<< e.toNat) else rne (p <<< (-e).toNat) q : Nat) : ℚ) * 2 ^ e)
        ≤ 2 * ((p : ℚ) / q) + 2 ^ e
    ∧ 2 * ((p : ℚ) / q)
        ≤ 2 * (((if 0 ≤ e then rne p (q <<< e.toNat) else rne (p <<< (-e).toNat) q : Nat) : ℚ)
            * 2 ^ e) + 2 ^ e := by
  have hq' : (0 : ℚ) < q := by exact_mod_cast hq
  have hpos := two_zpow_pos e
  split_ifs with he
  · have hd : 0 < q <<< e.toNat := by rw [Nat.shiftLeft_eq]; positivity
    obtain ⟨a, b⟩ := rne_near p hd
    have a' : (2 : ℚ) * (rne p (q <<< e.toNat) * (q * 2 ^ e)) ≤ 2 * p + q * 2 ^ e := by
      have := (Nat.cast_le (α := ℚ)).2 a
      push_cast at this
      rw [shiftLeft_cast, pow_toNat he] at this
      exact this
    have b' : (2 : ℚ) * p ≤ 2 * (rne p (q <<< e.toNat) * (q * 2 ^ e)) + q * 2 ^ e := by
      have := (Nat.cast_le (α := ℚ)).2 b
      push_cast at this
      rw [shiftLeft_cast, pow_toNat he] at this
      exact this
    constructor
    · have : 2 * ((rne p (q <<< e.toNat) : ℚ) * 2 ^ e) * q ≤ (2 * ((p : ℚ) / q) + 2 ^ e) * q := by
        rw [add_mul, mul_assoc 2 ((p : ℚ) / q) q, div_mul_cancel₀ _ hq'.ne']
        linarith
      exact le_of_mul_le_mul_right this hq'
    · have : 2 * ((p : ℚ) / q) * q ≤ (2 * ((rne p (q <<< e.toNat) : ℚ) * 2 ^ e) + 2 ^ e) * q := by
        rw [mul_assoc 2 ((p : ℚ) / q) q, div_mul_cancel₀ _ hq'.ne']
        linarith
      exact le_of_mul_le_mul_right this hq'
  · obtain ⟨a, b⟩ := rne_near (p <<< (-e).toNat) hq
    have hinv : (2 : ℚ) ^ (-e).toNat * 2 ^ e = 1 := by
      rw [pow_neg_toNat (by omega)]
      exact inv_mul_cancel₀ hpos.ne'
    have a' : (2 : ℚ) * (rne (p <<< (-e).toNat) q * q) ≤ 2 * (p * 2 ^ (-e).toNat) + q := by
      have := (Nat.cast_le (α := ℚ)).2 a
      push_cast at this
      rw [shiftLeft_cast] at this
      exact this
    have b' : (2 : ℚ) * (p * 2 ^ (-e).toNat) ≤ 2 * (rne (p <<< (-e).toNat) q * q) + q := by
      have := (Nat.cast_le (α := ℚ)).2 b
      push_cast at this
      rw [shiftLeft_cast] at this
      exact this
    have hmul : (p : ℚ) * 2 ^ (-e).toNat * 2 ^ e = p := by rw [mul_assoc, hinv, mul_one]
    constructor
    · have : 2 * ((rne (p <<< (-e).toNat) q : ℚ) * 2 ^ e) * q
          ≤ (2 * ((p : ℚ) / q) + 2 ^ e) * q := by
        rw [add_mul, mul_assoc 2 ((p : ℚ) / q) q, div_mul_cancel₀ _ hq'.ne']
        have := mul_le_mul_of_nonneg_right a' hpos.le
        have e1 : (2 * ((p : ℚ) * 2 ^ (-e).toNat) + q) * 2 ^ e = 2 * p + 2 ^ e * q := by
          rw [add_mul, mul_assoc 2, hmul]; ring
        rw [e1] at this
        linarith
      exact le_of_mul_le_mul_right this hq'
    · have : 2 * ((p : ℚ) / q) * q
          ≤ (2 * ((rne (p <<< (-e).toNat) q : ℚ) * 2 ^ e) + 2 ^ e) * q := by
        rw [mul_assoc 2 ((p : ℚ) / q) q, div_mul_cancel₀ _ hq'.ne']
        have := mul_le_mul_of_nonneg_right b' hpos.le
        have e1 : 2 * ((p : ℚ) * 2 ^ (-e).toNat) * 2 ^ e = 2 * p := by
          rw [mul_assoc 2, hmul]
        rw [e1] at this
        linarith
      exact le_of_mul_le_mul_right this hq'

/-- The significand chosen for a given exponent is monotone in the quotient. -/
theorem scaled_mono {p1 q1 p2 q2 : Nat} (hq1 : 0 < q1) (hq2 : 0 < q2) (e : Int)
    (h : (p1 : ℚ) / q1 ≤ p2 / q2) :
    (if 0 ≤ e then rne p1 (q1 <<< e.toNat) else rne (p1 <<< (-e).toNat) q1)
      ≤ (if 0 ≤ e then rne p2 (q2 <<< e.toNat) else rne (p2 <<< (-e).toNat) q2) := by
  have hq1' : (0 : ℚ) < q1 := by exact_mod_cast hq1
  have hq2' : (0 : ℚ) < q2 := by exact_mod_cast hq2
  have hx : p1 * q2 ≤ p2 * q1 := by
    rw [div_le_div_iff₀ hq1' hq2'] at h
    exact_mod_cast h
  split_ifs with he
  · apply rne_mono (by rw [Nat.shiftLeft_eq]; positivity) (by rw [Nat.shiftLeft_eq]; positivity)
    rw [Nat.shiftLeft_eq, Nat.shiftLeft_eq, ← Nat.mul_assoc, ← Nat.mul_assoc]
    exact Nat.mul_le_mul_right _ hx
  · apply rne_mono hq1 hq2
    rw [Nat.shiftLeft_eq, Nat.shiftLeft_eq, Nat.mul_right_comm, Nat.mul_right_comm p2]
    exact Nat.mul_le_mul_right _ hx

/-- How `roundQ` arrives at a finite result: the exponent `e` is the least one from -1074 on
whose unit leaves at most 53 bits, the significand `m` is the nearest integer to the quotient in
that unit, and the result has the value `m * 2 ^ e`. -/
theorem roundQ_struct (neg : Bool) {p q : Nat} (hq : 0 < q) (n2 : Nat) (c2 : Int)
    (hn2 : n2 < 9007199254740992) (hc2 : -1074 ≤ c2) (hc2' : c2 ≤ 971)
    (hhi : (p : ℚ) / q ≤ n2 * 2 ^ c2) :
    ∃ (e : Int) (m1 : Nat) (e1 : Int), roundQ neg p q = finite neg m1 e1
      ∧ (m1 : ℚ) * 2 ^ e1
        = ((if 0 ≤ e then rne p (q <<< e.toNat) else rne (p <<< (-e).toNat) q : Nat) : ℚ) * 2 ^ e
      ∧ -1074 ≤ e ∧ (p : ℚ) / q < 2 ^ (e + 53) ∧ (e ≠ -1074 → (2 : ℚ) ^ (e + 52) ≤ p / q) := by
  obtain ⟨hlo_e, hhi_e, hfit, hmin⟩ := findExp_spec (p := p) hq 11 (-1074)
  have h53 := two_zpow_53
  have hn2q : (n2 : ℚ) < 9007199254740992 := by exact_mod_cast hn2
  have hn2' : (n2 : ℚ) * 2 ^ c2 < 2 ^ (c2 + 53) := by
    rw [two_zpow_add, h53, mul_comm]
    exact mul_lt_mul_of_pos_left hn2q (two_zpow_pos c2)
  have hfe : fits p q (findExp p q 11 (-1074)) = true := by
    apply hfit
    rw [fits_iff hq]
    calc (p : ℚ) / q ≤ n2 * 2 ^ c2 := hhi
      _ < 2 ^ (c2 + 53) := hn2'
      _ ≤ 2 ^ (-1074 + 2 ^ 11 - 1 + 53) := two_zpow_mono (by norm_num; omega)
  have hx_lt := (fits_iff hq _).1 hfe
  have hx_ge : findExp p q 11 (-1074) ≠ -1074 →
      (2 : ℚ) ^ (findExp p q 11 (-1074) + 52) ≤ p / q := by
    intro hne
    have hf := hmin (findExp p q 11 (-1074) - 1) (by omega) (by omega)
    by_contra hcon
    push_neg at hcon
    have : fits p q (findExp p q 11 (-1074) - 1) = true := by
      rw [fits_iff hq]
      have e : findExp p q 11 (-1074) - 1 + 53 = findExp p q 11 (-1074) + 52 := by ring
      rw [e]; exact hcon
    rw [hf] at this; exact Bool.false_ne_true this
  have hpos : (0 : ℚ) ≤ (p : ℚ) / q := by positivity
  obtain ⟨m', e', hfin, -, -⟩ := roundQ_bounds neg hq 0 n2 0 c2 (by norm_num) (by norm_num) hn2
    hc2 hc2' (by simpa using hpos) hhi
  refine ⟨findExp p q 11 (-1074), m', e', hfin, ?_, hlo_e, hx_lt, hx_ge⟩
  simp only [roundQ] at hfin
  generalize findExp p q 11 (-1074) = e at *
  generalize (if 0 ≤ e then rne p (q <<< e.toNat) else rne (p <<< (-e).toNat) q) = m at *
  by_cases hmX : m = 9007199254740992
  · simp only [hmX, if_true] at hfin
    split_ifs at hfin
    injection hfin with _ hm he
    rw [← hm, ← he, hmX, add_comm, two_zpow_add]
    norm_num
    ring
  · simp only [hmX, if_false] at hfin
    split_ifs at hfin
    injection hfin with _ hm he
    rw [← hm, ← he]

/-- Relative error of rounding: from `2 ^ (-1022)` on the result is within `2 ^ (-53)` of the
exact value, relatively. -/
theorem roundQ_near (neg : Bool) {p q : Nat} (hq : 0 < q) (n2 : Nat) (c2 : Int)
    (hn2 : n2 < 9007199254740992) (hc2 : -1074 ≤ c2) (hc2' : c2 ≤ 971)
    (hhi : (p : ℚ) / q ≤ n2 * 2 ^ c2) (hlow : (2 : ℚ) ^ (-1022 : Int) ≤ p / q) :
    ∃ m e, roundQ neg p q = finite neg m e
      ∧ (p : ℚ) / q * (1 - 2 ^ (-53 : Int)) ≤ m * 2 ^ e
      ∧ (m : ℚ) * 2 ^ e ≤ p / q * (1 + 2 ^ (-53 : Int)) := by
  obtain ⟨e, m1, e1, hfin, hval, he, -, hge⟩ := roundQ_struct neg hq n2 c2 hn2 hc2 hc2' hhi
  obtain ⟨a, b⟩ := scaled_near (p := p) hq e
  rw [← hval] at a b
  have hx : (2 : ℚ) ^ (e + 52) ≤ p / q := by
    by_cases h : e = -1074
    · rw [h]; exact hlow
    · exact hge h
  have hsplit : (2 : ℚ) ^ e = 2 ^ (e + 52) * 2 ^ (-52 : Int) := by
    rw [← two_zpow_add]; congr 1; ring
  have h52 : (2 : ℚ) ^ (-52 : Int) = 2 * 2 ^ (-53 : Int) := by
    rw [show (-52 : Int) = 1 + -53 by norm_num, two_zpow_add]; norm_num
  have h53pos := two_zpow_pos (-53)
  have hu : (2 : ℚ) ^ e ≤ p / q * (2 * 2 ^ (-53 : Int)) := by
    rw [hsplit, h52]
    exact mul_le_mul_of_nonneg_right hx (by positivity)
  refine ⟨m1, e1, hfin, ?_, ?_⟩
  · linarith
  · linarith

/-- Rounding is monotone. -/
theorem roundQ_mono (neg : Bool) {p1 q1 p2 q2 : Nat} (hq1 : 0 < q1) (hq2 : 0 < q2) (n2 : Nat)
    (c2 : Int) (hn2 : n2 < 9007199254740992) (hc2 : -1074 ≤ c2) (hc2' : c2 ≤ 971)
    (hle : (p1 : ℚ) / q1 ≤ p2 / q2) (hhi : (p2 : ℚ) / q2 ≤ n2 * 2 ^ c2) :
    ∃ m1 e1 m2 e2, roundQ neg p1 q1 = finite neg m1 e1 ∧ roundQ neg p2 q2 = finite neg m2 e2
      ∧ (m1 : ℚ) * 2 ^ e1 ≤ m2 * 2 ^ e2 := by
  obtain ⟨ea, m1, e1, hfin1, hval1, hea, hlt1, hge1⟩ :=
    roundQ_struct neg hq1 n2 c2 hn2 hc2 hc2' (le_trans hle hhi)
  obtain ⟨eb, m2, e2, hfin2, hval2, heb, hlt2, hge2⟩ :=
    roundQ_struct neg hq2 n2 c2 hn2 hc2 hc2' hhi
  refine ⟨m1, e1, m2, e2, hfin1, hfin2, ?_⟩
  rw [hval1, hval2]
  have hab : ea ≤ eb := by
    by_contra hcon
    push_neg at hcon
    have h1 := hge1 (by omega)
    have h2 : (2 : ℚ) ^ (eb + 53) ≤ 2 ^ (ea + 52) := two_zpow_mono (by omega)
    linarith
  rcases eq_or_lt_of_le hab with heq | hlt
  · subst heq
    apply mul_le_mul_of_nonneg_right _ (two_zpow_pos ea).le
    exact_mod_cast scaled_mono hq1 hq2 ea hle
  · have hA : (if 0 ≤ ea then rne p1 (q1 <<< ea.toNat) else rne (p1 <<< (-ea).toNat) q1)
        ≤ 9007199254740992 := by
      apply scaled_le hq1
      have : (2 : ℚ) ^ (ea + 53) = (9007199254740992 : Nat) * 2 ^ ea := by
        rw [add_comm, two_zpow_add, two_zpow_53]; norm_num
      rw [← this]; exact hlt1.le
    have hB : 4503599627370496
        ≤ (if 0 ≤ eb then rne p2 (q2 <<< eb.toNat) else rne (p2 <<< (-eb).toNat) q2) := by
      apply le_scaled hq2
      have : (2 : ℚ) ^ (eb + 52) = (4503599627370496 : Nat) * 2 ^ eb := by
        rw [add_comm, two_zpow_add, two_zpow_52]; norm_num
      rw [← this]; exact hge2 (by omega)
    have hA' : (((if 0 ≤ ea then rne p1 (q1 <<< ea.toNat) else rne (p1 <<< (-ea).toNat) q1 : Nat)
        : ℚ)) ≤ 9007199254740992 := by exact_mod_cast hA
    have hB' : (4503599627370496 : ℚ)
        ≤ ((if 0 ≤ eb then rne p2 (q2 <<< eb.toNat) else rne (p2 <<< (-eb).toNat) q2 : Nat)
            : ℚ) := by exact_mod_cast hB
    have hpa := two_zpow_pos ea
    have hpb := two_zpow_pos eb
    have hstep : (9007199254740992 : ℚ) * 2 ^ ea ≤ 4503599627370496 * 2 ^ eb := by
      have h1 : (2 : ℚ) ^ (ea + 53) ≤ 2 ^ (eb + 52) := two_zpow_mono (by omega)
      rw [add_comm ea, two_zpow_add, two_zpow_53, add_comm eb, two_zpow_add, two_zpow_52] at h1
      exact h1
    calc _ ≤ (9007199254740992 : ℚ) * 2 ^ ea := mul_le_mul_of_nonneg_right hA' hpa.le
      _ ≤ 4503599627370496 * 2 ^ eb := hstep
      _ ≤ _ := mul_le_mul_of_nonneg_right hB' hpb.le

theorem roundScaled_eq_roundQ (neg : Bool) {p q : Nat} (hq : 0 < q) (a : Int) :
    ∃ p' q', 0 < q' ∧ roundScaled neg p q a = roundQ neg p' q'
      ∧ (p' : ℚ) / q' = p / q * 2 ^ a := by
  unfold roundScaled
  split_ifs with he
  · refine ⟨p <<< a.toNat, q, hq, rfl, ?_⟩
    rw [shiftLeft_cast, pow_toNat he]; ring
  · refine ⟨p, q <<< (-a).toNat, by rw [Nat.shiftLeft_eq]; positivity, rfl, ?_⟩
    rw [shiftLeft_cast, pow_neg_toNat (by omega)]
    have := (two_zpow_pos a).ne'
    field_simp

theorem RoundsTo.of_mul (m n : Nat) (e f : Int) :
    RoundsTo (mul (finite false m e) (finite false n f)) ((m * 2 ^ e) * (n * 2 ^ f)) := by
  refine ⟨m * n, 1, e + f, Nat.one_pos, rfl, ?_⟩
  rw [two_zpow_add]; push_cast; ring

theorem RoundsTo.of_div (m n : Nat) (e f : Int) (hn : 0 < n) :
    RoundsTo (div (finite false m e) (finite false n f)) ((m * 2 ^ e) / (n * 2 ^ f)) := by
  refine ⟨m, n, e - f, hn, ?_, ?_⟩
  · simp only [Double.div, if_neg hn.ne']; rfl
  · have h1 := (two_zpow_pos f).ne'
    have h2 : (n : ℚ) ≠ 0 := by exact_mod_cast hn.ne'
    rw [sub_eq_add_neg, two_zpow_add, zpow_neg]
    field_simp

theorem RoundsTo.of_add (m n : Nat) (e f : Int) :
    RoundsTo (add (finite false m e) (finite false n f)) (m * 2 ^ e + n * 2 ^ f) := by
  have ha := aligned_false_cast m (min_le_left e f)
  have hb := aligned_false_cast n (min_le_right e f)
  have hza : 0 ≤ aligned false m e (min e f) := by simp [aligned]
  have hzb : 0 ≤ aligned false n f (min e f) := by simp [aligned]
  have hsum : ((aligned false m e (min e f) + aligned false n f (min e f) : Int) : ℚ)
      * 2 ^ (min e f) = m * 2 ^ e + n * 2 ^ f := by
    push_cast; rw [add_mul, ha, hb]
  have hcast : (((aligned false m e (min e f) + aligned false n f (min e f)).natAbs : Nat) : ℚ)
      = ((aligned false m e (min e f) + aligned false n f (min e f) : Int) : ℚ) := by
    rw [Nat.cast_natAbs, abs_of_nonneg (by omega)]
  refine ⟨(aligned false m e (min e f) + aligned false n f (min e f)).natAbs, 1, min e f,
    Nat.one_pos, ?_, ?_⟩
  · unfold Double.add
    simp only
    split_ifs with hz
    · rw [hz]
      exact (roundScaled_zero false Nat.one_pos (min e f)).symm
    · have hneg : decide (aligned false m e (min e f) + aligned false n f (min e f) < 0)
          = false := by
        simp; omega
      rw [hneg]
  · rw [Nat.cast_one, div_one, hcast, hsum]

/-- A rounding stays between any two representable bounds of the exact value. -/
theorem RoundsTo.bounds {x : Double} {v : ℚ} (h : RoundsTo x v) (n1 n2 : Nat) (c1 c2 : Int)
    (hn1 : n1 ≤ 9007199254740992) (hc1 : -1074 ≤ c1)
    (hn2 : n2 < 9007199254740992) (hc2 : -1074 ≤ c2) (hc2' : c2 ≤ 971)
    (hlo : (n1 : ℚ) * 2 ^ c1 ≤ v) (hhi : v ≤ n2 * 2 ^ c2) :
    ∃ m e, x = finite false m e ∧ (n1 : ℚ) * 2 ^ c1 ≤ m * 2 ^ e ∧ (m : ℚ) * 2 ^ e ≤ n2 * 2 ^ c2 := by
  obtain ⟨p, q, a, hq, hx, hv⟩ := h
  rw [hx]
  exact roundScaled_bounds false hq a n1 n2 c1 c2 hn1 hc1 hn2 hc2 hc2' (by rw [hv]; exact hlo)
    (by rw [hv]; exact hhi)

/-- A rounding of a value from `2 ^ (-1022)` on is within `2 ^ (-53)` of it, relatively. -/
theorem RoundsTo.near {x : Double} {v : ℚ} (h : RoundsTo x v) (n2 : Nat) (c2 : Int)
    (hn2 : n2 < 9007199254740992) (hc2 : -1074 ≤ c2) (hc2' : c2 ≤ 971)
    (hhi : v ≤ n2 * 2 ^ c2) (hlow : (2 : ℚ) ^ (-1022 : Int) ≤ v) :
    ∃ m e, x = finite false m e ∧ v * (1 - 2 ^ (-53 : Int)) ≤ m * 2 ^ e
      ∧ (m : ℚ) * 2 ^ e ≤ v * (1 + 2 ^ (-53 : Int)) := by
  obtain ⟨p, q, a, hq, hx, hv⟩ := h
  obtain ⟨p', q', hq', hr, hv'⟩ := roundScaled_eq_roundQ false hq a
  rw [hx, hr, ← hv, ← hv']
  exact roundQ_near false hq' n2 c2 hn2 hc2 hc2' (by rw [hv', hv]; exact hhi)
    (by rw [hv', hv]; exact hlow)

/-- Roundings keep the order of the exact values. -/
theorem RoundsTo.finite_mono {x1 x2 : Double} {v1 v2 : ℚ} (h1 : RoundsTo x1 v1) (h2 : RoundsTo x2 v2)
    (n2 : Nat) (c2 : Int) (hn2 : n2 < 9007199254740992) (hc2 : -1074 ≤ c2) (hc2' : c2 ≤ 971)
    (hle : v1 ≤ v2) (hhi : v2 ≤ n2 * 2 ^ c2) :
    ∃ m1 e1 m2 e2, x1 = finite false m1 e1 ∧ x2 = finite false m2 e2
      ∧ (m1 : ℚ) * 2 ^ e1 ≤ m2 * 2 ^ e2 := by
  obtain ⟨p1, q1, a1, hq1, hx1, hv1⟩ := h1
  obtain ⟨p2, q2, a2, hq2, hx2, hv2⟩ := h2
  obtain ⟨p1', q1', hq1', hr1, hv1'⟩ := roundScaled_eq_roundQ false hq1 a1
  obtain ⟨p2', q2', hq2', hr2, hv2'⟩ := roundScaled_eq_roundQ false hq2 a2
  rw [hx1, hx2, hr1, hr2]
  exact roundQ_mono false hq1' hq2' n2 c2 hn2 hc2 hc2' (by rw [hv1', hv2', hv1, hv2]; exact hle)
    (by rw [hv2', hv2]; exact hhi)

/-- A representable value is its own rounding. -/
theorem RoundsTo.exact {x : Double} {v : ℚ} (h : RoundsTo x v) (n : Nat) (c : Int)
    (hn : n < 9007199254740992) (hc : -1074 ≤ c) (hc' : c ≤ 971) (hv : v = n * 2 ^ c) :
    ∃ m e, x = finite false m e ∧ (m : ℚ) * 2 ^ e = v := by
  obtain ⟨m, e, hx, lo, hi⟩ := h.bounds n n c c hn.le hc hn hc hc' hv.ge hv.le
  exact ⟨m, e, hx, le_antisymm (by rw [hv]; exact hi) (by rw [hv]; exact lo)⟩

/-- Rounding does not fall below a representable lower bound of the exact value, whether or
not it overflows. -/
theorem roundQ_lower (neg : Bool) {p q : Nat} (hq : 0 < q) (n1 : Nat) (c1 : Int)
    (hn1 : n1 ≤ 9007199254740992) (hc1 : -1074 ≤ c1) (hlo : (n1 : ℚ) * 2 ^ c1 ≤ p / q) :
    roundQ neg p q = inf neg
      ∨ ∃ m e, roundQ neg p q = finite neg m e ∧ (n1 : ℚ) * 2 ^ c1 ≤ m * 2 ^ e := by
  obtain ⟨hlo_e, -, -, hmin⟩ := findExp_spec (p := p) hq 11 (-1074)
  have h52 := two_zpow_52
  have hn1q : (n1 : ℚ) ≤ 9007199254740992 := by exact_mod_cast hn1
  have hx_ge : findExp p q 11 (-1074) ≠ -1074 →
      (2 : ℚ) ^ (findExp p q 11 (-1074) + 52) ≤ p / q := by
    intro hne
    have hf := hmin (findExp p q 11 (-1074) - 1) (by omega) (by omega)
    by_contra hcon
    push_neg at hcon
    have : fits p q (findExp p q 11 (-1074) - 1) = true := by
      rw [fits_iff hq]
      have e : findExp p q 11 (-1074) - 1 + 53 = findExp p q 11 (-1074) + 52 := by ring
      rw [e]; exact hcon
    rw [hf] at this; exact Bool.false_ne_true this
  simp only [roundQ]
  generalize findExp p q 11 (-1074) = e at *
  generalize hm : (if 0 ≤ e then rne p (q <<< e.toNat) else rne (p <<< (-e).toNat) q) = m
  have hm52 : e ≠ -1074 → 4503599627370496 ≤ m := by
    intro hne
    rw [← hm]
    apply le_scaled hq
    have := hx_ge hne
    rw [add_comm, two_zpow_add, h52] at this
    exact_mod_cast this
  have hmlo : (n1 : ℚ) * 2 ^ c1 ≤ m * 2 ^ e := by
    by_cases hc : e ≤ c1
    · have : n1 * 2 ^ (c1 - e).toNat ≤ m := by
        rw [← hm]; apply le_scaled hq
        rw [mul_zpow_split n1 hc]; exact hlo
      calc (n1 : ℚ) * 2 ^ c1 = ((n1 * 2 ^ (c1 - e).toNat : Nat) : ℚ) * 2 ^ e :=
            (mul_zpow_split n1 hc).symm
        _ ≤ m * 2 ^ e := by
            apply mul_le_mul_of_nonneg_right _ (two_zpow_pos e).le
            exact_mod_cast this
    · have hm' : (4503599627370496 : ℚ) ≤ m := by exact_mod_cast hm52 (by omega)
      have h1 : (2 : ℚ) ^ c1 ≤ 2 ^ (e - 1) := two_zpow_mono (by omega)
      have h2 : (2 : ℚ) ^ e = 2 * 2 ^ (e - 1) := by
        rw [show e = 1 + (e - 1) by ring, two_zpow_add]; norm_num
      have hp := two_zpow_pos (e - 1)
      have hp1 := two_zpow_pos c1
      rw [h2]
      nlinarith
  have hval : ((if m = 9007199254740992 then 4503599627370496 else m : Nat) : ℚ)
      * 2 ^ (if m = 9007199254740992 then e + 1 else e) = m * 2 ^ e := by
    split_ifs with h
    · rw [h, add_comm, two_zpow_add]; norm_num; ring
    · rfl
  by_cases hbig : 971 < (if m = 9007199254740992 then e + 1 else e)
  · left; rw [if_pos hbig]
  · right
    rw [if_neg hbig]
    exact ⟨_, _, rfl, by rw [hval]; exact hmlo⟩

theorem fits_congr {p q p' q' : Nat} (hq : 0 < q) (hq' : 0 < q')
    (h : (p : ℚ) / q = p' / q') (e : Int) : fits p q e = fits p' q' e := by
  rw [Bool.eq_iff_iff, fits_iff hq, fits_iff hq', h]

theorem findExp_congr {p q p' q' : Nat} (hq : 0 < q) (hq' : 0 < q')
    (h : (p : ℚ) / q = p' / q') (j : Nat) (lo : Int) :
    findExp p q j lo = findExp p' q' j lo := by
  induction j generalizing lo with
  | zero => rfl
  | succ j ih => simp only [findExp, fits_congr hq hq' h, ih]

/-- The rounding depends on the exact value only. -/
theorem roundQ_congr (neg : Bool) {p q p' q' : Nat} (hq : 0 < q) (hq' : 0 < q')
    (h : (p : ℚ) / q = p' / q') : roundQ neg p q = roundQ neg p' q' := by
  have hm : ∀ e : Int, (if 0 ≤ e then rne p (q <<< e.toNat) else rne (p <<< (-e).toNat) q)
      = (if 0 ≤ e then rne p' (q' <<< e.toNat) else rne (p' <<< (-e).toNat) q') :=
    fun e => le_antisymm (scaled_mono hq hq' e h.le) (scaled_mono hq' hq e h.ge)
  simp only [roundQ, findExp_congr hq hq' h, hm]

theorem RoundsTo.lower {x : Double} {v : ℚ} (h : RoundsTo x v) (n1 : Nat) (c1 : Int)
    (hn1 : n1 ≤ 9007199254740992) (hc1 : -1074 ≤ c1) (hlo : (n1 : ℚ) * 2 ^ c1 ≤ v) :
    x = inf false ∨ ∃ m e, x = finite false m e ∧ (n1 : ℚ) * 2 ^ c1 ≤ m * 2 ^ e := by
  obtain ⟨p, q, a, hq, hx, hv⟩ := h
  obtain ⟨p', q', hq', hr, hv'⟩ := roundScaled_eq_roundQ false hq a
  rw [hx, hr]
  exact roundQ_lower false hq' n1 c1 hn1 hc1 (by rw [hv', hv]; exact hlo)

/-- Two roundings of the same value are the same datum. -/
theorem RoundsTo.unique {x y : Double} {v : ℚ} (hx : RoundsTo x v) (hy : RoundsTo y v) :
    x = y := by
  obtain ⟨p1, q1, a1, hq1, hx1, hv1⟩ := hx
  obtain ⟨p2, q2, a2, hq2, hx2, hv2⟩ := hy
  obtain ⟨p1', q1', hq1', hr1, hv1'⟩ := roundScaled_eq_roundQ false hq1 a1
  obtain ⟨p2', q2', hq2', hr2, hv2'⟩ := roundScaled_eq_roundQ false hq2 a2
  rw [hx1, hx2, hr1, hr2]
  exact roundQ_congr false hq1' hq2' (by rw [hv1', hv2', hv1, hv2])

theorem RoundsTo.ofNat_self (n : Nat) : RoundsTo (Double.ofNat n) n := by
  refine ⟨n, 1, 0, Nat.one_pos, ?_, by simp⟩
  simp [Double.ofNat, roundScaled]

/-- A rounding of zero is `+0`. -/
theorem RoundsTo.zero {x : Double} (h : RoundsTo x 0) : x = Double.zero := by
  have h0 : RoundsTo Double.zero 0 := ⟨0, 1, 0, Nat.one_pos, by decide, by simp⟩
  exact h.unique h0

/-- A rounding of zero or of a value from `2 ^ (-1022)` on is within `2 ^ (-53)` of it,
relatively. -/
theorem RoundsTo.near0 {x : Double} {v : ℚ} (h : RoundsTo x v) (n2 : Nat) (c2 : Int)
    (hn2 : n2 < 9007199254740992) (hc2 : -1074 ≤ c2) (hc2' : c2 ≤ 971)
    (hhi : v ≤ n2 * 2 ^ c2) (hlow : v = 0 ∨ (2 : ℚ) ^ (-1022 : Int) ≤ v) :
    ∃ m e, x = finite false m e ∧ v * (1 - 2 ^ (-53 : Int)) ≤ m * 2 ^ e
      ∧ (m : ℚ) * 2 ^ e ≤ v * (1 + 2 ^ (-53 : Int)) := by
  rcases hlow with h0 | hlow
  · subst h0
    exact ⟨0, -1074, h.zero, by simp, by simp⟩
  · exact h.near n2 c2 hn2 hc2 hc2' hhi hlow

theorem Nonneg.toRat_nonneg {x : Double} (h : Nonneg x) : 0 ≤ x.toRat := by
  obtain ⟨m, e, rfl⟩ := h
  rw [toRat_finite_false]
  exact mul_nonneg (Nat.cast_nonneg _) (two_zpow_pos e).le

theorem Nonneg.ofNat_toRat {n : Nat} (hn : n < 9007199254740992) :
    Nonneg (Double.ofNat n) ∧ (Double.ofNat n).toRat = n := by
  obtain ⟨m, e, h, hv⟩ := ofNat_exact hn
  exact ⟨⟨m, e, h⟩, by rw [h, toRat_finite_false, hv]⟩

theorem RoundsTo.mul_toRat {x y : Double} (hx : Nonneg x) (hy : Nonneg y) :
    RoundsTo (Double.mul x y) (x.toRat * y.toRat) := by
  obtain ⟨m, e, rfl⟩ := hx
  obtain ⟨n, f, rfl⟩ := hy
  rw [toRat_finite_false, toRat_finite_false]
  exact RoundsTo.of_mul m n e f

theorem RoundsTo.div_toRat {x y : Double} (hx : Nonneg x) (hy : Nonneg y) (hpos : 0 < y.toRat) :
    RoundsTo (Double.div x y) (x.toRat / y.toRat) := by
  obtain ⟨m, e, rfl⟩ := hx
  obtain ⟨n, f, rfl⟩ := hy
  rw [toRat_finite_false] at hpos ⊢
  rw [toRat_finite_false]
  have hn : 0 < n := by
    rcases Nat.eq_zero_or_pos n with h0 | h0
    · subst h0; simp at hpos
    · exact h0
  exact RoundsTo.of_div m n e f hn

theorem RoundsTo.add_toRat {x y : Double} (hx : Nonneg x) (hy : Nonneg y) :
    RoundsTo (Double.add x y) (x.toRat + y.toRat) := by
  obtain ⟨m, e, rfl⟩ := hx
  obtain ⟨n, f, rfl⟩ := hy
  rw [toRat_finite_false, toRat_finite_false]
  exact RoundsTo.of_add m n e f

/-- A rounding is finite and stays between representable bounds of the exact value. -/
theorem RoundsTo.between {x : Double} {v : ℚ} (h : RoundsTo x v) (n1 n2 : Nat) (c1 c2 : Int)
    (hn1 : n1 ≤ 9007199254740992) (hc1 : -1074 ≤ c1)
    (hn2 : n2 < 9007199254740992) (hc2 : -1074 ≤ c2) (hc2' : c2 ≤ 971)
    (hlo : (n1 : ℚ) * 2 ^ c1 ≤ v) (hhi : v ≤ n2 * 2 ^ c2) :
    Nonneg x ∧ (n1 : ℚ) * 2 ^ c1 ≤ x.toRat ∧ x.toRat ≤ n2 * 2 ^ c2 := by
  obtain ⟨m, e, rfl, lo, hi⟩ := h.bounds n1 n2 c1 c2 hn1 hc1 hn2 hc2 hc2' hlo hhi
  rw [toRat_finite_false]
  exact ⟨⟨m, e, rfl⟩, lo, hi⟩

theorem RoundsTo.value_nonneg {x : Double} {v : ℚ} (h : RoundsTo x v) : 0 ≤ v := by
  obtain ⟨p, q, a, hq, -, hv⟩ := h
  rw [← hv]
  have := two_zpow_pos a
  positivity

/-- A rounding below a representable bound is finite and below the bound. -/
theorem RoundsTo.le {x : Double} {v : ℚ} (h : RoundsTo x v) (n2 : Nat) (c2 : Int)
    (hn2 : n2 < 9007199254740992) (hc2 : -1074 ≤ c2) (hc2' : c2 ≤ 971)
    (hhi : v ≤ n2 * 2 ^ c2) : Nonneg x ∧ x.toRat ≤ n2 * 2 ^ c2 := by
  obtain ⟨a, -, b⟩ := h.between 0 n2 0 c2 (by norm_num) (by norm_num) hn2 hc2 hc2'
    (by simpa using h.value_nonneg) hhi
  exact ⟨a, b⟩

/-- A finite rounding is not below a representable lower bound of the exact value. -/
theorem RoundsTo.ge {x : Double} {v : ℚ} (h : RoundsTo x v) (hx : Nonneg x) (n1 : Nat)
    (c1 : Int) (hn1 : n1 ≤ 9007199254740992) (hc1 : -1074 ≤ c1) (hlo : (n1 : ℚ) * 2 ^ c1 ≤ v) :
    (n1 : ℚ) * 2 ^ c1 ≤ x.toRat := by
  rcases h.lower n1 c1 hn1 hc1 hlo with hinf | ⟨m, e, rfl, hm⟩
  · obtain ⟨m, e, hfin⟩ := hx
    rw [hinf] at hfin
    exact Double.noConfusion hfin
  · rw [toRat_finite_false]; exact hm

/-- Relative error of a rounding. -/
theorem RoundsTo.rel {x : Double} {v : ℚ} (h : RoundsTo x v) (n2 : Nat) (c2 : Int)
    (hn2 : n2 < 9007199254740992) (hc2 : -1074 ≤ c2) (hc2' : c2 ≤ 971)
    (hhi : v ≤ n2 * 2 ^ c2) (hlow : v = 0 ∨ (2 : ℚ) ^ (-1022 : Int) ≤ v) :
    Nonneg x ∧ v * (1 - 2 ^ (-53 : Int)) ≤ x.toRat ∧ x.toRat ≤ v * (1 + 2 ^ (-53 : Int)) := by
  obtain ⟨m, e, rfl, lo, hi⟩ := h.near0 n2 c2 hn2 hc2 hc2' hhi hlow
  rw [toRat_finite_false]
  exact ⟨⟨m, e, rfl⟩, lo, hi⟩

/-- Roundings keep the order of the exact values. -/
theorem RoundsTo.toRat_mono {x1 x2 : Double} {v1 v2 : ℚ} (h1 : RoundsTo x1 v1)
    (h2 : RoundsTo x2 v2) (n2 : Nat) (c2 : Int) (hn2 : n2 < 9007199254740992) (hc2 : -1074 ≤ c2)
    (hc2' : c2 ≤ 971) (hle : v1 ≤ v2) (hhi : v2 ≤ n2 * 2 ^ c2) : x1.toRat ≤ x2.toRat := by
  obtain ⟨m1, e1, m2, e2, rfl, rfl, hm⟩ := h1.finite_mono h2 n2 c2 hn2 hc2 hc2' hle hhi
  rw [toRat_finite_false, toRat_finite_false]
  exact hm

/-- A representable value is its own rounding. -/
theorem RoundsTo.toRat_exact {x : Double} {v : ℚ} (h : RoundsTo x v) (n : Nat) (c : Int)
    (hn : n < 9007199254740992) (hc : -1074 ≤ c) (hc' : c ≤ 971) (hv : v = n * 2 ^ c) :
    Nonneg x ∧ x.toRat = v := by
  obtain ⟨m, e, rfl, hm⟩ := h.exact n c hn hc hc' hv
  rw [toRat_finite_false]
  exact ⟨⟨m, e, rfl⟩, hm⟩

theorem unit_roundoff : (2 : ℚ) ^ (-53 : Int) = 1 / 9007199254740992 := by norm_num

theorem Within.refl (v : ℚ) : Within 0 v v := by
  simp [Within]

theorem Within.left_nonneg {k : Nat} {x v : ℚ} (h : Within k x v) (hv : 0 ≤ v) : 0 ≤ x := by
  refine le_trans (mul_nonneg hv (pow_nonneg ?_ k)) h.1
  rw [unit_roundoff]; norm_num

theorem Within.prod {j k : Nat} {x y v w : ℚ} (hv : 0 ≤ v) (hw : 0 ≤ w) (hx : Within j x v)
    (hy : Within k y w) : Within (j + k) (x * y) (v * w) := by
  have hlo : (0 : ℚ) ≤ 1 - 2 ^ (-53 : Int) := by rw [unit_roundoff]; norm_num
  have hhi : (0 : ℚ) ≤ 1 + 2 ^ (-53 : Int) := by rw [unit_roundoff]; norm_num
  have hx0 := hx.left_nonneg hv
  have hy0 := hy.left_nonneg hw
  constructor
  · calc v * w * (1 - 2 ^ (-53 : Int)) ^ (j + k)
        = (v * (1 - 2 ^ (-53 : Int)) ^ j) * (w * (1 - 2 ^ (-53 : Int)) ^ k) := by
          rw [pow_add]; ring
      _ ≤ x * y := mul_le_mul hx.1 hy.1 (mul_nonneg hw (pow_nonneg hlo k)) hx0
  · calc x * y ≤ (v * (1 + 2 ^ (-53 : Int)) ^ j) * (w * (1 + 2 ^ (-53 : Int)) ^ k) :=
          mul_le_mul hx.2 hy.2 hy0 (mul_nonneg hv (pow_nonneg hhi j))
      _ = v * w * (1 + 2 ^ (-53 : Int)) ^ (j + k) := by rw [pow_add]; ring

theorem Within.const_add {k : Nat} {x v : ℚ} (s : ℚ) (hs : 0 ≤ s) (hx : Within k x v) :
    Within k (s + x) (s + v) := by
  have hlo0 : (0 : ℚ) ≤ 1 - 2 ^ (-53 : Int) := by rw [unit_roundoff]; norm_num
  have hlo1 : (1 : ℚ) - 2 ^ (-53 : Int) ≤ 1 := by rw [unit_roundoff]; norm_num
  have hhi1 : (1 : ℚ) ≤ 1 + 2 ^ (-53 : Int) := by rw [unit_roundoff]; norm_num
  have h1 : (1 - 2 ^ (-53 : Int) : ℚ) ^ k ≤ 1 := pow_le_one₀ hlo0 hlo1
  have h2 : (1 : ℚ) ≤ (1 + 2 ^ (-53 : Int)) ^ k := one_le_pow₀ hhi1
  constructor
  · have : s * (1 - 2 ^ (-53 : Int)) ^ k ≤ s := by
      calc s * (1 - 2 ^ (-53 : Int)) ^ k ≤ s * 1 := mul_le_mul_of_nonneg_left h1 hs
        _ = s := mul_one s
    rw [add_mul]
    exact add_le_add this hx.1
  · have : s ≤ s * (1 + 2 ^ (-53 : Int)) ^ k := by
      calc s = s * 1 := (mul_one s).symm
        _ ≤ s * (1 + 2 ^ (-53 : Int)) ^ k := mul_le_mul_of_nonneg_left h2 hs
    rw [add_mul]
    exact add_le_add this hx.2

/-- One more rounding. -/
theorem Within.step {k : Nat} {y x v : ℚ} (hy : Within 1 y x) (hx : Within k x v) :
    Within (k + 1) y v := by
  have hlo : (0 : ℚ) ≤ 1 - 2 ^ (-53 : Int) := by rw [unit_roundoff]; norm_num
  have hhi : (0 : ℚ) ≤ 1 + 2 ^ (-53 : Int) := by rw [unit_roundoff]; norm_num
  obtain ⟨a, b⟩ := hy
  rw [pow_one] at a b
  constructor
  · calc v * (1 - 2 ^ (-53 : Int)) ^ (k + 1)
        = v * (1 - 2 ^ (-53 : Int)) ^ k * (1 - 2 ^ (-53 : Int)) := by rw [pow_succ]; ring
      _ ≤ x * (1 - 2 ^ (-53 : Int)) := mul_le_mul_of_nonneg_right hx.1 hlo
      _ ≤ y := a
  · calc y ≤ x * (1 + 2 ^ (-53 : Int)) := b
      _ ≤ v * (1 + 2 ^ (-53 : Int)) ^ k * (1 + 2 ^ (-53 : Int)) :=
          mul_le_mul_of_nonneg_right hx.2 hhi
      _ = v * (1 + 2 ^ (-53 : Int)) ^ (k + 1) := by rw [pow_succ]; ring

/-- Two roundings stay within `2 ^ (-51)`, relatively. -/
theorem Within.abs_sub_le_two {x v : ℚ} (h : Within 2 x v) (hv : 0 ≤ v) :
    |x - v| ≤ 2 ^ (-51 : Int) * v := by
  obtain ⟨a, b⟩ := h
  have h1 : (1 : ℚ) - 2 ^ (-51 : Int) ≤ (1 - 2 ^ (-53 : Int)) ^ 2 := by
    rw [unit_roundoff]; norm_num
  have h2 : (1 + 2 ^ (-53 : Int) : ℚ) ^ 2 ≤ 1 + 2 ^ (-51 : Int) := by
    rw [unit_roundoff]; norm_num
  have a' := le_trans (mul_le_mul_of_nonneg_left h1 hv) a
  have b' := le_trans b (mul_le_mul_of_nonneg_left h2 hv)
  rw [abs_le]
  constructor <;> linarith

/-- Seven roundings stay within `2 ^ (-50)`, relatively. -/
theorem Within.abs_sub_le_seven {x v : ℚ} (h : Within 7 x v) (hv : 0 ≤ v) :
    |x - v| ≤ 2 ^ (-50 : Int) * v := by
  obtain ⟨a, b⟩ := h
  have h1 : (1 : ℚ) - 2 ^ (-50 : Int) ≤ (1 - 2 ^ (-53 : Int)) ^ 7 := by
    rw [unit_roundoff]; norm_num
  have h2 : (1 + 2 ^ (-53 : Int) : ℚ) ^ 7 ≤ 1 + 2 ^ (-50 : Int) := by
    rw [unit_roundoff]; norm_num
  have a' := le_trans (mul_le_mul_of_nonneg_left h1 hv) a
  have b' := le_trans b (mul_le_mul_of_nonneg_left h2 hv)
  rw [abs_le]
  constructor <;> linarith

/-- The rounding of zero, or of a value from `2 ^ (-1022)` on, is within one rounding of it. -/
theorem RoundsTo.within {x : Double} {v : ℚ} (h : RoundsTo x v) (n2 : Nat) (c2 : Int)
    (hn2 : n2 < 9007199254740992) (hc2 : -1074 ≤ c2) (hc2' : c2 ≤ 971)
    (hhi : v ≤ n2 * 2 ^ c2) (hlow : v = 0 ∨ (2 : ℚ) ^ (-1022 : Int) ≤ v) :
    Nonneg x ∧ Within 1 x.toRat v := by
  obtain ⟨a, b, c⟩ := h.rel n2 c2 hn2 hc2 hc2' hhi hlow
  exact ⟨a, by rw [Within, pow_one, pow_one]; exact ⟨b, c⟩⟩

/-- An index below the rounded product of rate and duration, scaled by two roundings, is
below the exact product. -/
theorem index_scaled_le {i X : ℚ} (h1 : i + 1 ≤ X * (1 + 2 ^ (-53 : Int)))
    (h2 : X ≤ 2 ^ (33 : Int)) : i * (1 + 2 ^ (-53 : Int)) ^ 2 ≤ X := by
  rw [unit_roundoff] at h1 ⊢
  norm_num at h1 h2 ⊢
  linarith

theorem NonnegLe.to_nonneg {x : Double} {B : ℚ} (h : NonnegLe x B) : Nonneg x ∧ x.toRat ≤ B := by
  obtain ⟨m, e, rfl, hle⟩ := h
  rw [toRat_finite_false]
  exact ⟨⟨m, e, rfl⟩, hle⟩

end Double

/-! ## Lemmas on the frequency and the angle -/

/-- The time of sample `i` is the rounding of `i / sr`. -/
theorem sweepTime_roundsTo {st : ToneStatics} (hsr1 : 1 ≤ st._sampleRate)
    (hsr : st._sampleRate < 4294967296) {i : Nat} (hi : i < 4294967296) :
    RoundsTo (sweepTime st i) ((i : ℚ) / st._sampleRate) := by
  obtain ⟨a, b⟩ := Nonneg.ofNat_toRat (n := i) (by omega)
  obtain ⟨c, d⟩ := Nonneg.ofNat_toRat (n := st._sampleRate) (by omega)
  have hpos : 0 < (Double.ofNat st._sampleRate).toRat := by
    rw [d]; exact_mod_cast hsr1
  have := RoundsTo.div_toRat a c hpos
  rw [b, d] at this
  exact this

/-- At index 0 the time is exactly `+0`. -/
theorem sweepTime_zero {st : ToneStatics} (hsr : st._sampleRate < 4294967296)
    (hsr1 : 1 ≤ st._sampleRate) : sweepTime st 0 = Double.zero := by
  have h := sweepTime_roundsTo hsr1 hsr (show 0 < 4294967296 by norm_num)
  have hz : RoundsTo (sweepTime st 0) 0 := by simpa using h
  exact hz.zero

theorem sweepTime_within {st : ToneStatics} (hsr1 : 1 ≤ st._sampleRate)
    (hsr : st._sampleRate < 4294967296) {i : Nat} (hi : i < 4294967296) :
    Nonneg (sweepTime st i)
    ∧ Within 1 (sweepTime st i).toRat ((i : ℚ) / st._sampleRate)
    ∧ (sweepTime st i).toRat ≤ 2 ^ (32 : Int)
    ∧ (i = 0 → (sweepTime st i).toRat = 0)
    ∧ (1 ≤ i → (2 : ℚ) ^ (-32 : Int) ≤ (sweepTime st i).toRat) := by
  have h := sweepTime_roundsTo hsr1 hsr hi
  have hsrq : (1 : ℚ) ≤ st._sampleRate := by exact_mod_cast hsr1
  have hsrq2 : (st._sampleRate : ℚ) ≤ 4294967296 := by exact_mod_cast hsr.le
  have hiq : (i : ℚ) ≤ 4294967296 := by exact_mod_cast hi.le
  have hi0 : (0 : ℚ) ≤ i := Nat.cast_nonneg i
  have hhi : (i : ℚ) / st._sampleRate ≤ (1 : Nat) * 2 ^ (32 : Int) := by
    rw [div_le_iff₀ (by linarith)]
    norm_num
    nlinarith
  have hlo : 1 ≤ i → (2 : ℚ) ^ (-32 : Int) ≤ (i : ℚ) / st._sampleRate := by
    intro h1
    have h1q : (1 : ℚ) ≤ i := by exact_mod_cast h1
    rw [le_div_iff₀ (by linarith)]
    norm_num
    linarith
  have hlow : (i : ℚ) / st._sampleRate = 0 ∨ (2 : ℚ) ^ (-1022 : Int) ≤ (i : ℚ) / st._sampleRate := by
    rcases Nat.eq_zero_or_pos i with h0 | h0
    · left; rw [h0]; simp
    · right
      exact le_trans (two_zpow_mono (by norm_num)) (hlo h0)
  obtain ⟨hN, hW⟩ := h.within 1 32 (by norm_num) (by norm_num) (by norm_num) hhi hlow
  refine ⟨hN, hW, ?_, ?_, ?_⟩
  · have := (h.le 1 32 (by norm_num) (by norm_num) (by norm_num) hhi).2
    simpa using this
  · intro h0
    subst h0
    have hz : RoundsTo (sweepTime st 0) 0 := by simpa using h
    rw [hz.zero]
    simp [Double.zero, Double.toRat]
  · intro h1
    have := h.ge hN 1 (-32) (by norm_num) (by norm_num) (by simpa using hlo h1)
    simpa using this

/-- For a constant or increasing sweep the step is the rounding of
`(endFreq - startFreq) / duration`. -/
theorem sweepFreqStep_roundsTo {startFreq endFreq : Nat} {d : Double} (hd : Nonneg d)
    (hpos : 0 < d.toRat) (hse : startFreq ≤ endFreq) (he : endFreq < 4294967296) :
    RoundsTo (sweepFreqStep startFreq endFreq d) (((endFreq : ℚ) - startFreq) / d.toRat) := by
  have h1 : (endFreq + 4294967296 - startFreq) % 4294967296 = endFreq - startFreq := by omega
  obtain ⟨a, b⟩ := Nonneg.ofNat_toRat (n := endFreq - startFreq) (by omega)
  have := RoundsTo.div_toRat a hd hpos
  rw [b, Nat.cast_sub hse] at this
  unfold sweepFreqStep
  rw [h1]
  exact this

/-- What a positive sample count says about the rate and the duration. -/
theorem sweepTotalSamples_facts {st : ToneStatics} {d : Double} {n : Nat}
    (hsr : st._sampleRate < 4294967296) (h : sweepTotalSamples st d = some n) (hn : 0 < n) :
    1 ≤ st._sampleRate ∧ Nonneg d ∧ (2 : ℚ) ^ (-33 : Int) ≤ d.toRat
    ∧ (st._sampleRate : ℚ) * d.toRat ≤ 2 ^ (33 : Int)
    ∧ (n : ℚ) ≤ (st._sampleRate : ℚ) * d.toRat * (1 + 2 ^ (-53 : Int)) := by
  obtain ⟨hsr1, dm, de, rfl, hd⟩ := sweepTotalSamples_pos hsr h hn
  have hdN : Nonneg (finite false dm de) := ⟨dm, de, rfl⟩
  rw [← toRat_finite_false] at hd
  obtain ⟨a, b⟩ := Nonneg.ofNat_toRat (n := st._sampleRate) (by omega)
  have hV : RoundsTo (mul (Double.ofNat st._sampleRate) (finite false dm de))
      ((st._sampleRate : ℚ) * (finite false dm de).toRat) := by
    have := RoundsTo.mul_toRat a hdN
    rwa [b] at this
  unfold sweepTotalSamples at h
  have hfl := toUInt32_eq_floor h
  have hlt := toUInt32_lt h
  obtain ⟨s, m, e, hx, -, hs⟩ := toUInt32_eq_some h
  have hVN : Nonneg (mul (Double.ofNat st._sampleRate) (finite false dm de)) := by
    cases s with
    | true => have := hs rfl; omega
    | false => exact ⟨m, e, hx⟩
  have hV0 := hVN.toRat_nonneg
  have hVlt : (mul (Double.ofNat st._sampleRate) (finite false dm de)).toRat < 4294967296 := by
    have h1 := Nat.lt_floor_add_one (mul (Double.ofNat st._sampleRate) (finite false dm de)).toRat
    rw [← hfl] at h1
    have h2 : ((n : ℚ) + 1) ≤ 4294967296 := by exact_mod_cast hlt
    linarith
  have hnV : (n : ℚ) ≤ (mul (Double.ofNat st._sampleRate) (finite false dm de)).toRat := by
    rw [hfl]; exact Nat.floor_le hV0
  have hsrq : (1 : ℚ) ≤ st._sampleRate := by exact_mod_cast hsr1
  have hX : (st._sampleRate : ℚ) * (finite false dm de).toRat ≤ 2 ^ (33 : Int) := by
    by_contra hcon
    push_neg at hcon
    have := hV.ge hVN 1 33 (by norm_num) (by norm_num) (by simpa using hcon.le)
    norm_num at this
    linarith
  have hp33 := two_zpow_pos (-33)
  have hlow : (2 : ℚ) ^ (-1022 : Int) ≤ (st._sampleRate : ℚ) * (finite false dm de).toRat := by
    have h1 : (2 : ℚ) ^ (-1022 : Int) ≤ 2 ^ (-33 : Int) := two_zpow_mono (by norm_num)
    nlinarith
  obtain ⟨-, -, hrel⟩ := hV.rel 1 33 (by norm_num) (by norm_num) (by norm_num)
    (by simpa using hX) (Or.inr hlow)
  exact ⟨hsr1, hdN, hd, hX, le_trans hnV hrel⟩

/-- The step of a constant or increasing sweep whose sample count is positive. -/
theorem sweepFreqStep_within {st : ToneStatics} {startFreq endFreq : Nat} {d : Double} {n : Nat}
    (hsr : st._sampleRate < 4294967296) (he : endFreq < 4294967296) (hse : startFreq ≤ endFreq)
    (hcount : sweepTotalSamples st d = some n) (hn : 0 < n) :
    Nonneg (sweepFreqStep startFreq endFreq d)
    ∧ Within 1 (sweepFreqStep startFreq endFreq d).toRat
        (((endFreq : ℚ) - startFreq) / d.toRat)
    ∧ (sweepFreqStep startFreq endFreq d).toRat ≤ 2 ^ (65 : Int)
    ∧ (startFreq = endFreq → (sweepFreqStep startFreq endFreq d).toRat = 0)
    ∧ (startFreq < endFreq →
        (2 : ℚ) ^ (-33 : Int) ≤ (sweepFreqStep startFreq endFreq d).toRat) := by
  obtain ⟨hsr1, hdN, hd33, hX, -⟩ := sweepTotalSamples_facts hsr hcount hn
  have hdpos : 0 < d.toRat := lt_of_lt_of_le (two_zpow_pos _) hd33
  have hS := sweepFreqStep_roundsTo hdN hdpos hse he
  have hsrq : (1 : ℚ) ≤ st._sampleRate := by exact_mod_cast hsr1
  have hseq : (startFreq : ℚ) ≤ endFreq := by exact_mod_cast hse
  have heq : (endFreq : ℚ) ≤ 4294967296 := by exact_mod_cast he.le
  have hs0 : (0 : ℚ) ≤ startFreq := Nat.cast_nonneg _
  have hd33' : (1 : ℚ) / 8589934592 ≤ d.toRat := by
    have : (2 : ℚ) ^ (-33 : Int) = 1 / 8589934592 := by norm_num
    rw [← this]; exact hd33
  have hdle : d.toRat ≤ 8589934592 := by
    have : (2 : ℚ) ^ (33 : Int) = 8589934592 := by norm_num
    rw [this] at hX
    nlinarith
  have hhi : ((endFreq : ℚ) - startFreq) / d.toRat ≤ (1 : Nat) * 2 ^ (65 : Int) := by
    rw [div_le_iff₀ hdpos]
    norm_num
    nlinarith
  have hlo : startFreq < endFreq →
      (2 : ℚ) ^ (-33 : Int) ≤ ((endFreq : ℚ) - startFreq) / d.toRat := by
    intro hlt
    have h1 : (startFreq : ℚ) + 1 ≤ endFreq := by exact_mod_cast hlt
    rw [le_div_iff₀ hdpos]
    norm_num
    nlinarith
  have hlow : ((endFreq : ℚ) - startFreq) / d.toRat = 0
      ∨ (2 : ℚ) ^ (-1022 : Int) ≤ ((endFreq : ℚ) - startFreq) / d.toRat := by
    rcases Nat.eq_or_lt_of_le hse with h0 | h0
    · left; rw [h0]; simp
    · right
      exact le_trans (two_zpow_mono (by norm_num)) (hlo h0)
  obtain ⟨hN, hW⟩ := hS.within 1 65 (by norm_num) (by norm_num) (by norm_num) hhi hlow
  refine ⟨hN, hW, ?_, ?_, ?_⟩
  · have := (hS.le 1 65 (by norm_num) (by norm_num) (by norm_num) hhi).2
    simpa using this
  · intro h0
    subst h0
    have hz : RoundsTo (sweepFreqStep startFreq startFreq d) 0 := by simpa using hS
    rw [hz.zero]
    simp [Double.zero, Double.toRat]
  · intro h1
    have := hS.ge hN 1 (-33) (by norm_num) (by norm_num) (by simpa using hlo h1)
    simpa using this

/-- The frequency of a constant or increasing sweep stays between the start frequency and
the end frequency at every index below the sample count. -/
theorem sweepFreq_between {st : ToneStatics} {startFreq endFreq : Nat} {d : Double} {n i : Nat}
    (hsr : st._sampleRate < 4294967296) (he : endFreq < 4294967296) (hse : startFreq ≤ endFreq)
    (hcount : sweepTotalSamples st d = some n) (hi : i < n) :
    Nonneg (sweepFreq st startFreq (sweepFreqStep startFreq endFreq d) i)
    ∧ (startFreq : ℚ) ≤ (sweepFreq st startFreq (sweepFreqStep startFreq endFreq d) i).toRat
    ∧ (sweepFreq st startFreq (sweepFreqStep startFreq endFreq d) i).toRat ≤ endFreq := by
  obtain ⟨hsr1, hdN, hd33, hX, hnX⟩ := sweepTotalSamples_facts hsr hcount (by omega)
  have hn32 : n < 4294967296 := by
    have hc := hcount
    unfold sweepTotalSamples at hc
    exact toUInt32_lt hc
  obtain ⟨hTN, hTW, -, -, -⟩ := sweepTime_within hsr1 hsr (show i < 4294967296 by omega)
  obtain ⟨hSN, hSW, -, -, -⟩ := sweepFreqStep_within hsr he hse hcount (by omega)
  have hdpos : 0 < d.toRat := lt_of_lt_of_le (two_zpow_pos _) hd33
  have hsrq : (1 : ℚ) ≤ st._sampleRate := by exact_mod_cast hsr1
  have hseq : (startFreq : ℚ) ≤ endFreq := by exact_mod_cast hse
  have hi0 : (0 : ℚ) ≤ i := Nat.cast_nonneg _
  have hP := RoundsTo.mul_toRat hSN hTN
  have hT0 := hTN.toRat_nonneg
  have hS0 := hSN.toRat_nonneg
  have hu : (0 : ℚ) ≤ 1 + 2 ^ (-53 : Int) := by rw [unit_roundoff]; norm_num
  have hidx : (i : ℚ) * (1 + 2 ^ (-53 : Int)) ^ 2 ≤ (st._sampleRate : ℚ) * d.toRat := by
    apply index_scaled_le _ hX
    have : ((i : ℚ) + 1) ≤ n := by exact_mod_cast hi
    linarith
  have hXpos : (0 : ℚ) < (st._sampleRate : ℚ) * d.toRat := by positivity
  have hST : (sweepFreqStep startFreq endFreq d).toRat * (sweepTime st i).toRat
      ≤ (endFreq : ℚ) - startFreq := by
    have h1 := hSW.2
    have h2 := hTW.2
    rw [pow_one] at h1 h2
    calc (sweepFreqStep startFreq endFreq d).toRat * (sweepTime st i).toRat
        ≤ (((endFreq : ℚ) - startFreq) / d.toRat * (1 + 2 ^ (-53 : Int)))
            * ((i : ℚ) / st._sampleRate * (1 + 2 ^ (-53 : Int))) :=
          mul_le_mul h1 h2 hT0 (mul_nonneg (div_nonneg (by linarith) hdpos.le) hu)
      _ = ((endFreq : ℚ) - startFreq) * ((i : ℚ) * (1 + 2 ^ (-53 : Int)) ^ 2)
            / ((st._sampleRate : ℚ) * d.toRat) := by
          field_simp; ring
      _ ≤ ((endFreq : ℚ) - startFreq) * ((st._sampleRate : ℚ) * d.toRat)
            / ((st._sampleRate : ℚ) * d.toRat) :=
          div_le_div_of_nonneg_right (mul_le_mul_of_nonneg_left hidx (by linarith)) hXpos.le
      _ = (endFreq : ℚ) - startFreq := by field_simp
  obtain ⟨hPN, hPle⟩ := hP.le (endFreq - startFreq) 0 (by omega) (by norm_num) (by norm_num)
    (by rw [Nat.cast_sub hse]; simpa using hST)
  rw [Nat.cast_sub hse] at hPle
  obtain ⟨a, b⟩ := Nonneg.ofNat_toRat (n := startFreq) (by omega)
  have hF := RoundsTo.add_toRat a hPN
  rw [b] at hF
  have hP0 := hPN.toRat_nonneg
  obtain ⟨hFN, hFlo, hFhi⟩ := hF.between startFreq endFreq 0 0 (by omega) (by norm_num)
    (by omega) (by norm_num) (by norm_num) (by simpa using hP0)
    (by simp only [zpow_zero, mul_one] at hPle ⊢; linarith)
  unfold sweepFreq
  exact ⟨hFN, by simpa using hFlo, by simpa using hFhi⟩

namespace Double

theorem low_mul {a b : ℚ} {c d : Int} (ha : a = 0 ∨ (2 : ℚ) ^ c ≤ a)
    (hb : b = 0 ∨ (2 : ℚ) ^ d ≤ b) : a * b = 0 ∨ (2 : ℚ) ^ (c + d) ≤ a * b := by
  rcases ha with ha | ha
  · left; rw [ha, zero_mul]
  · rcases hb with hb | hb
    · left; rw [hb, mul_zero]
    · right
      rw [two_zpow_add]
      exact mul_le_mul ha hb (two_zpow_pos d).le (le_trans (two_zpow_pos c).le ha)

theorem low_add {s p : ℚ} {c : Int} (hs : s = 0 ∨ 1 ≤ s) (hp0 : 0 ≤ p)
    (hp : p = 0 ∨ (2 : ℚ) ^ c ≤ p) (hc : c ≤ 0) : s + p = 0 ∨ (2 : ℚ) ^ c ≤ s + p := by
  rcases hs with hs | hs
  · rw [hs, zero_add]; exact hp
  · right
    have : (2 : ℚ) ^ c ≤ 2 ^ (0 : Int) := two_zpow_mono hc
    rw [zpow_zero] at this
    linarith

/-- One rounding of a value that is zero or not below `2 ^ c`, and at most `2 ^ c2`. -/
theorem RoundsTo.within_low {x : Double} {v : ℚ} (h : RoundsTo x v) (c2 : Int)
    (hc2 : -1074 ≤ c2) (hc2' : c2 ≤ 971) (hhi : v ≤ 2 ^ c2) (c : Int) (hc : -1022 ≤ c)
    (hlow : v = 0 ∨ (2 : ℚ) ^ c ≤ v) :
    Nonneg x ∧ Within 1 x.toRat v ∧ x.toRat ≤ 2 ^ c2 ∧ (x.toRat = 0 ∨ (2 : ℚ) ^ c ≤ x.toRat) := by
  have hhi' : v ≤ (1 : Nat) * 2 ^ c2 := by simpa using hhi
  have hlow' : v = 0 ∨ (2 : ℚ) ^ (-1022 : Int) ≤ v :=
    hlow.imp id (fun hv => le_trans (two_zpow_mono hc) hv)
  obtain ⟨hN, hW⟩ := h.within 1 c2 (by norm_num) hc2 hc2' hhi' hlow'
  refine ⟨hN, hW, ?_, ?_⟩
  · simpa using (h.le 1 c2 (by norm_num) hc2 hc2' hhi').2
  · rcases hlow with h0 | h1
    · left
      subst h0
      rw [h.zero]
      simp [Double.zero, Double.toRat]
    · right
      have := h.ge hN 1 c (by norm_num) (by omega) (by simpa using h1)
      simpa using this

end Double

/-- The frequency does not decrease with the index. -/
theorem sweepFreq_mono {st : ToneStatics} {startFreq : Nat} (endFreq : Nat) {d : Double}
    {n i j : Nat} (hsr : st._sampleRate < 4294967296) (hs : startFreq < 4294967296)
    (hcount : sweepTotalSamples st d = some n) (hij : i ≤ j) (hj : j < n) :
    (sweepFreq st startFreq (sweepFreqStep startFreq endFreq d) i).toRat
      ≤ (sweepFreq st startFreq (sweepFreqStep startFreq endFreq d) j).toRat := by
  obtain ⟨hsr1, -, -, -, -⟩ := sweepTotalSamples_facts hsr hcount (by omega)
  have hn32 : n < 4294967296 := by
    have hc := hcount
    unfold sweepTotalSamples at hc
    exact toUInt32_lt hc
  obtain ⟨hstep, -, -, -, -⟩ := sweep_parts_nonnegLe endFreq hsr hs hcount hj
  obtain ⟨hSN, hS65⟩ := hstep.to_nonneg
  have hS0 := hSN.toRat_nonneg
  have hi32 : i < 4294967296 := by omega
  have hj32 : j < 4294967296 := by omega
  obtain ⟨hTNi, -, -, -, -⟩ := sweepTime_within hsr1 hsr hi32
  obtain ⟨hTNj, -, hTj32, -, -⟩ := sweepTime_within hsr1 hsr hj32
  have hsrq : (1 : ℚ) ≤ st._sampleRate := by exact_mod_cast hsr1
  have hijq : (i : ℚ) ≤ j := by exact_mod_cast hij
  have hT : (sweepTime st i).toRat ≤ (sweepTime st j).toRat := by
    refine (sweepTime_roundsTo hsr1 hsr hi32).toRat_mono (sweepTime_roundsTo hsr1 hsr hj32) 1 32
      (by norm_num) (by norm_num) (by norm_num)
      (div_le_div_of_nonneg_right hijq (by linarith)) ?_
    have hjq : (j : ℚ) ≤ 4294967296 := by exact_mod_cast hj32.le
    rw [div_le_iff₀ (by linarith)]
    norm_num
    nlinarith
  have hTj0 := hTNj.toRat_nonneg
  have hprod : (sweepFreqStep startFreq endFreq d).toRat * (sweepTime st j).toRat
      ≤ (1 : Nat) * 2 ^ (97 : Int) := by
    have h1 : (2 : ℚ) ^ ((32 : Int) - -33) * 2 ^ (32 : Int) = (1 : Nat) * 2 ^ (97 : Int) := by
      norm_num
    rw [← h1]
    exact mul_le_mul hS65 hTj32 hTj0 (two_zpow_pos _).le
  have hPle : (sweepFreqStep startFreq endFreq d).toRat * (sweepTime st i).toRat
      ≤ (sweepFreqStep startFreq endFreq d).toRat * (sweepTime st j).toRat :=
    mul_le_mul_of_nonneg_left hT hS0
  have hPi := RoundsTo.mul_toRat hSN hTNi
  have hPj := RoundsTo.mul_toRat hSN hTNj
  have hP := hPi.toRat_mono hPj 1 97 (by norm_num) (by norm_num) (by norm_num) hPle hprod
  obtain ⟨hPNi, -⟩ := hPi.le 1 97 (by norm_num) (by norm_num) (by norm_num)
    (le_trans hPle hprod)
  obtain ⟨hPNj, hPj97⟩ := hPj.le 1 97 (by norm_num) (by norm_num) (by norm_num) hprod
  obtain ⟨a, b⟩ := Nonneg.ofNat_toRat (n := startFreq) (by omega)
  have hFi := RoundsTo.add_toRat a hPNi
  have hFj := RoundsTo.add_toRat a hPNj
  unfold sweepFreq
  refine hFi.toRat_mono hFj 1 98 (by norm_num) (by norm_num) (by norm_num) (by linarith) ?_
  rw [b]
  have hsq : (startFreq : ℚ) ≤ 4294967296 := by exact_mod_cast hs.le
  norm_num at hPj97 ⊢
  linarith

/-- At index 0 the frequency is the start frequency. -/
theorem sweepFreq_zero {st : ToneStatics} {startFreq : Nat} {freqStep : Double}
    (hsr1 : 1 ≤ st._sampleRate) (hsr : st._sampleRate < 4294967296)
    (hs : startFreq < 4294967296) (hstep : Nonneg freqStep) :
    sweepFreq st startFreq freqStep 0 = Double.ofNat startFreq := by
  have hz : Nonneg Double.zero := ⟨0, -1074, rfl⟩
  have hz0 : Double.zero.toRat = 0 := by simp [Double.zero, Double.toRat]
  have hP := RoundsTo.mul_toRat hstep hz
  rw [hz0, mul_zero] at hP
  obtain ⟨a, b⟩ := Nonneg.ofNat_toRat (n := startFreq) (by omega)
  have hF := RoundsTo.add_toRat a hz
  rw [hz0, add_zero, b] at hF
  unfold sweepFreq
  rw [sweepTime_zero hsr hsr1, hP.zero]
  exact hF.unique (RoundsTo.ofNat_self startFreq)

theorem _D_PI_facts : Nonneg _D_PI ∧ (2 : ℚ) ^ (0 : Int) ≤ _D_PI.toRat
    ∧ _D_PI.toRat ≤ 2 ^ (3 : Int) := by
  refine ⟨⟨_, _, _D_PI_eq⟩, ?_, ?_⟩ <;> rw [_D_PI_eq, toRat_finite_false] <;> norm_num

theorem sweepTime_low {st : ToneStatics} (hsr1 : 1 ≤ st._sampleRate)
    (hsr : st._sampleRate < 4294967296) {i : Nat} (hi : i < 4294967296) :
    (sweepTime st i).toRat = 0 ∨ (2 : ℚ) ^ (-32 : Int) ≤ (sweepTime st i).toRat := by
  obtain ⟨-, -, -, h0, h1⟩ := sweepTime_within hsr1 hsr hi
  rcases Nat.eq_zero_or_pos i with h | h
  · exact Or.inl (h0 h)
  · exact Or.inr (h1 h)

/-- The angle of a constant or increasing sweep is within seven roundings of the value of
the formula `2π * (startFreq + step * t) * t` at `step = (endFreq - startFreq) / duration` and
`t = i / sr`, 2π being the constant `_D_PI`. -/
theorem sweepAngle_within {st : ToneStatics} {startFreq endFreq : Nat} {d : Double} {n i : Nat}
    (hsr : st._sampleRate < 4294967296) (he : endFreq < 4294967296) (hse : startFreq ≤ endFreq)
    (hcount : sweepTotalSamples st d = some n) (hi : i < n) :
    Nonneg (sweepAngle st startFreq (sweepFreqStep startFreq endFreq d) i)
    ∧ Within 7 (sweepAngle st startFreq (sweepFreqStep startFreq endFreq d) i).toRat
        (directPhase _D_PI.toRat (startFreq : ℚ) (((endFreq : ℚ) - startFreq) / d.toRat)
          ((i : ℚ) / st._sampleRate)) := by
  obtain ⟨hsr1, hdN, hd33, -, -⟩ := sweepTotalSamples_facts hsr hcount (by omega)
  have hn32 : n < 4294967296 := by
    have hc := hcount
    unfold sweepTotalSamples at hc
    exact toUInt32_lt hc
  have hi32 : i < 4294967296 := by omega
  obtain ⟨hTN, hTW, hT32, -, -⟩ := sweepTime_within hsr1 hsr hi32
  have hTlow := sweepTime_low hsr1 hsr hi32
  obtain ⟨hSN, hSW, hS65, hS0, hS1⟩ := sweepFreqStep_within hsr he hse hcount (by omega)
  have hSlow : (sweepFreqStep startFreq endFreq d).toRat = 0
      ∨ (2 : ℚ) ^ (-33 : Int) ≤ (sweepFreqStep startFreq endFreq d).toRat := by
    rcases Nat.eq_or_lt_of_le hse with h | h
    · exact Or.inl (hS0 h)
    · exact Or.inr (hS1 h)
  obtain ⟨hDN, hD0, hD3⟩ := _D_PI_facts
  have hdpos : 0 < d.toRat := lt_of_lt_of_le (two_zpow_pos _) hd33
  have hsrq : (1 : ℚ) ≤ st._sampleRate := by exact_mod_cast hsr1
  have hseq : (startFreq : ℚ) ≤ endFreq := by exact_mod_cast hse
  have hsq : (startFreq : ℚ) ≤ 4294967296 := by
    have : startFreq ≤ 4294967296 := by omega
    exact_mod_cast this
  have hs0 : (0 : ℚ) ≤ startFreq := Nat.cast_nonneg _
  have ha0 : (0 : ℚ) ≤ (i : ℚ) / st._sampleRate := by positivity
  have hb0 : (0 : ℚ) ≤ ((endFreq : ℚ) - startFreq) / d.toRat :=
    div_nonneg (by linarith) hdpos.le
  have hT0 := hTN.toRat_nonneg
  have hSv0 := hSN.toRat_nonneg
  -- the product `freqStep * time`
  have hST : Within 2 ((sweepFreqStep startFreq endFreq d).toRat * (sweepTime st i).toRat)
      (((endFreq : ℚ) - startFreq) / d.toRat * ((i : ℚ) / st._sampleRate)) :=
    Within.prod hb0 ha0 hSW hTW
  have hP := RoundsTo.mul_toRat hSN hTN
  obtain ⟨hPN, hPW1, hP97, hPlow⟩ := hP.within_low 97 (by norm_num) (by norm_num)
    (by
      have h1 : (2 : ℚ) ^ (65 : Int) * 2 ^ (32 : Int) = 2 ^ (97 : Int) := by norm_num
      rw [← h1]
      exact mul_le_mul hS65 hT32 hT0 (two_zpow_pos _).le)
    (-33 + -32) (by norm_num) (low_mul hSlow hTlow)
  have hPW := Within.step hPW1 hST
  have hP0 := hPN.toRat_nonneg
  -- the sum `startFreq + freqStep * time`
  obtain ⟨a, b⟩ := Nonneg.ofNat_toRat (n := startFreq) (show startFreq < 9007199254740992 by omega)
  have hF := RoundsTo.add_toRat a hPN
  rw [b] at hF
  have hslow : (startFreq : ℚ) = 0 ∨ (1 : ℚ) ≤ startFreq := by
    rcases Nat.eq_zero_or_pos startFreq with h | h
    · left; exact_mod_cast h
    · right; exact_mod_cast h
  obtain ⟨hFN, hFW1, hF98, hFlow⟩ := hF.within_low 98 (by norm_num) (by norm_num)
    (by norm_num at hP97 ⊢; linarith)
    (-33 + -32) (by norm_num) (low_add hslow hP0 hPlow (by norm_num))
  have hFW := Within.step hFW1 (Within.const_add (startFreq : ℚ) hs0 hPW)
  have hF0 := hFN.toRat_nonneg
  have hsum0 : (0 : ℚ) ≤ (startFreq : ℚ)
      + ((endFreq : ℚ) - startFreq) / d.toRat * ((i : ℚ) / st._sampleRate) :=
    add_nonneg hs0 (mul_nonneg hb0 ha0)
  -- the product `_D_PI * freq`
  have hD0' : (0 : ℚ) ≤ _D_PI.toRat := le_trans (two_zpow_pos 0).le hD0
  have hG := RoundsTo.mul_toRat hDN hFN
  obtain ⟨hGN, hGW1, hG101, hGlow⟩ := hG.within_low 101 (by norm_num) (by norm_num)
    (by
      have h1 : (2 : ℚ) ^ (3 : Int) * 2 ^ (98 : Int) = 2 ^ (101 : Int) := by norm_num
      rw [← h1]
      exact mul_le_mul hD3 hF98 hF0 (two_zpow_pos _).le)
    (0 + (-33 + -32)) (by norm_num) (low_mul (Or.inr hD0) hFlow)
  have hGW := Within.step hGW1 (Within.prod hD0' hsum0 (Within.refl _D_PI.toRat) hFW)
  have hG0 := hGN.toRat_nonneg
  -- the angle
  have hA := RoundsTo.mul_toRat hGN hTN
  obtain ⟨hAN, hAW1, -, -⟩ := hA.within_low 133 (by norm_num) (by norm_num)
    (by
      have h1 : (2 : ℚ) ^ (101 : Int) * 2 ^ (32 : Int) = 2 ^ (133 : Int) := by norm_num
      rw [← h1]
      exact mul_le_mul hG101 hT32 hT0 (two_zpow_pos _).le)
    (0 + (-33 + -32) + -32) (by norm_num) (low_mul hGlow hTlow)
  have hAW := Within.step hAW1 (Within.prod (mul_nonneg hD0' hsum0) ha0 hGW hTW)
  unfold sweepAngle sweepFreq directPhase exactFreq
  exact ⟨hAN, hAW⟩

/-- With equal start and end frequencies and a positive duration the step is exactly `+0`. -/
theorem sweepFreqStep_self (f0 : Nat) {d : Double}
    (hd : Double.lt (Double.ofInt 0) d = true) : sweepFreqStep f0 f0 d = Double.zero := by
  have h1 : (f0 + 4294967296 - f0) % 4294967296 = 0 := by omega
  unfold sweepFreqStep
  rw [h1, ofNat_zero]
  rcases (zero_lt_iff d).mp hd with rfl | ⟨dm, de, rfl, hpos⟩
  · rfl
  · have hdiv : div (finite false 0 (-1074)) (finite false dm de)
        = roundScaled (xor false false) 0 dm (-1074 - de) := by
      simp only [div, if_neg hpos.ne']
    rw [hdiv, roundScaled_zero _ hpos]; rfl

/-- With a zero step the frequency is the start frequency at every index. -/
theorem sweepFreq_const {st : ToneStatics} {f0 i : Nat} (hsr1 : 1 ≤ st._sampleRate)
    (hsr : st._sampleRate < 4294967296) (hf : f0 < 4294967296) (hi : i < 4294967296) :
    sweepFreq st f0 Double.zero i = Double.ofNat f0 := by
  have hz : Nonneg Double.zero := ⟨0, -1074, rfl⟩
  have hz0 : Double.zero.toRat = 0 := by simp [Double.zero, Double.toRat]
  obtain ⟨hTN, -, -, -, -⟩ := sweepTime_within hsr1 hsr hi
  have hP := RoundsTo.mul_toRat hz hTN
  rw [hz0, zero_mul] at hP
  obtain ⟨a, b⟩ := Nonneg.ofNat_toRat (n := f0) (show f0 < 9007199254740992 by omega)
  have hF := RoundsTo.add_toRat a hz
  rw [hz0, add_zero, b] at hF
  unfold sweepFreq
  rw [hP.zero]
  exact hF.unique (RoundsTo.ofNat_self f0)

/-- With a zero step the angle is the product of the constant `_D_PI * f0` and the time, within
three roundings of `_D_PI * (f0 * (i / sr))`. -/
theorem sweepAngle_const {st : ToneStatics} {f0 i : Nat} (hsr1 : 1 ≤ st._sampleRate)
    (hsr : st._sampleRate < 4294967296) (hf : f0 < 4294967296) (hi : i < 4294967296) :
    sweepAngle st f0 Double.zero i
        = Double.mul (Double.mul _D_PI (Double.ofNat f0)) (sweepTime st i)
    ∧ Within 3 (sweepAngle st f0 Double.zero i).toRat
        (_D_PI.toRat * ((f0 : ℚ) * ((i : ℚ) / st._sampleRate))) := by
  have heq : sweepAngle st f0 Double.zero i
      = Double.mul (Double.mul _D_PI (Double.ofNat f0)) (sweepTime st i) := by
    unfold sweepAngle
    rw [sweepFreq_const hsr1 hsr hf hi]
  obtain ⟨hDN, hD0, hD3⟩ := _D_PI_facts
  obtain ⟨hTN, hTW, hT32, -, -⟩ := sweepTime_within hsr1 hsr hi
  have hTlow := sweepTime_low hsr1 hsr hi
  obtain ⟨a, b⟩ := Nonneg.ofNat_toRat (n := f0) (show f0 < 9007199254740992 by omega)
  have hf0 : (0 : ℚ) ≤ f0 := Nat.cast_nonneg _
  have hflow : (f0 : ℚ) = 0 ∨ (2 : ℚ) ^ (0 : Int) ≤ f0 := by
    rcases Nat.eq_zero_or_pos f0 with h | h
    · left; exact_mod_cast h
    · right
      rw [zpow_zero]
      exact_mod_cast h
  have hC := RoundsTo.mul_toRat hDN a
  rw [b] at hC
  obtain ⟨hCN, hCW, hC35, hClow⟩ := hC.within_low 35 (by norm_num) (by norm_num)
    (by
      have h1 : (2 : ℚ) ^ (3 : Int) * 2 ^ (32 : Int) = 2 ^ (35 : Int) := by norm_num
      have h2 : (f0 : ℚ) ≤ 2 ^ (32 : Int) := by norm_num; omega
      rw [← h1]
      exact mul_le_mul hD3 h2 hf0 (two_zpow_pos _).le)
    (0 + 0) (by norm_num) (low_mul (Or.inr hD0) hflow)
  have hC0 := hCN.toRat_nonneg
  have hT0 := hTN.toRat_nonneg
  have ha0 : (0 : ℚ) ≤ (i : ℚ) / st._sampleRate := by positivity
  have hA := RoundsTo.mul_toRat hCN hTN
  obtain ⟨-, hAW1, -, -⟩ := hA.within_low 67 (by norm_num) (by norm_num)
    (by
      have h1 : (2 : ℚ) ^ (35 : Int) * 2 ^ (32 : Int) = 2 ^ (67 : Int) := by norm_num
      rw [← h1]
      exact mul_le_mul hC35 hT32 hT0 (two_zpow_pos _).le)
    (0 + 0 + -32) (by norm_num) (low_mul hClow hTlow)
  have hD0' : (0 : ℚ) ≤ _D_PI.toRat := le_trans (two_zpow_pos 0).le hD0
  have hAW := Within.step hAW1 (Within.prod (mul_nonneg hD0' hf0) ha0 hCW hTW)
  rw [mul_assoc] at hAW
  rw [heq]
  exact ⟨rfl, hAW⟩

namespace Double

theorem Within.weaken {j k : Nat} {x v : ℚ} (h : Within j x v) (hjk : j ≤ k) (hv : 0 ≤ v) :
    Within k x v := by
  have hlo0 : (0 : ℚ) ≤ 1 - 2 ^ (-53 : Int) := by rw [unit_roundoff]; norm_num
  have hlo1 : (1 : ℚ) - 2 ^ (-53 : Int) ≤ 1 := by rw [unit_roundoff]; norm_num
  have hhi1 : (1 : ℚ) ≤ 1 + 2 ^ (-53 : Int) := by rw [unit_roundoff]; norm_num
  constructor
  · exact le_trans (mul_le_mul_of_nonneg_left (pow_le_pow_of_le_one hlo0 hlo1 hjk) hv) h.1
  · exact le_trans h.2 (mul_le_mul_of_nonneg_left (pow_le_pow_right₀ hhi1 hjk) hv)

end Double

/-- The constant `_D_PI` is the real number 2π rounded: it is below 2π by less than
`2 ^ (-53)`, relatively. -/
theorem _D_PI_real :
    2 * Real.pi * (1 - 2 ^ (-53 : Int)) ≤ ((_D_PI.toRat : ℚ) : ℝ)
    ∧ ((_D_PI.toRat : ℚ) : ℝ) ≤ 2 * Real.pi := by
  have h1 := Real.pi_gt_d20
  have h2 := Real.pi_lt_d20
  rw [_D_PI_eq, toRat_finite_false]
  push_cast
  constructor
  · norm_num at h1 h2 ⊢
    linarith
  · norm_num at h1 h2 ⊢
    linarith

/-- A value within seven roundings of `_D_PI * w` is within `2 ^ (-49)` of `2π * w`,
relatively. -/
theorem within_abs_sub_real {x w : ℚ} (h : Within 7 x (_D_PI.toRat * w)) (hw : 0 ≤ w) :
    |(x : ℝ) - 2 * Real.pi * (w : ℝ)| ≤ 2 ^ (-49 : Int) * (2 * Real.pi * (w : ℝ)) := by
  obtain ⟨a, b⟩ := h
  obtain ⟨c, d⟩ := _D_PI_real
  have hwr : (0 : ℝ) ≤ (w : ℝ) := by exact_mod_cast hw
  have hpi := Real.pi_pos
  have a' : (((_D_PI.toRat * w * (1 - 2 ^ (-53 : Int)) ^ 7 : ℚ)) : ℝ) ≤ (x : ℝ) := by
    exact_mod_cast a
  have b' : (x : ℝ) ≤ ((_D_PI.toRat * w * (1 + 2 ^ (-53 : Int)) ^ 7 : ℚ) : ℝ) := by
    exact_mod_cast b
  push_cast at a' b'
  have h1 : (1 : ℝ) - 2 ^ (-49 : Int) ≤ (1 - 2 ^ (-53 : Int)) * (1 - 2 ^ (-53 : Int)) ^ 7 := by
    norm_num
  have h2 : (1 + 2 ^ (-53 : Int) : ℝ) ^ 7 ≤ 1 + 2 ^ (-49 : Int) := by
    norm_num
  have h70 : (0 : ℝ) ≤ (1 - 2 ^ (-53 : Int)) ^ 7 := by norm_num
  have h71 : (0 : ℝ) ≤ (1 + 2 ^ (-53 : Int)) ^ 7 := by positivity
  have hPw : (0 : ℝ) ≤ 2 * Real.pi * (w : ℝ) := by positivity
  have lo : 2 * Real.pi * (w : ℝ) * (1 - 2 ^ (-49 : Int)) ≤ (x : ℝ) := by
    calc 2 * Real.pi * (w : ℝ) * (1 - 2 ^ (-49 : Int))
        ≤ 2 * Real.pi * (w : ℝ) * ((1 - 2 ^ (-53 : Int)) * (1 - 2 ^ (-53 : Int)) ^ 7) :=
          mul_le_mul_of_nonneg_left h1 hPw
      _ = (2 * Real.pi * (1 - 2 ^ (-53 : Int))) * ((w : ℝ) * (1 - 2 ^ (-53 : Int)) ^ 7) := by
          ring
      _ ≤ ((_D_PI.toRat : ℚ) : ℝ) * ((w : ℝ) * (1 - 2 ^ (-53 : Int)) ^ 7) :=
          mul_le_mul_of_nonneg_right c (mul_nonneg hwr h70)
      _ = ((_D_PI.toRat : ℚ) : ℝ) * (w : ℝ) * (1 - 2 ^ (-53 : Int)) ^ 7 := by ring
      _ ≤ (x : ℝ) := a'
  have hi : (x : ℝ) ≤ 2 * Real.pi * (w : ℝ) * (1 + 2 ^ (-49 : Int)) := by
    calc (x : ℝ) ≤ ((_D_PI.toRat : ℚ) : ℝ) * (w : ℝ) * (1 + 2 ^ (-53 : Int)) ^ 7 := b'
      _ = ((_D_PI.toRat : ℚ) : ℝ) * ((w : ℝ) * (1 + 2 ^ (-53 : Int)) ^ 7) := by ring
      _ ≤ (2 * Real.pi) * ((w : ℝ) * (1 + 2 ^ (-53 : Int)) ^ 7) :=
          mul_le_mul_of_nonneg_right d (mul_nonneg hwr h71)
      _ = 2 * Real.pi * (w : ℝ) * (1 + 2 ^ (-53 : Int)) ^ 7 := by ring
      _ ≤ 2 * Real.pi * (w : ℝ) * (1 + 2 ^ (-49 : Int)) := mul_le_mul_of_nonneg_left h2 hPw
  rw [abs_le]
  constructor <;> linarith

/-! ## The exact product, the real angle and the real sine -/

/-- The function `sinAt x y` has the properties assumed of the library `sin` when `y` is
finite of magnitude at most 1. -/
theorem sinAt_bounded (x : Double) (s : Bool) (m : Nat) (e : Int) (he : e ≤ 0)
    (hm : m ≤ 2 ^ (-e).toNat) :
    ∀ a, a.isFinite = true →
      (sinAt x (Double.finite s m e) a).isFinite = true
      ∧ |(sinAt x (Double.finite s m e) a).toRat| ≤ 1 := by
  intro a ha
  unfold sinAt
  by_cases h : a = x
  · rw [if_pos h]
    refine ⟨rfl, ?_⟩
    rw [abs_toRat_finite]
    have h2 : (2 : ℚ) ^ e = ((2 : ℚ) ^ (-e).toNat)⁻¹ := by
      have h3 := pow_neg_toNat he
      rw [h3, inv_inv]
    have hpos : (0 : ℚ) < 2 ^ (-e).toNat := by positivity
    have hm' : (m : ℚ) ≤ 2 ^ (-e).toNat := by exact_mod_cast hm
    rw [h2, ← div_eq_mul_inv, div_le_one hpos]
    exact hm'
  · rw [if_neg h]
    exact zeroSin_bounded a ha

/-- A positive duration whose rounded product with the sample rate is finite is finite. -/
theorem duration_nonneg_of_mul_finite {sr : Nat} {d : Double} (hsr : sr < 4294967296)
    (hd : Double.lt (Double.ofInt 0) d = true) {pm : Nat} {pe : Int}
    (hP : Double.mul (Double.ofNat sr) d = Double.finite false pm pe) :
    Nonneg d ∧ 0 < d.toRat := by
  rcases (zero_lt_iff d).mp hd with h | ⟨m, e, h, hm⟩
  · exfalso
    obtain ⟨m, e, hofn, -⟩ := ofNat_exact (show sr < 9007199254740992 by omega)
    rw [h, hofn] at hP
    have hmul : Double.mul (Double.finite false m e) (Double.inf false)
        = if m = 0 then Double.nan else Double.inf (xor false false) := rfl
    rw [hmul] at hP
    by_cases hm : m = 0
    · rw [if_pos hm] at hP
      exact Double.noConfusion hP
    · rw [if_neg hm] at hP
      exact Double.noConfusion hP
  · refine ⟨⟨m, e, h⟩, ?_⟩
    rw [h, toRat_finite_false]
    have hm' : (0 : ℚ) < m := by exact_mod_cast hm
    exact mul_pos hm' (two_zpow_pos e)

/-- The sample count against the exact product `X` of the sample rate and the duration: the
floor of the rounded product is `floor X` or `floor X + 1`, and in the second case the
rounded product is the integer `floor X + 1`. -/
theorem sweepTotalSamples_exact {sr : Nat} {d : Double} (hsr : sr < 4294967296)
    (hd : Double.lt (Double.ofInt 0) d = true)
    (hlt : Double.lt (Double.mul (Double.ofNat sr) d) (Double.ofNat 4294967296) = true) :
    ⌊(sr : ℚ) * d.toRat⌋₊ ≤ ⌊(Double.mul (Double.ofNat sr) d).toRat⌋₊
    ∧ ⌊(Double.mul (Double.ofNat sr) d).toRat⌋₊ ≤ ⌊(sr : ℚ) * d.toRat⌋₊ + 1
    ∧ (⌊(Double.mul (Double.ofNat sr) d).toRat⌋₊ ≠ ⌊(sr : ℚ) * d.toRat⌋₊ →
        (Double.mul (Double.ofNat sr) d).toRat = ((⌊(sr : ℚ) * d.toRat⌋₊ + 1 : Nat) : ℚ)) := by
  rw [ofNat_two_pow_32] at hlt
  obtain ⟨pm, pe, hP, hPlt⟩ := mul_ofNat_lt sr 4503599627370496 (-20) hd hlt
  obtain ⟨hdn, hdpos⟩ := duration_nonneg_of_mul_finite hsr hd hP
  obtain ⟨hN1, hN2⟩ := Nonneg.ofNat_toRat (show sr < 9007199254740992 by omega)
  have hR : RoundsTo (Double.mul (Double.ofNat sr) d) ((sr : ℚ) * d.toRat) := by
    have h := RoundsTo.mul_toRat hN1 hdn
    rwa [hN2] at h
  have hPn : Nonneg (Double.mul (Double.ofNat sr) d) := ⟨pm, pe, hP⟩
  have hP0 : 0 ≤ (Double.mul (Double.ofNat sr) d).toRat := hPn.toRat_nonneg
  have hP32 : (Double.mul (Double.ofNat sr) d).toRat < 4294967296 := by
    rw [hP, toRat_finite_false]
    have h20 : (4503599627370496 : ℚ) * 2 ^ (-20 : Int) = 4294967296 := by norm_num
    have hPlt' : (pm : ℚ) * 2 ^ pe < (4503599627370496 : ℚ) * 2 ^ (-20 : Int) := by
      exact_mod_cast hPlt
    rwa [h20] at hPlt'
  have hX0 : 0 ≤ (sr : ℚ) * d.toRat := mul_nonneg (Nat.cast_nonneg _) hdpos.le
  generalize hXdef : (sr : ℚ) * d.toRat = X at hR hX0 ⊢
  generalize hPdef : (Double.mul (Double.ofNat sr) d) = P at hR hPn hP0 hP32 ⊢
  have hkX : ((⌊X⌋₊ : Nat) : ℚ) ≤ X := Nat.floor_le hX0
  have hk32 : ⌊X⌋₊ < 4294967296 := by
    by_contra hk
    have hk' : (4294967296 : ℚ) ≤ ((⌊X⌋₊ : Nat) : ℚ) := by exact_mod_cast Nat.not_lt.mp hk
    have h := hR.ge hPn 4294967296 0 (by norm_num) (by norm_num)
      (by norm_num; linarith)
    norm_num at h
    linarith
  have hlow : ⌊X⌋₊ ≤ ⌊P.toRat⌋₊ := by
    apply Nat.le_floor
    have h := hR.ge hPn ⌊X⌋₊ 0 (by omega) (by norm_num) (by simpa using hkX)
    simpa using h
  have hnP : ((⌊P.toRat⌋₊ : Nat) : ℚ) ≤ P.toRat := Nat.floor_le hP0
  have hn32 : ⌊P.toRat⌋₊ < 4294967296 := by
    have h : ((⌊P.toRat⌋₊ : Nat) : ℚ) < ((4294967296 : Nat) : ℚ) := by
      push_cast; linarith
    exact_mod_cast h
  have hmono : ∀ k : Nat, k < 4294967296 → X ≤ (k : ℚ) → P.toRat ≤ (k : ℚ) := by
    intro k hk hXk
    have h := hR.toRat_mono (RoundsTo.ofNat_self k) 4294967296 0 (by norm_num) (by norm_num)
      (by norm_num) hXk (by norm_num; omega)
    rwa [(Nonneg.ofNat_toRat (show k < 9007199254740992 by omega)).2] at h
  have hup : ⌊P.toRat⌋₊ ≤ ⌊X⌋₊ + 1 := by
    by_contra hc
    have hc' : ⌊X⌋₊ + 1 < ⌊P.toRat⌋₊ := Nat.not_le.mp hc
    have hXlt : X < ((⌊X⌋₊ + 1 : Nat) : ℚ) := by
      push_cast; exact Nat.lt_floor_add_one X
    have h := hmono (⌊X⌋₊ + 1) (by omega) hXlt.le
    have h2 : ((⌊X⌋₊ + 1 : Nat) : ℚ) < ((⌊P.toRat⌋₊ : Nat) : ℚ) := by exact_mod_cast hc'
    linarith
  refine ⟨hlow, hup, ?_⟩
  intro hne
  have hn : ⌊P.toRat⌋₊ = ⌊X⌋₊ + 1 := by omega
  have hXlt : X < ((⌊X⌋₊ + 1 : Nat) : ℚ) := by
    push_cast; exact Nat.lt_floor_add_one X
  have h := hmono (⌊X⌋₊ + 1) (by omega) hXlt.le
  rw [hn] at hnP
  exact le_antisymm h hnP

/-- When the exact product of the sample rate and a finite positive duration is at most
`1 - 2 ^ (-53)`, the rounded product is below 1. -/
theorem mul_lt_one_of_exact {sr : Nat} {d : Double} (hsr : sr < 4294967296)
    (hd : Double.lt (Double.ofInt 0) d = true) (hfin : d.isFinite = true)
    (hX : (sr : ℚ) * d.toRat ≤ 1 - 2 ^ (-53 : Int)) :
    Double.lt (Double.mul (Double.ofNat sr) d) (Double.ofNat 1) = true := by
  have hdn : Nonneg d := by
    rcases (zero_lt_iff d).mp hd with h | ⟨m, e, h, -⟩
    · rw [h] at hfin
      exact Bool.noConfusion hfin
    · exact ⟨m, e, h⟩
  obtain ⟨hN1, hN2⟩ := Nonneg.ofNat_toRat (show sr < 9007199254740992 by omega)
  have hR : RoundsTo (Double.mul (Double.ofNat sr) d) ((sr : ℚ) * d.toRat) := by
    have h := RoundsTo.mul_toRat hN1 hdn
    rwa [hN2] at h
  obtain ⟨⟨pm, pe, hP⟩, hle⟩ := hR.le 9007199254740991 (-53) (by norm_num) (by norm_num)
    (by norm_num) (by
      have h : (9007199254740991 : ℚ) * 2 ^ (-53 : Int) = 1 - 2 ^ (-53 : Int) := by norm_num
      exact_mod_cast hX.trans h.ge)
  rw [hP, toRat_finite_false] at hle
  rw [hP, ofNat_one, lt_nonneg_iff]
  have h1 : ((9007199254740991 : Nat) : ℚ) * 2 ^ (-53 : Int)
      < ((4503599627370496 : Nat) : ℚ) * 2 ^ (-52 : Int) := by norm_num
  exact lt_of_le_of_lt hle h1

/-- For `startFreq ≤ endFreq` and an index below the sample count, the angle the source
computes is the real angle `2π (startFreq + step t) t`, with `step = (endFreq - startFreq) /
duration` and `t = i / sr`, up to a relative error of `2 ^ (-49)`. -/
theorem sweepAngle_real {st : ToneStatics} {startFreq endFreq : Nat} {d : Double} {n i : Nat}
    (hsr : st._sampleRate < 4294967296) (he : endFreq < 4294967296) (hse : startFreq ≤ endFreq)
    (hcount : sweepTotalSamples st d = some n) (hi : i < n) :
    |(((sweepAngle st startFreq (sweepFreqStep startFreq endFreq d) i).toRat : ℚ) : ℝ)
        - directPhase (2 * Real.pi) (startFreq : ℝ)
            (((endFreq : ℝ) - (startFreq : ℝ)) / ((d.toRat : ℚ) : ℝ))
            ((i : ℝ) / (st._sampleRate : ℝ))|
      ≤ 2 ^ (-49 : Int) * directPhase (2 * Real.pi) (startFreq : ℝ)
            (((endFreq : ℝ) - (startFreq : ℝ)) / ((d.toRat : ℚ) : ℝ))
            ((i : ℝ) / (st._sampleRate : ℝ)) := by
  obtain ⟨-, hW⟩ := sweepAngle_within hsr he hse hcount hi
  obtain ⟨-, -, hd33, -, -⟩ := sweepTotalSamples_facts hsr hcount (by omega)
  have hdpos : 0 < d.toRat := lt_of_lt_of_le (two_zpow_pos _) hd33
  have hseq : (startFreq : ℚ) ≤ endFreq := by exact_mod_cast hse
  have hb0 : (0 : ℚ) ≤ ((endFreq : ℚ) - startFreq) / d.toRat :=
    div_nonneg (by linarith) hdpos.le
  have hw : (0 : ℚ) ≤ ((startFreq : ℚ)
      + ((endFreq : ℚ) - startFreq) / d.toRat * ((i : ℚ) / st._sampleRate))
      * ((i : ℚ) / st._sampleRate) := by positivity
  unfold directPhase exactFreq at hW
  rw [mul_assoc] at hW
  have hreal := within_abs_sub_real hW hw
  have hform : directPhase (2 * Real.pi) (startFreq : ℝ)
      (((endFreq : ℝ) - (startFreq : ℝ)) / ((d.toRat : ℚ) : ℝ))
      ((i : ℝ) / (st._sampleRate : ℝ))
      = 2 * Real.pi * ((((startFreq : ℚ)
          + ((endFreq : ℚ) - startFreq) / d.toRat * ((i : ℚ) / st._sampleRate))
          * ((i : ℚ) / st._sampleRate) : ℚ) : ℝ) := by
    unfold directPhase exactFreq
    push_cast
    ring
  rw [hform]
  exact hreal

/-- The real angle of sample `4 k + 1` of a tone at a quarter of the sample rate is
`π / 2 + 2 π k`, where the sine is 1. -/
theorem sin_directPhase_quarter :
    Real.sin (directPhase (2 * Real.pi) (11025 : ℝ) (((11025 : ℝ) - 11025) / 3600)
      ((158759997 : ℝ) / 44100)) = 1 := by
  have h : directPhase (2 * Real.pi) (11025 : ℝ) (((11025 : ℝ) - 11025) / 3600)
      ((158759997 : ℝ) / 44100) = Real.pi / 2 + ((39689999 : ℕ) : ℝ) * (2 * Real.pi) := by
    unfold directPhase exactFreq
    push_cast
    ring
  rw [h, Real.sin_add_nat_mul_two_pi, Real.sin_pi_div_two]

/-- The real angle of sample 1 of a tone at half the sample rate is `π`, where the sine
is 0. -/
theorem sin_directPhase_half :
    Real.sin (directPhase (2 * Real.pi) (22050 : ℝ) (((22050 : ℝ) - 22050) / 10)
      ((1 : ℝ) / 44100)) = 0 := by
  have h : directPhase (2 * Real.pi) (22050 : ℝ) (((22050 : ℝ) - 22050) / 10)
      ((1 : ℝ) / 44100) = Real.pi := by
    unfold directPhase exactFreq
    ring
  rw [h, Real.sin_pi]

/-- The real sine of the binary64 number `8367791505823447 * 2 ^ (-25)` lies within
`2 ^ (-54)` of `1 - 2 ^ (-52)`. -/
theorem sin_below_peak :
    (1 : ℝ) - 2 ^ (-52 : Int) - 2 ^ (-54 : Int)
        ≤ Real.sin ((8367791505823447 : ℝ) * 2 ^ (-25 : Int))
    ∧ Real.sin ((8367791505823447 : ℝ) * 2 ^ (-25 : Int))
        ≤ (1 : ℝ) - 2 ^ (-52 : Int) + 2 ^ (-54 : Int) := by
  have hlo := Real.pi_gt_d20
  have hhi := Real.pi_lt_d20
  obtain ⟨δ, hδ⟩ : ∃ δ : ℝ, δ = (8367791505823447 : ℝ) * 2 ^ (-25 : Int)
      - Real.pi / 2 - ((39689999 : ℕ) : ℝ) * (2 * Real.pi) := ⟨_, rfl⟩
  have hx : (8367791505823447 : ℝ) * 2 ^ (-25 : Int)
      = (δ + Real.pi / 2) + ((39689999 : ℕ) : ℝ) * (2 * Real.pi) := by
    rw [hδ]; ring
  rw [hx, Real.sin_add_nat_mul_two_pi, Real.sin_add_pi_div_two]
  have h1 : -(22 / 10 ^ 9 : ℝ) ≤ δ := by
    rw [hδ]; norm_num; linarith
  have h2 : δ ≤ -(21 / 10 ^ 9 : ℝ) := by
    rw [hδ]; norm_num; linarith
  have habs : |δ| ≤ 1 := by
    rw [abs_le]; constructor <;> linarith
  have hb := Real.cos_bound habs
  have h4 : |δ| ^ 4 = (δ ^ 2) ^ 2 := by
    rw [← pow_mul, ← abs_pow]
    exact abs_of_nonneg (by positivity)
  rw [h4, abs_le] at hb
  have hsq1 : (21 / 10 ^ 9 : ℝ) ^ 2 ≤ δ ^ 2 := by nlinarith
  have hsq2 : δ ^ 2 ≤ (22 / 10 ^ 9 : ℝ) ^ 2 := by nlinarith
  have hsq0 : 0 ≤ δ ^ 2 := by positivity
  have hq : (δ ^ 2) ^ 2 ≤ ((22 / 10 ^ 9 : ℝ) ^ 2) ^ 2 := by
    exact pow_le_pow_left₀ hsq0 hsq2 2
  obtain ⟨hb1, hb2⟩ := hb
  constructor
  · norm_num at hsq1 hsq2 hq ⊢
    linarith
  · norm_num at hsq1 hsq2 hq ⊢
    linarith

/-- The real sine of the binary64 number `7074237752028440 * 2 ^ (-51)`, the one nearest to
π, is positive and lies within `10 ^ (-20)` of `4967757600021511 * 2 ^ (-105)`. -/
theorem sin_below_pi :
    0 < Real.sin ((7074237752028440 : ℝ) * 2 ^ (-51 : Int))
    ∧ |Real.sin ((7074237752028440 : ℝ) * 2 ^ (-51 : Int))
        - (4967757600021511 : ℝ) * 2 ^ (-105 : Int)| ≤ 1 / 10 ^ 20 := by
  have hlo := Real.pi_gt_d20
  have hhi := Real.pi_lt_d20
  obtain ⟨u, hu⟩ : ∃ u : ℝ, u = Real.pi - (7074237752028440 : ℝ) * 2 ^ (-51 : Int) :=
    ⟨_, rfl⟩
  have hx : (7074237752028440 : ℝ) * 2 ^ (-51 : Int) = Real.pi - u := by
    rw [hu]; ring
  rw [hx, Real.sin_pi_sub]
  have h1 : (12246 / 10 ^ 20 : ℝ) ≤ u := by
    rw [hu]; norm_num; linarith
  have h2 : u ≤ (12248 / 10 ^ 20 : ℝ) := by
    rw [hu]; norm_num; linarith
  have h1' : (3.14159265358979323846 : ℝ) - (7074237752028440 : ℝ) * 2 ^ (-51 : Int) ≤ u := by
    rw [hu]; linarith
  have h2' : u ≤ (3.14159265358979323847 : ℝ) - (7074237752028440 : ℝ) * 2 ^ (-51 : Int) := by
    rw [hu]; linarith
  have hpos : 0 < u := by
    have : (0 : ℝ) < 12246 / 10 ^ 20 := by norm_num
    linarith
  have hs1 := Real.sin_lt hpos
  have hs2 := Real.sin_gt_sub_cube hpos (by linarith [show (12248 / 10 ^ 20 : ℝ) ≤ 1 by norm_num])
  have hcube : u ^ 3 ≤ (12248 / 10 ^ 20 : ℝ) ^ 3 := pow_le_pow_left₀ hpos.le h2 3
  constructor
  · have : 0 ≤ u - u ^ 3 / 4 := by
      have h3 : u ^ 3 = u * u ^ 2 := by ring
      have h4 : u ^ 2 ≤ 1 := by nlinarith
      nlinarith
    linarith
  · rw [abs_le]
    constructor
    · norm_num at h1' h2' hcube ⊢
      linarith
    · norm_num at h1' h2' hcube ⊢
      linarith

/-! ## The statements of the specification -/

/-- C1 (as stated, refuted): at the initial rate 44100 the duration 0.3, a `double` of value
5404319552844595 / 2 ^ 54, meets the premises and gives 13230 samples, while
floor(44100 * duration) is 13229: the `double` product is rounded up to 13230 before it is
truncated. With the duration taken as the decimal number it was written as, 0.7 gives 30869
samples, while floor(44100 * 7 / 10) is 30870. -/
theorem sweepLength_not_floor :
    Double.lt (Double.ofInt 0) (Double.ofDecimal 3 1) = true
    ∧ Double.lt (Double.mul (Double.ofNat ToneStatics.initial._sampleRate) (Double.ofDecimal 3 1))
        (Double.ofNat 4294967296) = true
    ∧ (∃ samples,
        generateSweep zeroSin ToneStatics.initial 20 20000 (Double.ofDecimal 3 1) Waveform.Sine
          = some samples
        ∧ samples.length = 13230)
    ∧ (Double.ofDecimal 3 1).toRat = 5404319552844595 / 2 ^ 54
    ∧ ⌊(44100 : ℚ) * (Double.ofDecimal 3 1).toRat⌋₊ = 13229
    ∧ (∃ samples,
        generateSweep zeroSin ToneStatics.initial 20 20000 (Double.ofDecimal 7 1) Waveform.Sine
          = some samples
        ∧ samples.length = 30869)
    ∧ ⌊(44100 : ℚ) * (7 / 10)⌋₊ = 30870 := by
  have h3 : Double.ofDecimal 3 1 = Double.finite false 5404319552844595 (-54) := by decide
  have hr : (Double.ofDecimal 3 1).toRat = 5404319552844595 / 2 ^ 54 := by
    rw [h3, toRat_finite_false]; norm_num
  have hc3 : sweepTotalSamples ToneStatics.initial (Double.ofDecimal 3 1) = some 13230 := by
    decide
  have hc7 : sweepTotalSamples ToneStatics.initial (Double.ofDecimal 7 1) = some 30869 := by
    decide
  obtain ⟨s3, a1, a2, -⟩ := generateSweep_defined zeroSin zeroSin_bounded 20000 Waveform.Sine
    (show ToneStatics.initial._sampleRate < 4294967296 by decide)
    (show 20 < 4294967296 by decide) hc3
  obtain ⟨s7, b1, b2, -⟩ := generateSweep_defined zeroSin zeroSin_bounded 20000 Waveform.Sine
    (show ToneStatics.initial._sampleRate < 4294967296 by decide)
    (show 20 < 4294967296 by decide) hc7
  refine ⟨by decide, by decide, ⟨s3, a1, a2⟩, hr, ?_, ⟨s7, b1, b2⟩, ?_⟩
  · rw [hr, Nat.floor_eq_iff (by norm_num)]
    norm_num
  · rw [Nat.floor_eq_iff (by norm_num)]
    norm_num

/-- C1 (amended): with the process-wide sample rate sr (44100 initially, else the value last
passed to `setSampleRate`), a duration > 0 and the `double` product of sr and the duration
below 2 ^ 32, `generateSweep` returns, for every start frequency, end frequency and
waveform, a sequence whose length is the floor of that `double` product, the exact product
rounded to nearest. The length is floor(sr * duration) or floor(sr * duration) + 1, the
second only when the `double` product is that integer. -/
theorem generateSweep_length (sin : Double → Double)
    (hsin : ∀ x, x.isFinite = true → (sin x).isFinite = true ∧ |(sin x).toRat| ≤ 1)
    (rates : List Nat) (startFreq endFreq : Nat) (duration : Double) (waveform : Waveform)
    (hrates : ∀ r ∈ rates, r < 4294967296) (hs : startFreq < 4294967296)
    (hd : Double.lt (Double.ofInt 0) duration = true)
    (hlt : Double.lt (Double.mul (Double.ofNat ((rates.getLast?).getD 44100)) duration)
      (Double.ofNat 4294967296) = true) :
    ∃ samples,
      generateSweep sin (rates.foldl setSampleRate ToneStatics.initial) startFreq endFreq
        duration waveform = some samples
      ∧ samples.length
        = ⌊(Double.mul (Double.ofNat ((rates.getLast?).getD 44100)) duration).toRat⌋₊
      ∧ ⌊(((rates.getLast?).getD 44100 : Nat) : ℚ) * duration.toRat⌋₊ ≤ samples.length
      ∧ samples.length ≤ ⌊(((rates.getLast?).getD 44100 : Nat) : ℚ) * duration.toRat⌋₊ + 1
      ∧ (samples.length ≠ ⌊(((rates.getLast?).getD 44100 : Nat) : ℚ) * duration.toRat⌋₊ →
          (Double.mul (Double.ofNat ((rates.getLast?).getD 44100)) duration).toRat
            = ((⌊(((rates.getLast?).getD 44100 : Nat) : ℚ) * duration.toRat⌋₊ + 1 : Nat) : ℚ))
    := by
  have hrate : (rates.foldl setSampleRate ToneStatics.initial)._sampleRate
      = (rates.getLast?).getD 44100 := sampleRate_after_calls rates ToneStatics.initial
  have hlast : (rates.getLast?).getD 44100 < 4294967296 := lastRate_lt rates hrates
  have hsr : (rates.foldl setSampleRate ToneStatics.initial)._sampleRate < 4294967296 := by
    rw [hrate]; exact hlast
  obtain ⟨x1, x2, x3⟩ := sweepTotalSamples_exact hlast hd hlt
  rw [← hrate] at hlt
  obtain ⟨samples, h1, h2, -⟩ := generateSweep_defined sin hsin endFreq waveform hsr hs
    (sweepTotalSamples_of_valid hd hlt)
  rw [hrate] at h2
  rw [← h2] at x1 x2 x3
  exact ⟨samples, h1, h2, x1, x2, x3⟩

/-- Witness of `generateSweep_length`: a 0.3 s square sweep after `setSampleRate(48000)` and
`setSampleRate(44100)` has 13230 samples. -/
theorem generateSweep_length_witness :
    ∃ samples,
      generateSweep zeroSin ([48000, 44100].foldl setSampleRate ToneStatics.initial) 20 20000
        (Double.ofDecimal 3 1) Waveform.Square = some samples
      ∧ samples.length = 13230 := by
  obtain ⟨samples, h1, h2, -⟩ := generateSweep_length zeroSin zeroSin_bounded [48000, 44100] 20
    20000 (Double.ofDecimal 3 1) Waveform.Square (by decide) (by decide) (by decide) (by decide)
  have hfloor : Double.toUInt32 (Double.mul
      (Double.ofNat (([48000, 44100] : List Nat).getLast?.getD 44100)) (Double.ofDecimal 3 1))
      = some 13230 := by decide
  exact ⟨samples, h1, h2.trans (toUInt32_eq_floor hfloor).symm⟩

/-- C2 (as stated, refuted): for the constant tone of 11025 Hz at the initial rate 44100 over
3600 s, sample 158759997 has the angle theta_i = π / 2 + 2π * 39689999, so sin(theta_i) * 32767
is 32767. The angle the source computes in `double` operations is
8367791505823447 * 2 ^ (-25); its real sine lies within 2 ^ (-54) of the `double`
1 - 2 ^ (-52), and with that value of the library sine the sample is 32766. -/
theorem sineSample_off_peak :
    sweepTotalSamples ToneStatics.initial (Double.ofDecimal 36000 1) = some 158760000
    ∧ (Double.ofDecimal 36000 1).toRat = 3600
    ∧ Real.sin (directPhase (2 * Real.pi) (11025 : ℝ) (((11025 : ℝ) - 11025) / 3600)
        ((158759997 : ℝ) / 44100)) * 32767 = 32767
    ∧ sweepAngle ToneStatics.initial 11025
        (sweepFreqStep 11025 11025 (Double.ofDecimal 36000 1)) 158759997
        = Double.finite false 8367791505823447 (-25)
    ∧ (((Double.finite false 9007199254740990 (-53)).toRat : ℚ) : ℝ) - 2 ^ (-54 : Int)
        ≤ Real.sin (((Double.finite false 8367791505823447 (-25)).toRat : ℚ) : ℝ)
    ∧ Real.sin (((Double.finite false 8367791505823447 (-25)).toRat : ℚ) : ℝ)
        ≤ (((Double.finite false 9007199254740990 (-53)).toRat : ℚ) : ℝ) + 2 ^ (-54 : Int)
    ∧ (∃ samples,
        generateSweep
          (sinAt (Double.finite false 8367791505823447 (-25))
            (Double.finite false 9007199254740990 (-53)))
          ToneStatics.initial 11025 11025 (Double.ofDecimal 36000 1) Waveform.Sine = some samples
        ∧ samples[158759997]? = some 32766)
    ∧ sweepSample (fun _ => Double.finite false 9007199254740991 (-53)) ToneStatics.initial 11025
        (sweepFreqStep 11025 11025 (Double.ofDecimal 36000 1)) Waveform.Sine 158759997
        = some 32766 := by
  have hcount : sweepTotalSamples ToneStatics.initial (Double.ofDecimal 36000 1)
      = some 158760000 := by decide
  have hd : Double.ofDecimal 36000 1 = Double.finite false 7916483719987200 (-41) := by decide
  have hx : (((Double.finite false 8367791505823447 (-25)).toRat : ℚ) : ℝ)
      = (8367791505823447 : ℝ) * 2 ^ (-25 : Int) := by
    rw [toRat_finite_false]; push_cast; rfl
  have hy : (((Double.finite false 9007199254740990 (-53)).toRat : ℚ) : ℝ)
      = 1 - 2 ^ (-52 : Int) := by
    rw [toRat_finite_false]; push_cast; norm_num
  obtain ⟨samples, g1, -, g3, -⟩ := generateSweep_defined
    (sinAt (Double.finite false 8367791505823447 (-25))
      (Double.finite false 9007199254740990 (-53)))
    (sinAt_bounded _ false 9007199254740990 (-53) (by decide) (by decide)) 11025 Waveform.Sine
    (show ToneStatics.initial._sampleRate < 4294967296 by decide)
    (show 11025 < 4294967296 by decide) hcount
  have hsample : sweepSample
      (sinAt (Double.finite false 8367791505823447 (-25))
        (Double.finite false 9007199254740990 (-53)))
      ToneStatics.initial 11025 (sweepFreqStep 11025 11025 (Double.ofDecimal 36000 1))
      Waveform.Sine 158759997 = some 32766 := by decide
  refine ⟨hcount, ?_, ?_, by decide, ?_, ?_, ⟨samples, g1, (g3 _ (by decide)).trans hsample⟩,
    by decide⟩
  · rw [hd, toRat_finite_false]; norm_num
  · rw [sin_directPhase_quarter]; norm_num
  · rw [hx, hy]; exact sin_below_peak.1
  · rw [hx, hy]; exact sin_below_peak.2

/-- C2 (amended): for startFreq <= endFreq, whenever the sample count is defined, sample i of
a Sine sweep is the round-toward-zero of the `double` product s * 32767, where s is the
value the library sine returns at the angle the source computes in `double` operations from
t = i / sr, step = (endFreq - startFreq) / duration, f = startFreq + step * t and
angle = 2π * f * t. That computed angle is theta_i = 2π * f_i * t_i up to a relative error
of 2 ^ (-49). -/
theorem generateSweep_sine_sample (sin : Double → Double)
    (hsin : ∀ x, x.isFinite = true → (sin x).isFinite = true ∧ |(sin x).toRat| ≤ 1)
    (st : ToneStatics) (startFreq endFreq : Nat) (duration : Double) (n : Nat)
    (hsr : st._sampleRate < 4294967296) (he : endFreq < 4294967296)
    (hse : startFreq ≤ endFreq) (hcount : sweepTotalSamples st duration = some n) :
    ∃ samples,
      generateSweep sin st startFreq endFreq duration Waveform.Sine = some samples
      ∧ samples.length = n
      ∧ (∀ i < n, samples[i]? = some (Double.roundTowardZero (Double.toRat (Double.mul
          (sin (sweepAngle st startFreq (sweepFreqStep startFreq endFreq duration) i))
          (Double.ofInt 32767)))))
      ∧ ∀ i < n,
          |(((sweepAngle st startFreq (sweepFreqStep startFreq endFreq duration) i).toRat
                : ℚ) : ℝ)
              - directPhase (2 * Real.pi) (startFreq : ℝ)
                  (((endFreq : ℝ) - (startFreq : ℝ)) / ((duration.toRat : ℚ) : ℝ))
                  ((i : ℝ) / (st._sampleRate : ℝ))|
            ≤ 2 ^ (-49 : Int) * directPhase (2 * Real.pi) (startFreq : ℝ)
                  (((endFreq : ℝ) - (startFreq : ℝ)) / ((duration.toRat : ℚ) : ℝ))
                  ((i : ℝ) / (st._sampleRate : ℝ)) := by
  obtain ⟨samples, h1, h2, h3, -⟩ := generateSweep_defined sin hsin endFreq Waveform.Sine hsr
    (show startFreq < 4294967296 by omega) hcount
  refine ⟨samples, h1, h2, ?_, fun i hi => sweepAngle_real hsr he hse hcount hi⟩
  intro i hi
  obtain ⟨v, hv, -⟩ := sweepSample_defined sin hsin endFreq Waveform.Sine hsr
    (show startFreq < 4294967296 by omega) hcount hi
  rw [h3 i hi, hv]
  congr 1
  exact toInt16_eq_trunc hv

/-- Witness of `generateSweep_sine_sample`: the sweep of `main`, 20 Hz to 20000 Hz in 10 s,
with the library sine of the angle of sample 1, 6585423473656821 * 2 ^ (-61), given as
6585414521241463 * 2 ^ (-61): sample 0 is 0 and sample 1 is 93. -/
theorem generateSweep_sine_sample_witness :
    ∃ samples,
      generateSweep
        (sinAt (Double.finite false 6585423473656821 (-61))
          (Double.finite false 6585414521241463 (-61)))
        ToneStatics.initial 20 20000 (Double.ofDecimal 100 1) Waveform.Sine = some samples
      ∧ samples.length = 441000
      ∧ samples[0]? = some 0
      ∧ samples[1]? = some 93 := by
  obtain ⟨samples, h1, h2, h3, -⟩ := generateSweep_sine_sample
    (sinAt (Double.finite false 6585423473656821 (-61))
      (Double.finite false 6585414521241463 (-61)))
    (sinAt_bounded _ false 6585414521241463 (-61) (by decide) (by decide))
    ToneStatics.initial 20 20000 (Double.ofDecimal 100 1) 441000 (by decide) (by decide)
    (by decide) (by decide)
  have e0 : Double.toInt16 (Double.mul
      (sinAt (Double.finite false 6585423473656821 (-61))
        (Double.finite false 6585414521241463 (-61))
        (sweepAngle ToneStatics.initial 20 (sweepFreqStep 20 20000 (Double.ofDecimal 100 1)) 0))
      (Double.ofInt 32767)) = some 0 := by decide
  have e1 : Double.toInt16 (Double.mul
      (sinAt (Double.finite false 6585423473656821 (-61))
        (Double.finite false 6585414521241463 (-61))
        (sweepAngle ToneStatics.initial 20 (sweepFreqStep 20 20000 (Double.ofDecimal 100 1)) 1))
      (Double.ofInt 32767)) = some 93 := by decide
  exact ⟨samples, h1, h2,
    (h3 0 (by decide)).trans (congrArg some (toInt16_eq_trunc e0).symm),
    (h3 1 (by decide)).trans (congrArg some (toInt16_eq_trunc e1).symm)⟩

/-- C3 (the code at the failing input): for the decreasing sweep 20000 Hz to 20 Hz in 10 s at
44100 Hz the step of the specification is -1998, but the source subtracts in `uint32_t`:
its step is 4294947316 / 10, positive, and the frequency of sample 1 is above the frequency
of sample 0, which is the start frequency 20000. -/
theorem sweepFreqStep_decreasing_wraps :
    specStep 20000 20 (Double.ofDecimal 100 1) = Double.ofInt (-1998)
    ∧ sweepFreqStep 20000 20 (Double.ofDecimal 100 1)
        = Double.div (Double.ofNat 4294947316) (Double.ofDecimal 100 1)
    ∧ sweepFreqStep 20000 20 (Double.ofDecimal 100 1) = Double.finite false 7205725882915226 (-24)
    ∧ Double.lt (Double.ofInt 0) (sweepFreqStep 20000 20 (Double.ofDecimal 100 1)) = true
    ∧ sweepFreq ToneStatics.initial 20000 (sweepFreqStep 20000 20 (Double.ofDecimal 100 1)) 0
        = Double.ofNat 20000
    ∧ sweepFreq ToneStatics.initial 20000 (sweepFreqStep 20000 20 (Double.ofDecimal 100 1)) 1
        = Double.finite false 8174624190256033 (-38)
    ∧ Double.lt (Double.ofNat 20000)
        (sweepFreq ToneStatics.initial 20000 (sweepFreqStep 20000 20 (Double.ofDecimal 100 1)) 1)
        = true := by
  have h1 : specStep 20000 20 (Double.ofDecimal 100 1)
      = Double.finite true 8787296929185792 (-42) := by decide
  have h2 : Double.ofInt (-1998) = Double.finite true 8787296929185792 (-42) := by decide
  have h3 : sweepFreq ToneStatics.initial 20000
      (sweepFreqStep 20000 20 (Double.ofDecimal 100 1)) 0
      = Double.finite false 5497558138880000 (-38) := by decide
  have h4 : Double.ofNat 20000 = Double.finite false 5497558138880000 (-38) := by decide
  exact ⟨h1.trans h2.symm, rfl, by decide, by decide, h3.trans h4.symm, by decide, by decide⟩

/-- C4 (as stated, refuted): for the constant tone of 22050 Hz at the initial rate 44100,
sample 1 has the angle theta_1 = π, where the sine is exactly 0, so the statement gives
-32767. The angle the source computes in `double` operations is the `double` nearest to π,
7074237752028440 * 2 ^ (-51), which is below π: its real sine is positive, within 10 ^ (-20)
of the `double` 4967757600021511 * 2 ^ (-105), and with that value of the library sine the
sample is +32767. -/
theorem squareSample_at_pi :
    sweepTotalSamples ToneStatics.initial (Double.ofDecimal 100 1) = some 441000
    ∧ (Double.ofDecimal 100 1).toRat = 10
    ∧ Real.sin (directPhase (2 * Real.pi) (22050 : ℝ) (((22050 : ℝ) - 22050) / 10)
        ((1 : ℝ) / 44100)) = 0
    ∧ sweepAngle ToneStatics.initial 22050
        (sweepFreqStep 22050 22050 (Double.ofDecimal 100 1)) 1
        = Double.finite false 7074237752028440 (-51)
    ∧ 0 < Real.sin (((Double.finite false 7074237752028440 (-51)).toRat : ℚ) : ℝ)
    ∧ |Real.sin (((Double.finite false 7074237752028440 (-51)).toRat : ℚ) : ℝ)
        - (((Double.finite false 4967757600021511 (-105)).toRat : ℚ) : ℝ)| ≤ 1 / 10 ^ 20
    ∧ ∃ samples,
        generateSweep
          (sinAt (Double.finite false 7074237752028440 (-51))
            (Double.finite false 4967757600021511 (-105)))
          ToneStatics.initial 22050 22050 (Double.ofDecimal 100 1) Waveform.Square
          = some samples
        ∧ samples[1]? = some 32767 := by
  have hcount : sweepTotalSamples ToneStatics.initial (Double.ofDecimal 100 1)
      = some 441000 := by decide
  have hd : Double.ofDecimal 100 1 = Double.finite false 5629499534213120 (-49) := by decide
  have hx : (((Double.finite false 7074237752028440 (-51)).toRat : ℚ) : ℝ)
      = (7074237752028440 : ℝ) * 2 ^ (-51 : Int) := by
    rw [toRat_finite_false]; push_cast; rfl
  have hy : (((Double.finite false 4967757600021511 (-105)).toRat : ℚ) : ℝ)
      = (4967757600021511 : ℝ) * 2 ^ (-105 : Int) := by
    rw [toRat_finite_false]; push_cast; rfl
  obtain ⟨samples, g1, -, g3⟩ := generateSweep_of_body
    (sinAt (Double.finite false 7074237752028440 (-51))
      (Double.finite false 4967757600021511 (-105)))
    22050 Waveform.Square hcount
    (fun i _ => ⟨_, sweepSample_square _ ToneStatics.initial 22050 _ i⟩)
  have hsample : sweepSample
      (sinAt (Double.finite false 7074237752028440 (-51))
        (Double.finite false 4967757600021511 (-105)))
      ToneStatics.initial 22050 (sweepFreqStep 22050 22050 (Double.ofDecimal 100 1))
      Waveform.Square 1 = some 32767 := by decide
  refine ⟨hcount, ?_, sin_directPhase_half, by decide, ?_, ?_,
    ⟨samples, g1, (g3 _ (by decide)).trans hsample⟩⟩
  · rw [hd, toRat_finite_false]; norm_num
  · rw [hx]; exact sin_below_pi.1
  · rw [hx, hy]; exact sin_below_pi.2

/-- C4 (amended): for startFreq <= endFreq, whenever the sample count is defined, sample i of
a Square sweep is +32767 when the value the library sine returns at the angle the source
computes in `double` operations is > 0, and -32767 otherwise; so it is -32767 whenever that
value is a zero. The computed angle is theta_i = 2π * f_i * t_i up to a relative error of
2 ^ (-49). At i = 0 the computed angle is exactly 0, hence sample 0 is -32767 when
sin(0) = 0. -/
theorem generateSweep_square_sample (sin : Double → Double) (st : ToneStatics)
    (startFreq endFreq : Nat) (duration : Double) (n : Nat)
    (hsr : st._sampleRate < 4294967296) (he : endFreq < 4294967296)
    (hse : startFreq ≤ endFreq) (hcount : sweepTotalSamples st duration = some n) :
    ∃ samples,
      generateSweep sin st startFreq endFreq duration Waveform.Square = some samples
      ∧ samples.length = n
      ∧ (∀ i < n, samples[i]? = some
          (if Double.lt (Double.ofInt 0)
              (sin (sweepAngle st startFreq (sweepFreqStep startFreq endFreq duration) i)) = true
            then 32767 else -32767))
      ∧ (∀ i < n,
          |(((sweepAngle st startFreq (sweepFreqStep startFreq endFreq duration) i).toRat
                : ℚ) : ℝ)
              - directPhase (2 * Real.pi) (startFreq : ℝ)
                  (((endFreq : ℝ) - (startFreq : ℝ)) / ((duration.toRat : ℚ) : ℝ))
                  ((i : ℝ) / (st._sampleRate : ℝ))|
            ≤ 2 ^ (-49 : Int) * directPhase (2 * Real.pi) (startFreq : ℝ)
                  (((endFreq : ℝ) - (startFreq : ℝ)) / ((duration.toRat : ℚ) : ℝ))
                  ((i : ℝ) / (st._sampleRate : ℝ)))
      ∧ (∀ i < n, ∀ neg e,
          sin (sweepAngle st startFreq (sweepFreqStep startFreq endFreq duration) i)
            = Double.finite neg 0 e → samples[i]? = some (-32767))
      ∧ (0 < n →
          sweepAngle st startFreq (sweepFreqStep startFreq endFreq duration) 0 = Double.zero
          ∧ (sin Double.zero = Double.zero → samples[0]? = some (-32767))) := by
  have hs : startFreq < 4294967296 := by omega
  obtain ⟨samples, h1, h2, h3⟩ := generateSweep_of_body sin endFreq Waveform.Square hcount
    (fun i _ => ⟨_, sweepSample_square sin st startFreq _ i⟩)
  have hz : ∀ neg e, Double.lt (Double.ofInt 0) (Double.finite neg 0 e) = false := by
    intro neg e
    cases hb : Double.lt (Double.ofInt 0) (Double.finite neg 0 e) with
    | false => rfl
    | true =>
      rcases (zero_lt_iff _).mp hb with h | ⟨m', e', h, hm⟩
      · exact Double.noConfusion h
      · injection h with _ hm0 _
        omega
  refine ⟨samples, h1, h2, ?_, fun i hi => sweepAngle_real hsr he hse hcount hi, ?_, ?_⟩
  · intro i hi
    rw [h3 i hi, sweepSample_square]
  · intro i hi neg e hsin0
    rw [h3 i hi, sweepSample_square, hsin0, hz]
    rfl
  · intro hn
    have h0 := sweepAngle_zero endFreq hsr hs hcount hn
    refine ⟨h0, ?_⟩
    intro hsin0
    rw [h3 0 hn, sweepSample_square, h0, hsin0]
    rfl

/-- Witness of `generateSweep_square_sample`: the sweep of `main` as a square wave, with the
library sine of the angle of sample 1, 6585423473656821 * 2 ^ (-61), given as
6585414521241463 * 2 ^ (-61): sample 0 is -32767 and sample 1 is +32767. -/
theorem generateSweep_square_sample_witness :
    ∃ samples,
      generateSweep
        (sinAt (Double.finite false 6585423473656821 (-61))
          (Double.finite false 6585414521241463 (-61)))
        ToneStatics.initial 20 20000 (Double.ofDecimal 100 1) Waveform.Square = some samples
      ∧ samples.length = 441000
      ∧ samples[0]? = some (-32767)
      ∧ samples[1]? = some 32767 := by
  obtain ⟨samples, h1, h2, h3, -, -, h6⟩ := generateSweep_square_sample
    (sinAt (Double.finite false 6585423473656821 (-61))
      (Double.finite false 6585414521241463 (-61)))
    ToneStatics.initial 20 20000 (Double.ofDecimal 100 1) 441000 (by decide) (by decide)
    (by decide) (by decide)
  have e1 : (if Double.lt (Double.ofInt 0)
      (sinAt (Double.finite false 6585423473656821 (-61))
        (Double.finite false 6585414521241463 (-61))
        (sweepAngle ToneStatics.initial 20 (sweepFreqStep 20 20000 (Double.ofDecimal 100 1)) 1))
      = true then (32767 : Int) else -32767) = 32767 := by decide
  exact ⟨samples, h1, h2, (h6 (by decide)).2 (by decide),
    (h3 1 (by decide)).trans (congrArg some e1)⟩

/-- C5: for every start and end frequency and both waveforms, whenever the sample count is
defined every iteration converts a value that an `int16_t` holds, within `[-32767, 32767]`;
every sample `generateSweep` returns lies in `[-32767, 32767]`, so -32768 never occurs. -/
theorem generateSweep_range (sin : Double → Double)
    (hsin : ∀ x, x.isFinite = true → (sin x).isFinite = true ∧ |(sin x).toRat| ≤ 1)
    (st : ToneStatics) (startFreq endFreq : Nat) (duration : Double) (waveform : Waveform)
    (hsr : st._sampleRate < 4294967296) (hs : startFreq < 4294967296) :
    (∀ n, sweepTotalSamples st duration = some n → ∀ i < n, ∃ v,
        sweepSample sin st startFreq (sweepFreqStep startFreq endFreq duration) waveform i
          = some v ∧ -32767 ≤ v ∧ v ≤ 32767)
    ∧ (∀ n, sweepTotalSamples st duration = some n → ∃ samples,
        generateSweep sin st startFreq endFreq duration waveform = some samples)
    ∧ ∀ samples, generateSweep sin st startFreq endFreq duration waveform = some samples →
        ∀ v ∈ samples, -32767 ≤ v ∧ v ≤ 32767 := by
  refine ⟨?_, ?_, ?_⟩
  · intro n hn i hi
    exact sweepSample_defined sin hsin endFreq waveform hsr hs hn hi
  · intro n hn
    obtain ⟨samples, h1, -⟩ := generateSweep_defined sin hsin endFreq waveform hsr hs hn
    exact ⟨samples, h1⟩
  · intro samples hgen v hv
    cases hc : sweepTotalSamples st duration with
    | none =>
      unfold generateSweep at hgen
      rw [hc] at hgen
      exact Option.noConfusion hgen
    | some n =>
      obtain ⟨samples', h1, -, -, h4⟩ := generateSweep_defined sin hsin endFreq waveform hsr hs hc
      rw [hgen] at h1
      simp only [Option.some.injEq] at h1
      subst h1
      exact h4 v hv

/-- Witness of `generateSweep_range`: the sweep of `main`. -/
theorem generateSweep_range_witness :
    ∃ samples,
      generateSweep zeroSin ToneStatics.initial 20 20000 (Double.ofDecimal 100 1)
        Waveform.Sine = some samples
      ∧ ∀ v ∈ samples, -32767 ≤ v ∧ v ≤ 32767 := by
  have h := generateSweep_range zeroSin zeroSin_bounded ToneStatics.initial 20 20000
    (Double.ofDecimal 100 1) Waveform.Sine (by decide) (by decide)
  obtain ⟨samples, hs⟩ := h.2.1 441000 (by decide)
  exact ⟨samples, hs, h.2.2 samples hs⟩

/-- C6 (as stated, refuted): with 4000 Hz, 8 bits, 65536 channels and one sample every
argument is non-negative and no product overflows, yet bytes 22-23 and 32-33 are `00 00`:
they do not hold the channel count 65536 nor the block align 65536. -/
theorem writeWavHeader_channel_field_truncated :
    (4000 : Int) * 65536 * 8 < 2147483648
    ∧ (headerFields 4000 8 65536 1).blockAlign = 65536
    ∧ field (writeWavHeader 4000 8 65536 1) 22 2 = [0, 0]
    ∧ field (writeWavHeader 4000 8 65536 1) 32 2 = [0, 0]
    ∧ (leValue (field (writeWavHeader 4000 8 65536 1) 22 2) : Int) ≠ 65536 := by
  decide

/-- C6 (amended): for non-negative `int` arguments whose products do not overflow,
`writeWavHeader` emits 44 bytes: 'RIFF', the overall size, 'WAVEfmt ', 16, 1, the channel
count, the sample rate, the byte rate, the block align, the bits per sample, 'data', the
data size, at the offsets of the table, every integer field little-endian; the 4-byte fields
hold their value, the three 2-byte fields hold their value modulo 65536. -/
theorem writeWavHeader_layout (sampleRate bitsPerSample numChannels numSamples : Int)
    (h1 : 0 ≤ sampleRate) (h2 : 0 ≤ bitsPerSample) (h3 : 0 ≤ numChannels)
    (h4 : 0 ≤ numSamples) (r1 : sampleRate < 2147483648)
    (o1 : sampleRate * numChannels < 2147483648)
    (o2 : sampleRate * numChannels * bitsPerSample < 2147483648)
    (o3 : numChannels * bitsPerSample < 2147483648)
    (o4 : 36 + numSamples * (numChannels * bitsPerSample / 8) < 2147483648) :
    (writeWavHeader sampleRate bitsPerSample numChannels numSamples).length = 44
    ∧ (∀ b ∈ writeWavHeader sampleRate bitsPerSample numChannels numSamples, b < 256)
    ∧ field (writeWavHeader sampleRate bitsPerSample numChannels numSamples) 0 4
        = "RIFF".toList.map Char.toNat
    ∧ (leValue (field (writeWavHeader sampleRate bitsPerSample numChannels numSamples) 4 4) : Int)
        = 36 + numSamples * (numChannels * bitsPerSample / 8)
    ∧ field (writeWavHeader sampleRate bitsPerSample numChannels numSamples) 8 8
        = "WAVEfmt ".toList.map Char.toNat
    ∧ leValue (field (writeWavHeader sampleRate bitsPerSample numChannels numSamples) 16 4) = 16
    ∧ leValue (field (writeWavHeader sampleRate bitsPerSample numChannels numSamples) 20 2) = 1
    ∧ (leValue (field (writeWavHeader sampleRate bitsPerSample numChannels numSamples) 22 2) : Int)
        = numChannels % 65536
    ∧ (leValue (field (writeWavHeader sampleRate bitsPerSample numChannels numSamples) 24 4) : Int)
        = sampleRate
    ∧ (leValue (field (writeWavHeader sampleRate bitsPerSample numChannels numSamples) 28 4) : Int)
        = sampleRate * numChannels * bitsPerSample / 8
    ∧ (leValue (field (writeWavHeader sampleRate bitsPerSample numChannels numSamples) 32 2) : Int)
        = numChannels * bitsPerSample / 8 % 65536
    ∧ (leValue (field (writeWavHeader sampleRate bitsPerSample numChannels numSamples) 34 2) : Int)
        = bitsPerSample % 65536
    ∧ field (writeWavHeader sampleRate bitsPerSample numChannels numSamples) 36 4
        = "data".toList.map Char.toNat
    ∧ (leValue (field (writeWavHeader sampleRate bitsPerSample numChannels numSamples) 40 4) : Int)
        = numSamples * (numChannels * bitsPerSample / 8) := by
  have p1 : 0 ≤ sampleRate * numChannels := Int.mul_nonneg h1 h3
  have p2 : 0 ≤ sampleRate * numChannels * bitsPerSample := Int.mul_nonneg p1 h2
  have p3 : 0 ≤ numChannels * bitsPerSample := Int.mul_nonneg h3 h2
  have p4 : 0 ≤ numChannels * bitsPerSample / 8 := Int.ediv_nonneg p3 (by norm_num)
  have p5 : 0 ≤ numSamples * (numChannels * bitsPerSample / 8) := Int.mul_nonneg h4 p4
  have p6 : 0 ≤ sampleRate * numChannels * bitsPerSample / 8 := Int.ediv_nonneg p2 (by norm_num)
  obtain ⟨f0, f4, f8, f16, f20, f22, f24, f28, f32, f34, f36, f40⟩ :=
    writeWavHeader_fields sampleRate bitsPerSample numChannels numSamples
  rw [headerFields_of_no_overflow _ _ _ _ h1 h2 h3 h4 o1 o2 o3 o4] at f4 f28 f32 f40
  simp only at f4 f28 f32 f40
  refine ⟨writeWavHeader_length _ _ _ _, mem_writeWavHeader_lt _ _ _ _, f0.trans (by decide), ?_,
    f8.trans (by decide), ?_, ?_, ?_, ?_, ?_, ?_, ?_, f36.trans (by decide), ?_⟩
  · rw [f4, leValue_writeObject_4_4]; omega
  · rw [f16]; decide
  · rw [f20]; decide
  · rw [f22, leValue_writeObject_4_2]
  · rw [f24, leValue_writeObject_4_4]; omega
  · rw [f28, leValue_writeObject_4_4]; omega
  · rw [f32, leValue_writeObject_4_2]
  · rw [f34, leValue_writeObject_4_2]
  · rw [f40, leValue_writeObject_4_4]; omega

/-- Witness of `writeWavHeader_layout`: the header written by `main` for 441000 samples. -/
theorem writeWavHeader_layout_witness :
    (writeWavHeader 44100 16 1 441000).length = 44
    ∧ (leValue (field (writeWavHeader 44100 16 1 441000) 22 2) : Int) = 1 % 65536
    ∧ (leValue (field (writeWavHeader 44100 16 1 441000) 40 4) : Int) = 441000 * (1 * 16 / 8) :=
  have h := writeWavHeader_layout 44100 16 1 441000 (by decide) (by decide) (by decide)
    (by decide) (by decide) (by decide) (by decide) (by decide) (by decide)
  ⟨h.1, h.2.2.2.2.2.2.2.1, h.2.2.2.2.2.2.2.2.2.2.2.2.2⟩

/-- C7 (as stated, refuted): with 4000 Hz, 8 bits, 65536 channels and one sample every
argument is non-negative and no product overflows; blockAlign = 65536 * 8 / 8 = 65536, but
the two bytes the header holds for it at offset 32 are `00 00`, of value 0. -/
theorem blockAlign_field_truncated :
    (4000 : Int) * 65536 < 2147483648
    ∧ (4000 : Int) * 65536 * 8 < 2147483648
    ∧ (65536 : Int) * 8 < 2147483648
    ∧ 36 + 1 * Int.tdiv ((65536 : Int) * 8) 8 < 2147483648
    ∧ Int.tdiv ((65536 : Int) * 8) 8 = 65536
    ∧ (headerFields 4000 8 65536 1).blockAlign = 65536
    ∧ (writeWavHeader 4000 8 65536 1).length = 44
    ∧ field (writeWavHeader 4000 8 65536 1) 32 2 = [0, 0]
    ∧ (leValue (field (writeWavHeader 4000 8 65536 1) 32 2) : Int) = 0
    ∧ (leValue (field (writeWavHeader 4000 8 65536 1) 32 2) : Int)
        ≠ Int.tdiv ((65536 : Int) * 8) 8 := by
  decide

/-- C7 (amended): for non-negative `int` arguments whose products do not overflow, the values
`writeWavHeader` computes are byteRate = sampleRate * numChannels * bitsPerSample / 8,
blockAlign = numChannels * bitsPerSample / 8, dataSize = numSamples * blockAlign and
fileSize = 36 + dataSize, the truncating division coming after the multiplications. The
header holds byteRate, dataSize and fileSize in its 4-byte fields at offsets 28, 40 and 4,
and blockAlign modulo 65536 in its 2-byte field at offset 32, which is blockAlign itself when
blockAlign is at most 65535. -/
theorem headerFields_values (sampleRate bitsPerSample numChannels numSamples : Int)
    (h1 : 0 ≤ sampleRate) (h2 : 0 ≤ bitsPerSample) (h3 : 0 ≤ numChannels)
    (h4 : 0 ≤ numSamples)
    (o1 : sampleRate * numChannels < 2147483648)
    (o2 : sampleRate * numChannels * bitsPerSample < 2147483648)
    (o3 : numChannels * bitsPerSample < 2147483648)
    (o4 : 36 + numSamples * Int.tdiv (numChannels * bitsPerSample) 8 < 2147483648) :
    (headerFields sampleRate bitsPerSample numChannels numSamples).byteRate
        = Int.tdiv (sampleRate * numChannels * bitsPerSample) 8
    ∧ (headerFields sampleRate bitsPerSample numChannels numSamples).blockAlign
        = Int.tdiv (numChannels * bitsPerSample) 8
    ∧ (headerFields sampleRate bitsPerSample numChannels numSamples).dataSize
        = numSamples * (headerFields sampleRate bitsPerSample numChannels numSamples).blockAlign
    ∧ (headerFields sampleRate bitsPerSample numChannels numSamples).fileSize
        = 36 + (headerFields sampleRate bitsPerSample numChannels numSamples).dataSize
    ∧ (leValue (field (writeWavHeader sampleRate bitsPerSample numChannels numSamples) 28 4) : Int)
        = (headerFields sampleRate bitsPerSample numChannels numSamples).byteRate
    ∧ (leValue (field (writeWavHeader sampleRate bitsPerSample numChannels numSamples) 32 2) : Int)
        = (headerFields sampleRate bitsPerSample numChannels numSamples).blockAlign % 65536
    ∧ ((headerFields sampleRate bitsPerSample numChannels numSamples).blockAlign ≤ 65535 →
        (leValue (field (writeWavHeader sampleRate bitsPerSample numChannels numSamples) 32 2)
            : Int)
          = (headerFields sampleRate bitsPerSample numChannels numSamples).blockAlign)
    ∧ (leValue (field (writeWavHeader sampleRate bitsPerSample numChannels numSamples) 40 4) : Int)
        = (headerFields sampleRate bitsPerSample numChannels numSamples).dataSize
    ∧ (leValue (field (writeWavHeader sampleRate bitsPerSample numChannels numSamples) 4 4) : Int)
        = (headerFields sampleRate bitsPerSample numChannels numSamples).fileSize := by
  have p1 : 0 ≤ sampleRate * numChannels := Int.mul_nonneg h1 h3
  have p2 : 0 ≤ sampleRate * numChannels * bitsPerSample := Int.mul_nonneg p1 h2
  have p3 : 0 ≤ numChannels * bitsPerSample := Int.mul_nonneg h3 h2
  have t2 := Int.tdiv_eq_ediv p2 (show (0 : Int) ≤ 8 by norm_num)
  have t3 := Int.tdiv_eq_ediv p3 (show (0 : Int) ≤ 8 by norm_num)
  rw [t3] at o4
  have p4 : 0 ≤ numChannels * bitsPerSample / 8 := Int.ediv_nonneg p3 (by norm_num)
  have p5 : 0 ≤ numSamples * (numChannels * bitsPerSample / 8) := Int.mul_nonneg h4 p4
  have p6 : 0 ≤ sampleRate * numChannels * bitsPerSample / 8 := Int.ediv_nonneg p2 (by norm_num)
  obtain ⟨-, f4, -, -, -, -, -, f28, f32, -, -, f40⟩ :=
    writeWavHeader_fields sampleRate bitsPerSample numChannels numSamples
  rw [f4, f28, f32, f40, headerFields_of_no_overflow _ _ _ _ h1 h2 h3 h4 o1 o2 o3 o4, t2, t3]
  simp only [leValue_writeObject_4_4, leValue_writeObject_4_2]
  refine ⟨trivial, trivial, trivial, trivial, ?_, trivial, ?_, ?_, ?_⟩
  · omega
  · intro hle
    omega
  · omega
  · omega

/-- Witness of `headerFields_values`: 3 Hz, 4 bits, mono, 5 samples, where dividing before
multiplying would give byte rate 0 instead of 1. -/
theorem headerFields_values_witness :
    (headerFields 3 4 1 5).byteRate = Int.tdiv (3 * 1 * 4) 8
    ∧ (headerFields 3 4 1 5).byteRate = 1 :=
  ⟨(headerFields_values 3 4 1 5 (by decide) (by decide) (by decide) (by decide) (by decide)
    (by decide) (by decide) (by decide)).1, by decide⟩

/-- C8 (as stated, refuted): for a buffer of 2 ^ 31 samples the data-size field holds 0 and
the overall-size field 36, not 2 n = 2 ^ 32 and 36 + 2 n. -/
theorem writeWav_size_fields_overflow :
    leValue (field (writeWav 8000 16 1 (List.replicate 2147483648 0)) 40 4) = 0
    ∧ leValue (field (writeWav 8000 16 1 (List.replicate 2147483648 0)) 4 4) = 36
    ∧ leValue (field (writeWav 8000 16 1 (List.replicate 2147483648 0)) 40 4)
        ≠ 2 * (List.replicate 2147483648 (0 : Int)).length
    ∧ leValue (field (writeWav 8000 16 1 (List.replicate 2147483648 0)) 4 4)
        ≠ 36 + 2 * (List.replicate 2147483648 (0 : Int)).length := by
  unfold writeWav
  rw [field_header_append _ _ _ _ _ _ _ (by omega),
    field_header_append _ _ _ _ _ _ _ (by omega), List.length_replicate]
  decide

/-- C8 (amended): for every buffer of n 16-bit samples with 36 + 2 n below 2 ^ 31, written as
mono 16-bit at any sample rate, the output has 44 + 2 n bytes, its data-size field is 2 n, its
overall-size field is 36 + 2 n, and the two bytes at offset 44 + 2 k are the little-endian
two's-complement encoding of sample k, which decodes to the sample unchanged. -/
theorem writeWav_mono16 (sampleRate : Int) (samples : List Int)
    (hs : ∀ s ∈ samples, -32768 ≤ s ∧ s ≤ 32767)
    (hn : 36 + 2 * samples.length < 2147483648) :
    (writeWav sampleRate 16 1 samples).length = 44 + 2 * samples.length
    ∧ leValue (field (writeWav sampleRate 16 1 samples) 40 4) = 2 * samples.length
    ∧ leValue (field (writeWav sampleRate 16 1 samples) 4 4) = 36 + 2 * samples.length
    ∧ ∀ k x, samples[k]? = some x →
        field (writeWav sampleRate 16 1 samples) (44 + 2 * k) 2
          = [(x % 65536).toNat % 256, (x % 65536).toNat / 256 % 256]
        ∧ int16Value (field (writeWav sampleRate 16 1 samples) (44 + 2 * k) 2) = x := by
  obtain ⟨w1, w2, w3⟩ := writeWav_sizes sampleRate samples hn
  refine ⟨w1, w2, w3, ?_⟩
  intro k x hk
  have hlen : (writeWavHeader sampleRate 16 1 (wrapInt32 (samples.length : Int))).length = 44 :=
    writeWavHeader_length _ _ _ _
  have hx := hs x (List.getElem?_mem hk)
  have e : field (writeWav sampleRate 16 1 samples) (44 + 2 * k) 2 = writeObject 2 2 x := by
    unfold writeWav
    rw [← hlen, field_append_right, field_writeSamples samples k x hk]
  rw [e]
  exact ⟨writeObject_2_2 x, int16Value_writeObject x hx.1 hx.2⟩

/-- Witness of `writeWav_mono16`, the buffer of the specification: [100, -100, 32767, -32768]
at 8000 Hz gives a 52-byte file with data size 8 and overall size 44; the bytes are listed. -/
theorem writeWav_mono16_witness :
    ((writeWav 8000 16 1 [100, -100, 32767, -32768]).length = 44 + 2 * 4
      ∧ leValue (field (writeWav 8000 16 1 [100, -100, 32767, -32768]) 40 4) = 2 * 4
      ∧ leValue (field (writeWav 8000 16 1 [100, -100, 32767, -32768]) 4 4) = 36 + 2 * 4)
    ∧ writeWav 8000 16 1 [100, -100, 32767, -32768]
      = [82, 73, 70, 70, 44, 0, 0, 0, 87, 65, 86, 69, 102, 109, 116, 32, 16, 0, 0, 0, 1, 0, 1, 0,
          64, 31, 0, 0, 128, 62, 0, 0, 2, 0, 16, 0, 100, 97, 116, 97, 8, 0, 0, 0,
          100, 0, 156, 255, 255, 127, 0, 128] :=
  have h := writeWav_mono16 8000 [100, -100, 32767, -32768] (by decide) (by decide)
  ⟨⟨h.1, h.2.1, h.2.2.1⟩, by decide⟩

/-- C9: in the scenario of `main` (20 Hz to 20000 Hz, 10.0 s, 44100 Hz, mono, 16-bit)
`generateSweep` returns 441000 samples and the written container has 882044 bytes, a data-size
field of 882000 and an overall-size field of 882036. -/
theorem mainOutput_sizes (sin : Double → Double)
    (hsin : ∀ x, x.isFinite = true → (sin x).isFinite = true ∧ |(sin x).toRat| ≤ 1) :
    ∃ sweep out,
      generateSweep sin ToneStatics.initial 20 20000 (Double.ofDecimal 100 1) Waveform.Sine
        = some sweep
      ∧ sweep.length = 441000
      ∧ mainOutput sin = some out
      ∧ out.length = 882044
      ∧ leValue (field out 40 4) = 882000
      ∧ leValue (field out 4 4) = 882036 := by
  have hcount : sweepTotalSamples ToneStatics.initial (Double.ofDecimal 100 1) = some 441000 := by
    decide
  obtain ⟨sweep, h1, h2, -, h4⟩ := generateSweep_defined sin hsin 20000 Waveform.Sine
    (show ToneStatics.initial._sampleRate < 4294967296 by decide)
    (show 20 < 4294967296 by decide) hcount
  obtain ⟨w1, w2, w3⟩ := writeWav_sizes 44100 sweep (by rw [h2]; decide)
  rw [h2] at w1 w2 w3
  exact ⟨sweep, writeWav 44100 16 1 sweep, h1, h2,
    congrArg (Option.map (writeWav 44100 16 1)) h1, by omega, by omega, by omega⟩

/-- Witness of `mainOutput_sizes`. -/
theorem mainOutput_sizes_witness :
    ∃ sweep out,
      generateSweep zeroSin ToneStatics.initial 20 20000 (Double.ofDecimal 100 1)
        Waveform.Sine = some sweep
      ∧ sweep.length = 441000
      ∧ mainOutput zeroSin = some out
      ∧ out.length = 882044
      ∧ leValue (field out 40 4) = 882000
      ∧ leValue (field out 4 4) = 882036 :=
  mainOutput_sizes zeroSin zeroSin_bounded

/-- C10 (as stated, refuted): at the sample rate 3 the duration 6004799503160661 * 2 ^ (-54),
the `double` nearest to 1 / 3, is positive and its exact product with 3 is below 1, yet the
`double` product is 1 and `generateSweep` returns one sample. -/
theorem generateSweep_not_empty :
    Double.div (Double.ofNat 1) (Double.ofNat 3) = Double.finite false 6004799503160661 (-54)
    ∧ Double.lt (Double.ofInt 0) (Double.finite false 6004799503160661 (-54)) = true
    ∧ 0 < (Double.finite false 6004799503160661 (-54)).toRat
    ∧ (((setSampleRate ToneStatics.initial 3)._sampleRate : Nat) : ℚ)
        * (Double.finite false 6004799503160661 (-54)).toRat < 1
    ∧ Double.mul (Double.ofNat (setSampleRate ToneStatics.initial 3)._sampleRate)
        (Double.finite false 6004799503160661 (-54)) = Double.ofNat 1
    ∧ sweepTotalSamples (setSampleRate ToneStatics.initial 3)
        (Double.finite false 6004799503160661 (-54)) = some 1
    ∧ generateSweep zeroSin (setSampleRate ToneStatics.initial 3) 20 20000
        (Double.finite false 6004799503160661 (-54)) Waveform.Sine = some [0] := by
  refine ⟨by decide, by decide, ?_, ?_, by decide, by decide, by decide⟩
  · rw [toRat_finite_false]; norm_num
  · rw [toRat_finite_false]
    show ((3 : Nat) : ℚ) * (((6004799503160661 : Nat) : ℚ) * 2 ^ (-54 : Int)) < 1
    norm_num

/-- C10 (amended): for a duration > 0 whose `double` product with the sample rate sr is
below 1, which is the case whenever the duration is finite and sr * duration is at most
1 - 2 ^ (-53), `generateSweep` returns the empty sequence, and writing the empty sequence as
mono 16-bit gives exactly the 44 header bytes, with data-size field 0 and overall-size
field 36, and no payload byte. -/
theorem generateSweep_empty (sin : Double → Double) (st : ToneStatics)
    (startFreq endFreq : Nat) (duration : Double) (waveform : Waveform)
    (hd : Double.lt (Double.ofInt 0) duration = true)
    (hlt : Double.lt (Double.mul (Double.ofNat st._sampleRate) duration) (Double.ofNat 1) = true
      ∨ (st._sampleRate < 4294967296 ∧ duration.isFinite = true
          ∧ (st._sampleRate : ℚ) * duration.toRat ≤ 1 - 2 ^ (-53 : Int))) :
    generateSweep sin st startFreq endFreq duration waveform = some []
    ∧ ∀ sampleRate : Int,
        (writeWav sampleRate 16 1 []).length = 44
        ∧ writeWav sampleRate 16 1 [] = writeWavHeader sampleRate 16 1 0
        ∧ leValue (field (writeWav sampleRate 16 1 []) 40 4) = 0
        ∧ leValue (field (writeWav sampleRate 16 1 []) 4 4) = 36
        ∧ (writeWav sampleRate 16 1 []).drop 44 = [] := by
  have hlt' : Double.lt (Double.mul (Double.ofNat st._sampleRate) duration) (Double.ofNat 1)
      = true := by
    rcases hlt with h | ⟨hsr, hfin, hX⟩
    · exact h
    · exact mul_lt_one_of_exact hsr hd hfin hX
  constructor
  · have hc := sweepTotalSamples_of_lt_one hd hlt'
    unfold generateSweep
    rw [hc]
    rfl
  · intro sampleRate
    obtain ⟨w1, w2, w3⟩ := writeWav_sizes sampleRate [] (by simp)
    refine ⟨by simpa using w1, ?_, by simpa using w2, by simpa using w3, ?_⟩
    · simp [writeWav, writeSamples]; rfl
    · apply List.drop_of_length_le
      simpa using w1.le

/-- Witness of `generateSweep_empty`: a duration of 0.00001 s at 44100 Hz. -/
theorem generateSweep_empty_witness :
    generateSweep zeroSin ToneStatics.initial 20 20000 (Double.ofDecimal 1 5) Waveform.Sine
      = some []
    ∧ leValue (field (writeWav 44100 16 1 []) 40 4) = 0 :=
  have h := generateSweep_empty zeroSin ToneStatics.initial 20 20000 (Double.ofDecimal 1 5)
    Waveform.Sine (by decide) (Or.inl (by decide))
  ⟨h.1, (h.2 44100).2.2.1⟩

/-- C11: whenever the sample count is defined and positive (which takes a duration > 0 and a
sample rate > 0), for every start frequency and end frequency, the time and the angle at
index 0 are exactly +0 and sample 0 of a Sine sweep is 0, the library `sin` returning +0
at +0. -/
theorem generateSweep_first_sample (sin : Double → Double)
    (hsin : ∀ x, x.isFinite = true → (sin x).isFinite = true ∧ |(sin x).toRat| ≤ 1)
    (hsin0 : sin Double.zero = Double.zero)
    (st : ToneStatics) (startFreq endFreq : Nat) (duration : Double) (n : Nat)
    (hsr : st._sampleRate < 4294967296) (hs : startFreq < 4294967296)
    (hcount : sweepTotalSamples st duration = some n) (hn : 0 < n) :
    ∃ samples,
      generateSweep sin st startFreq endFreq duration Waveform.Sine = some samples
      ∧ samples.length = n
      ∧ sweepTime st 0 = Double.zero
      ∧ sweepAngle st startFreq (sweepFreqStep startFreq endFreq duration) 0 = Double.zero
      ∧ samples[0]? = some 0 := by
  obtain ⟨samples, h1, h2, h3, -⟩ := generateSweep_defined sin hsin endFreq Waveform.Sine hsr
    hs hcount
  have hangle := sweepAngle_zero endFreq hsr hs hcount hn
  refine ⟨samples, h1, h2, sweepTime_zero hsr (sweepTotalSamples_pos hsr hcount hn).1, hangle, ?_⟩
  rw [h3 0 hn]
  unfold sweepSample sweepNormalized
  simp only
  rw [hangle, hsin0]
  exact toInt16_zero_mul

/-- Witness of `generateSweep_first_sample`: the sweep of `main`. -/
theorem generateSweep_first_sample_witness :
    ∃ samples,
      generateSweep zeroSin ToneStatics.initial 20 20000 (Double.ofDecimal 100 1)
        Waveform.Sine = some samples
      ∧ samples.length = 441000
      ∧ sweepTime ToneStatics.initial 0 = Double.zero
      ∧ sweepAngle ToneStatics.initial 20 (sweepFreqStep 20 20000 (Double.ofDecimal 100 1)) 0
          = Double.zero
      ∧ samples[0]? = some 0 :=
  generateSweep_first_sample zeroSin zeroSin_bounded (by decide) ToneStatics.initial 20 20000
    (Double.ofDecimal 100 1) 441000 (by decide) (by decide) (by decide) (by decide)

/-- C12 (as stated, refuted): at 44100 Hz with startFreq = endFreq = 440 and a duration of 1 s
the step is +0, and the angles of samples 1, 2 and 3 are 4517245693812265 * 2^-56, twice that,
and 6775868540718397 * 2^-55: from sample 2 to sample 3 the angle advances by less than from
sample 1 to sample 2. -/
theorem sweepAngle_increments_differ :
    sweepFreqStep 440 440 (Double.ofDecimal 10 1) = Double.zero
    ∧ sweepAngle ToneStatics.initial 440 (sweepFreqStep 440 440 (Double.ofDecimal 10 1)) 1
        = Double.finite false 4517245693812265 (-56)
    ∧ sweepAngle ToneStatics.initial 440 (sweepFreqStep 440 440 (Double.ofDecimal 10 1)) 2
        = Double.finite false 4517245693812265 (-55)
    ∧ sweepAngle ToneStatics.initial 440 (sweepFreqStep 440 440 (Double.ofDecimal 10 1)) 3
        = Double.finite false 6775868540718397 (-55)
    ∧ (sweepAngle ToneStatics.initial 440 (sweepFreqStep 440 440 (Double.ofDecimal 10 1)) 3).toRat
        - (sweepAngle ToneStatics.initial 440
            (sweepFreqStep 440 440 (Double.ofDecimal 10 1)) 2).toRat
      < (sweepAngle ToneStatics.initial 440
            (sweepFreqStep 440 440 (Double.ofDecimal 10 1)) 2).toRat
        - (sweepAngle ToneStatics.initial 440
            (sweepFreqStep 440 440 (Double.ofDecimal 10 1)) 1).toRat := by
  have h1 : sweepAngle ToneStatics.initial 440 (sweepFreqStep 440 440 (Double.ofDecimal 10 1)) 1
      = Double.finite false 4517245693812265 (-56) := by decide
  have h2 : sweepAngle ToneStatics.initial 440 (sweepFreqStep 440 440 (Double.ofDecimal 10 1)) 2
      = Double.finite false 4517245693812265 (-55) := by decide
  have h3 : sweepAngle ToneStatics.initial 440 (sweepFreqStep 440 440 (Double.ofDecimal 10 1)) 3
      = Double.finite false 6775868540718397 (-55) := by decide
  refine ⟨by decide, h1, h2, h3, ?_⟩
  rw [h1, h2, h3]
  simp only [toRat_finite_false]
  norm_num

/-- C12 (amended): with startFreq = endFreq = f0, a duration > 0 and a sample rate sr > 0, the
step is exactly +0, the frequency is exactly f0 at every index i and the angle is the `double`
product (2π * f0) * (i / sr), with no term in the step; its value is 2π * f0 * i / sr up to a
relative error of 2^-49, and in exact arithmetic that formula advances by 2π * f0 / sr
between any two consecutive samples. -/
theorem sweepAngle_constant_frequency (st : ToneStatics) (f0 i : Nat) (duration : Double)
    (hsr1 : 1 ≤ st._sampleRate) (hsr : st._sampleRate < 4294967296) (hf : f0 < 4294967296)
    (hi : i < 4294967296) (hd : Double.lt (Double.ofInt 0) duration = true) :
    sweepFreqStep f0 f0 duration = Double.zero
    ∧ sweepFreq st f0 (sweepFreqStep f0 f0 duration) i = Double.ofNat f0
    ∧ sweepAngle st f0 (sweepFreqStep f0 f0 duration) i
        = Double.mul (Double.mul _D_PI (Double.ofNat f0))
            (Double.div (Double.ofNat i) (Double.ofNat st._sampleRate))
    ∧ |(((sweepAngle st f0 (sweepFreqStep f0 f0 duration) i).toRat : ℚ) : ℝ)
          - directPhase (2 * Real.pi) (f0 : ℝ) 0 ((i : ℝ) / (st._sampleRate : ℝ))|
        ≤ 2 ^ (-49 : Int) * directPhase (2 * Real.pi) (f0 : ℝ) 0 ((i : ℝ) / (st._sampleRate : ℝ))
    ∧ (∀ c t : ℝ, directPhase c (f0 : ℝ) 0 t = c * f0 * t)
    ∧ (∀ c : ℝ, directPhase c (f0 : ℝ) 0 (((i : ℝ) + 1) / (st._sampleRate : ℝ))
          - directPhase c (f0 : ℝ) 0 ((i : ℝ) / (st._sampleRate : ℝ))
        = c * f0 / (st._sampleRate : ℝ)) := by
  have hstep := sweepFreqStep_self f0 hd
  obtain ⟨hA, hW⟩ := sweepAngle_const hsr1 hsr hf hi
  have hsr0 : ((st._sampleRate : ℝ)) ≠ 0 := by
    have : (1 : ℝ) ≤ st._sampleRate := by exact_mod_cast hsr1
    linarith
  have hw : (0 : ℚ) ≤ (f0 : ℚ) * ((i : ℚ) / st._sampleRate) := by positivity
  have hD0 : (0 : ℚ) ≤ _D_PI.toRat := le_trans (two_zpow_pos 0).le _D_PI_facts.2.1
  have hreal := within_abs_sub_real (hW.weaken (by norm_num) (mul_nonneg hD0 hw)) hw
  have hform : directPhase (2 * Real.pi) (f0 : ℝ) 0 ((i : ℝ) / (st._sampleRate : ℝ))
      = 2 * Real.pi * (((f0 : ℚ) * ((i : ℚ) / st._sampleRate) : ℚ) : ℝ) := by
    unfold directPhase exactFreq
    push_cast
    ring
  rw [hstep]
  refine ⟨rfl, sweepFreq_const hsr1 hsr hf hi, hA, ?_, ?_, ?_⟩
  · rw [hform]; exact hreal
  · intro c t
    unfold directPhase exactFreq
    ring
  · intro c
    unfold directPhase exactFreq
    field_simp
    ring

/-- Witness of `sweepAngle_constant_frequency`: 440 Hz at 44100 Hz, sample 3. -/
theorem sweepAngle_constant_frequency_witness :
    sweepFreqStep 440 440 (Double.ofDecimal 10 1) = Double.zero
    ∧ sweepFreq ToneStatics.initial 440 (sweepFreqStep 440 440 (Double.ofDecimal 10 1)) 3
        = Double.ofNat 440 :=
  have h := sweepAngle_constant_frequency ToneStatics.initial 440 3 (Double.ofDecimal 10 1)
    (by decide) (by decide) (by decide) (by decide) (by decide)
  ⟨h.1, h.2.1⟩

/-- C13: `generateSweep` is a function of its arguments and the process-wide sample rate: two
calls with the same arguments in two states with the same sample rate, whatever the `_length`
and `_samples` of the objects they are called on, return the same sequence; a call leaves the
state as it was, so a second call after the first returns the same sequence again. -/
theorem generateSweep_deterministic (sin : Double → Double) (s1 s2 : ToneState)
    (startFreq endFreq : Nat) (duration : Double) (waveform : Waveform)
    (hrate : s1.statics._sampleRate = s2.statics._sampleRate) :
    (callGenerateSweep sin s1 startFreq endFreq duration waveform).1
        = (callGenerateSweep sin s2 startFreq endFreq duration waveform).1
    ∧ (callGenerateSweep sin s1 startFreq endFreq duration waveform).2 = s1
    ∧ (callGenerateSweep sin
          (callGenerateSweep sin s1 startFreq endFreq duration waveform).2
          startFreq endFreq duration waveform).1
        = (callGenerateSweep sin s1 startFreq endFreq duration waveform).1 := by
  have hst : s1.statics = s2.statics := by
    cases h1 : s1.statics
    cases h2 : s2.statics
    rw [h1, h2] at hrate
    simpa using hrate
  refine ⟨?_, rfl, rfl⟩
  simp only [callGenerateSweep, hst]

/-- Witness of `generateSweep_deterministic`: the sweep of `main` called on an object with an
empty buffer and on one with a buffer of three samples. -/
theorem generateSweep_deterministic_witness :
    (callGenerateSweep zeroSin ⟨ToneStatics.initial, ⟨0, []⟩⟩ 20 20000 (Double.ofDecimal 100 1)
        Waveform.Sine).1
      = (callGenerateSweep zeroSin ⟨ToneStatics.initial, ⟨3, [1, 2, 3]⟩⟩ 20 20000
        (Double.ofDecimal 100 1) Waveform.Sine).1 :=
  (generateSweep_deterministic zeroSin ⟨ToneStatics.initial, ⟨0, []⟩⟩
    ⟨ToneStatics.initial, ⟨3, [1, 2, 3]⟩⟩ 20 20000 (Double.ofDecimal 100 1) Waveform.Sine rfl).1

/-- C14 (as stated, refuted): on a destination that accepts no byte, `writeWavHeader` hands
the stream back to its caller outside error state, exactly as on a destination without
limit: the 44 bytes sit in the stream buffer (8191 bytes here) and none reached the file.
The error state is set only by `close()`, after the last write: of the 46 bytes of a
one-sample sweep a destination with room for 10 holds the first 10 and one with room for
none holds nothing. -/
theorem writeWavHeader_failure_unreported :
    (writeWavHeaderTo (OFStream.open true (some 0) 8191) 44100 16 1 1).failed = false
    ∧ (writeWavHeaderTo (OFStream.open true none 8191) 44100 16 1 1).failed = false
    ∧ (writeWavHeaderTo (OFStream.open true (some 0) 8191) 44100 16 1 1).file = []
    ∧ (writeWavHeaderTo (OFStream.open true (some 0) 8191) 44100 16 1 1).buffer
        = (writeWavHeaderTo (OFStream.open true none 8191) 44100 16 1 1).buffer
    ∧ (mainWrite true (some 0) 8191 [0]).wavFile.file = []
    ∧ (mainWrite true (some 0) 8191 [0]).wavFile.failed = true
    ∧ (mainWrite true (some 10) 8191 [0]).wavFile.file = [82, 73, 70, 70, 38, 0, 0, 0, 87, 65]
    ∧ (mainWrite true (some 10) 8191 [0]).wavFile.failed = true
    ∧ (mainWrite true none 8191 [0]).wavFile.file.length = 46
    ∧ (mainWrite true none 8191 [0]).wavFile.failed = false := by
  have hb : ∀ room, writeWavHeaderTo (OFStream.open true room 8191) 44100 16 1 1
      = ⟨[], writeWavHeader 44100 16 1 1, false, room, 8191⟩ :=
    fun room => writeWavHeaderTo_buffered room 8147 44100 16 1 1
  have h0 := mainWrite_room 0 8191 [0]
  have h10 := mainWrite_room 10 8191 [0]
  have hn := mainWrite_unlimited 8191 [0]
  refine ⟨by rw [hb], by rw [hb], by rw [hb], by rw [hb, hb], h0.1, h0.2.trans (by decide),
    h10.1.trans (by decide), h10.2.trans (by decide), by rw [hn]; decide, by rw [hn]⟩

/-- C14 (amended): `writeWavHeader` returns nothing; a failure shows only in the error state
of the stream, which the caller may test and `main` does not: `main` returns 0 and prints
its completion line in every case. On a stream in error state, such as one whose file could
not be opened, `writeWavHeader` changes nothing. On an open stream whose buffer takes the 44
bytes it stores them in the buffer and leaves the stream outside error state whatever the
destination accepts. After `close()` a file that could not be opened holds nothing and the
stream is in error state; a destination with room for `c` bytes holds the first `c` bytes of
the header followed by the payload, and the stream is in error state exactly when `c` is
less than 44 + 2n for a sweep of n samples; a destination without limit holds them all. -/
theorem writeWavHeader_failure_state (sin : Double → Double) (opened : Bool) (room : Option Nat)
    (sweep : List Int) (file buffer : List Nat)
    (sampleRate bitsPerSample numChannels numSamples : Int) (c k bufSize : Nat) :
    (mainWrite opened room bufSize sweep).exitStatus = 0
    ∧ (mainWrite opened room bufSize sweep).output = "Sweep WAV file has been written."
    ∧ (mainRun sin opened room bufSize).map MainResult.exitStatus
        = (mainRun sin true none bufSize).map MainResult.exitStatus
    ∧ (mainRun sin opened room bufSize).map MainResult.output
        = (mainRun sin true none bufSize).map MainResult.output
    ∧ writeWavHeaderTo ⟨file, buffer, true, room, bufSize⟩ sampleRate bitsPerSample numChannels
        numSamples = ⟨file, buffer, true, room, bufSize⟩
    ∧ writeWavHeaderTo (OFStream.open true room (44 + k)) sampleRate bitsPerSample numChannels
        numSamples
        = ⟨[], writeWavHeader sampleRate bitsPerSample numChannels numSamples, false, room,
            44 + k⟩
    ∧ (mainWrite false room bufSize sweep).wavFile = ⟨[], [], true, room, bufSize⟩
    ∧ (mainWrite true none bufSize sweep).wavFile
        = ⟨writeWav 44100 16 1 sweep, [], false, none, bufSize⟩
    ∧ (mainWrite true (some c) bufSize sweep).wavFile.file = (writeWav 44100 16 1 sweep).take c
    ∧ (mainWrite true (some c) bufSize sweep).wavFile.failed
        = decide (c < 44 + 2 * sweep.length) := by
  refine ⟨rfl, rfl, ?_, ?_, ?_, writeWavHeaderTo_buffered _ _ _ _ _ _, ?_,
    mainWrite_unlimited _ _, (mainWrite_room _ _ _).1, (mainWrite_room _ _ _).2⟩
  · unfold mainRun
    rw [Option.map_map, Option.map_map]
    rfl
  · unfold mainRun
    rw [Option.map_map, Option.map_map]
    rfl
  · rw [writeWavHeaderTo_eq]
    exact foldl_put_failed _ _ rfl
  · rw [mainWrite_wavFile]
    have h : OFStream.open false room bufSize = ⟨[], [], true, room, bufSize⟩ := rfl
    rw [h, foldl_put_failed _ _ rfl]
    rfl

/-- C15 (as stated, refuted): at 44100 Hz the sweep from 2147483648 Hz to 2147483649 Hz in
1000 s has 44100000 samples; the frequency the source computes for sample 1 is the frequency
of sample 0, the start frequency, and the frequency of the last sample is the end frequency. -/
theorem sweepFreq_not_strictly_increasing :
    sweepTotalSamples ToneStatics.initial (Double.ofDecimal 10000 1) = some 44100000
    ∧ sweepFreq ToneStatics.initial 2147483648
        (sweepFreqStep 2147483648 2147483649 (Double.ofDecimal 10000 1)) 0
        = Double.ofNat 2147483648
    ∧ sweepFreq ToneStatics.initial 2147483648
        (sweepFreqStep 2147483648 2147483649 (Double.ofDecimal 10000 1)) 1
        = Double.ofNat 2147483648
    ∧ sweepFreq ToneStatics.initial 2147483648
        (sweepFreqStep 2147483648 2147483649 (Double.ofDecimal 10000 1)) 44099999
        = Double.ofNat 2147483649 := by
  have hs : Double.ofNat 2147483648 = Double.finite false 4503599627370496 (-21) := by decide
  have he : Double.ofNat 2147483649 = Double.finite false 4503599629467648 (-21) := by decide
  have h0 : sweepFreq ToneStatics.initial 2147483648
      (sweepFreqStep 2147483648 2147483649 (Double.ofDecimal 10000 1)) 0
      = Double.finite false 4503599627370496 (-21) := by decide
  have h1 : sweepFreq ToneStatics.initial 2147483648
      (sweepFreqStep 2147483648 2147483649 (Double.ofDecimal 10000 1)) 1
      = Double.finite false 4503599627370496 (-21) := by decide
  have h2 : sweepFreq ToneStatics.initial 2147483648
      (sweepFreqStep 2147483648 2147483649 (Double.ofDecimal 10000 1)) 44099999
      = Double.finite false 4503599629467648 (-21) := by decide
  exact ⟨by decide, h0.trans hs.symm, h1.trans hs.symm, h2.trans he.symm⟩

/-- C15 (amended): for startFreq < endFreq and a defined sample count n, the frequency
f_i = startFreq + step * (i / sr) the source computes, in `double` operations, is startFreq
at i = 0, never decreases as i grows below n, and stays between startFreq and endFreq
inclusive for every i < n; in exact arithmetic the formula is strictly increasing in the time
and stays below endFreq before the duration; in the end-to-end scenario
f_i = 20 + 1998 * (i / 44100) in `double` operations. -/
theorem sweepFreq_monotone (st : ToneStatics) (startFreq endFreq : Nat) (duration : Double)
    (n : Nat) (hsr : st._sampleRate < 4294967296) (he : endFreq < 4294967296)
    (hse : startFreq < endFreq) (hcount : sweepTotalSamples st duration = some n) :
    (0 < n → sweepFreq st startFreq (sweepFreqStep startFreq endFreq duration) 0
        = Double.ofNat startFreq)
    ∧ (∀ i j, i ≤ j → j < n →
        (sweepFreq st startFreq (sweepFreqStep startFreq endFreq duration) i).toRat
          ≤ (sweepFreq st startFreq (sweepFreqStep startFreq endFreq duration) j).toRat)
    ∧ (∀ i, i < n →
        (startFreq : ℚ)
          ≤ (sweepFreq st startFreq (sweepFreqStep startFreq endFreq duration) i).toRat
        ∧ (sweepFreq st startFreq (sweepFreqStep startFreq endFreq duration) i).toRat
          ≤ endFreq)
    ∧ (∀ t1 t2 : ℚ, 0 ≤ t1 → t1 < t2 → t2 < duration.toRat →
        exactFreq (startFreq : ℚ) (((endFreq : ℚ) - startFreq) / duration.toRat) 0 = startFreq
        ∧ exactFreq (startFreq : ℚ) (((endFreq : ℚ) - startFreq) / duration.toRat) t1
          < exactFreq (startFreq : ℚ) (((endFreq : ℚ) - startFreq) / duration.toRat) t2
        ∧ exactFreq (startFreq : ℚ) (((endFreq : ℚ) - startFreq) / duration.toRat) t2
          < endFreq)
    ∧ (∀ i, sweepFreq ToneStatics.initial 20 (sweepFreqStep 20 20000 (Double.ofDecimal 100 1)) i
        = Double.add (Double.ofNat 20) (Double.mul (Double.ofNat 1998)
            (Double.div (Double.ofNat i) (Double.ofNat 44100)))) := by
  have hs : startFreq < 4294967296 := by omega
  refine ⟨?_, ?_, ?_, ?_, ?_⟩
  · intro hn
    obtain ⟨hsr1, -, -, -, -⟩ := sweepTotalSamples_facts hsr hcount hn
    obtain ⟨hSN, -, -, -, -⟩ := sweepFreqStep_within hsr he hse.le hcount hn
    exact sweepFreq_zero hsr1 hsr hs hSN
  · intro i j hij hj
    exact sweepFreq_mono endFreq hsr hs hcount hij hj
  · intro i hi
    exact (sweepFreq_between hsr he hse.le hcount hi).2
  · intro t1 t2 h1 h12 h2
    have hd : 0 < duration.toRat := by linarith
    have hstep : 0 < ((endFreq : ℚ) - startFreq) / duration.toRat := by
      apply div_pos _ hd
      have : (startFreq : ℚ) < endFreq := by exact_mod_cast hse
      linarith
    have hlt : ((endFreq : ℚ) - startFreq) / duration.toRat * t2
        < ((endFreq : ℚ) - startFreq) / duration.toRat * duration.toRat :=
      mul_lt_mul_of_pos_left h2 hstep
    rw [div_mul_cancel₀ _ hd.ne'] at hlt
    unfold exactFreq
    refine ⟨by ring, ?_, by linarith⟩
    have := mul_lt_mul_of_pos_left h12 hstep
    linarith
  · intro i
    have h1 : sweepFreqStep 20 20000 (Double.ofDecimal 100 1)
        = Double.finite false 8787296929185792 (-42) := by decide
    have h2 : Double.ofNat 1998 = Double.finite false 8787296929185792 (-42) := by decide
    unfold sweepFreq sweepTime
    rw [h1, h2]
    rfl

/-- Witness of `sweepFreq_monotone`: the sweep of `main`, 20 Hz to 20000 Hz in 10 s. -/
theorem sweepFreq_monotone_witness :
    sweepFreq ToneStatics.initial 20 (sweepFreqStep 20 20000 (Double.ofDecimal 100 1)) 0
        = Double.ofNat 20
    ∧ ∀ i, i < 441000 →
        ((20 : Nat) : ℚ)
          ≤ (sweepFreq ToneStatics.initial 20
              (sweepFreqStep 20 20000 (Double.ofDecimal 100 1)) i).toRat
        ∧ (sweepFreq ToneStatics.initial 20
              (sweepFreqStep 20 20000 (Double.ofDecimal 100 1)) i).toRat
          ≤ ((20000 : Nat) : ℚ) :=
  have h := sweepFreq_monotone ToneStatics.initial 20 20000 (Double.ofDecimal 100 1) 441000
    (by decide) (by decide) (by decide) (by decide)
  ⟨h.1 (by decide), h.2.2.1⟩

/-- C16 (as stated, refuted): for sample 1 of the sweep of `main` (20 Hz to 20000 Hz in 10 s at
44100 Hz, step 1998) the angle the source computes is 6585423473656821 * 2^-61; its
difference from the exact linear-sweep phase is not the claimed quadratic term, whether the
time is the `double` 1 / 44100 of the source or the exact 1 / 44100, 2π being the constant
`_D_PI` of the source. -/
theorem sweepAngle_not_exact :
    sweepAngle ToneStatics.initial 20 (sweepFreqStep 20 20000 (Double.ofDecimal 100 1)) 1
        = Double.finite false 6585423473656821 (-61)
    ∧ (sweepFreqStep 20 20000 (Double.ofDecimal 100 1)).toRat = 1998
    ∧ (sweepAngle ToneStatics.initial 20
            (sweepFreqStep 20 20000 (Double.ofDecimal 100 1)) 1).toRat
          - linearSweepPhase _D_PI.toRat 20 1998 (sweepTime ToneStatics.initial 1).toRat
        ≠ _D_PI.toRat / 2 * 1998 * (sweepTime ToneStatics.initial 1).toRat ^ 2
    ∧ (sweepAngle ToneStatics.initial 20
            (sweepFreqStep 20 20000 (Double.ofDecimal 100 1)) 1).toRat
          - linearSweepPhase _D_PI.toRat 20 1998 (1 / 44100)
        ≠ _D_PI.toRat / 2 * 1998 * (1 / 44100) ^ 2 := by
  have h1 : sweepAngle ToneStatics.initial 20
      (sweepFreqStep 20 20000 (Double.ofDecimal 100 1)) 1
      = Double.finite false 6585423473656821 (-61) := by decide
  have h2 : sweepFreqStep 20 20000 (Double.ofDecimal 100 1)
      = Double.finite false 8787296929185792 (-42) := by decide
  have h3 : sweepTime ToneStatics.initial 1 = Double.finite false 6692696262570359 (-68) := by
    decide
  refine ⟨h1, ?_, ?_, ?_⟩
  · rw [h2, toRat_finite_false]; norm_num
  · rw [h1, h3, _D_PI_eq]
    simp only [toRat_finite_false, linearSweepPhase]
    norm_num
  · rw [h1, _D_PI_eq]
    simp only [toRat_finite_false, linearSweepPhase]
    norm_num

/-- C16 (amended): in exact arithmetic the phase formula of the source,
2π * (f0 + step * t) * t, differs from the linear-sweep phase 2π * (f0 * t + step * t² / 2)
by exactly π * step * t²; the difference is 0 when step = 0 or t = 0 and, for step > 0, is
strictly increasing in t >= 0; the formula is the linear-sweep phase of the frequency
f0 + 2 * step * t. For startFreq <= endFreq and an index i below the sample count, the angle
the source computes in `double` operations is the value of its formula at
step = (endFreq - startFreq) / duration and t = i / sr up to a relative error of 2^-49. -/
theorem directPhase_sub_linearSweepPhase (st : ToneStatics) (startFreq endFreq : Nat)
    (duration : Double) (n i : Nat) (hsr : st._sampleRate < 4294967296)
    (he : endFreq < 4294967296) (hse : startFreq ≤ endFreq)
    (hcount : sweepTotalSamples st duration = some n) (hi : i < n) :
    (∀ f0 step t : ℝ,
        directPhase (2 * Real.pi) f0 step t - linearSweepPhase (2 * Real.pi) f0 step t
          = Real.pi * step * t ^ 2)
    ∧ (∀ f0 t : ℝ,
        directPhase (2 * Real.pi) f0 0 t - linearSweepPhase (2 * Real.pi) f0 0 t = 0)
    ∧ (∀ f0 step : ℝ,
        directPhase (2 * Real.pi) f0 step 0 - linearSweepPhase (2 * Real.pi) f0 step 0 = 0)
    ∧ (∀ f0 step t1 t2 : ℝ, 0 < step → 0 ≤ t1 → t1 < t2 →
        directPhase (2 * Real.pi) f0 step t1 - linearSweepPhase (2 * Real.pi) f0 step t1
          < directPhase (2 * Real.pi) f0 step t2 - linearSweepPhase (2 * Real.pi) f0 step t2)
    ∧ (∀ f0 step t : ℝ,
        directPhase (2 * Real.pi) f0 step t = linearSweepPhase (2 * Real.pi) f0 (2 * step) t)
    ∧ |(((sweepAngle st startFreq (sweepFreqStep startFreq endFreq duration) i).toRat : ℚ) : ℝ)
          - directPhase (2 * Real.pi) (startFreq : ℝ)
              (((endFreq : ℝ) - (startFreq : ℝ)) / ((duration.toRat : ℚ) : ℝ))
              ((i : ℝ) / (st._sampleRate : ℝ))|
        ≤ 2 ^ (-49 : Int) * directPhase (2 * Real.pi) (startFreq : ℝ)
              (((endFreq : ℝ) - (startFreq : ℝ)) / ((duration.toRat : ℚ) : ℝ))
              ((i : ℝ) / (st._sampleRate : ℝ)) := by
  have hdiff : ∀ f0 step t : ℝ,
      directPhase (2 * Real.pi) f0 step t - linearSweepPhase (2 * Real.pi) f0 step t
        = Real.pi * step * t ^ 2 := by
    intro f0 step t
    unfold directPhase exactFreq linearSweepPhase
    ring
  refine ⟨hdiff, ?_, ?_, ?_, ?_, ?_⟩
  · intro f0 t
    rw [hdiff]; ring
  · intro f0 step
    rw [hdiff]; ring
  · intro f0 step t1 t2 hstep h1 h12
    rw [hdiff, hdiff]
    have hpi := Real.pi_pos
    have hsq : t1 ^ 2 < t2 ^ 2 := by nlinarith
    exact mul_lt_mul_of_pos_left hsq (mul_pos hpi hstep)
  · intro f0 step t
    unfold directPhase exactFreq linearSweepPhase
    ring
  · obtain ⟨-, hW⟩ := sweepAngle_within hsr he hse hcount hi
    obtain ⟨-, -, hd33, -, -⟩ := sweepTotalSamples_facts hsr hcount (by omega)
    have hdpos : 0 < duration.toRat := lt_of_lt_of_le (two_zpow_pos _) hd33
    have hseq : (startFreq : ℚ) ≤ endFreq := by exact_mod_cast hse
    have hb0 : (0 : ℚ) ≤ ((endFreq : ℚ) - startFreq) / duration.toRat :=
      div_nonneg (by linarith) hdpos.le
    have hw : (0 : ℚ) ≤ ((startFreq : ℚ)
        + ((endFreq : ℚ) - startFreq) / duration.toRat * ((i : ℚ) / st._sampleRate))
        * ((i : ℚ) / st._sampleRate) := by positivity
    unfold directPhase exactFreq at hW
    rw [mul_assoc] at hW
    have hreal := within_abs_sub_real hW hw
    have hform : directPhase (2 * Real.pi) (startFreq : ℝ)
        (((endFreq : ℝ) - (startFreq : ℝ)) / ((duration.toRat : ℚ) : ℝ))
        ((i : ℝ) / (st._sampleRate : ℝ))
        = 2 * Real.pi * ((((startFreq : ℚ)
            + ((endFreq : ℚ) - startFreq) / duration.toRat * ((i : ℚ) / st._sampleRate))
            * ((i : ℚ) / st._sampleRate) : ℚ) : ℝ) := by
      unfold directPhase exactFreq
      push_cast
      ring
    rw [hform]
    exact hreal

/-- Witness of `directPhase_sub_linearSweepPhase`: sample 1 of the sweep of `main`. -/
theorem directPhase_sub_linearSweepPhase_witness :
    |(((sweepAngle ToneStatics.initial 20
          (sweepFreqStep 20 20000 (Double.ofDecimal 100 1)) 1).toRat : ℚ) : ℝ)
        - directPhase (2 * Real.pi) ((20 : Nat) : ℝ)
            ((((20000 : Nat) : ℝ) - ((20 : Nat) : ℝ))
              / (((Double.ofDecimal 100 1).toRat : ℚ) : ℝ))
            (((1 : Nat) : ℝ) / (ToneStatics.initial._sampleRate : ℝ))|
      ≤ 2 ^ (-49 : Int) * directPhase (2 * Real.pi) ((20 : Nat) : ℝ)
            ((((20000 : Nat) : ℝ) - ((20 : Nat) : ℝ))
              / (((Double.ofDecimal 100 1).toRat : ℚ) : ℝ))
            (((1 : Nat) : ℝ) / (ToneStatics.initial._sampleRate : ℝ)) :=
  (directPhase_sub_linearSweepPhase ToneStatics.initial 20 20000 (Double.ofDecimal 100 1) 441000
    1 (by decide) (by decide) (by decide) (by decide) (by decide)).2.2.2.2.2

/-- C17: for a `Tone` whose buffer has length L = `_length` > 0 and every index i, `operator[]`
denotes the buffer element at position i mod L, a position below L, so the access succeeds;
an index i < L denotes element i itself and an index i >= L denotes the element an earlier
index, i mod L < i, denotes. -/
theorem subscript_wraps (t : Tone) (i : Nat) (hbuf : t._samples.length = t._length)
    (hL : 0 < t._length) :
    t.subscript i = some (i % t._length)
    ∧ i % t._length < t._length
    ∧ t.read i = t._samples[i % t._length]?
    ∧ (t.read i).isSome = true
    ∧ (i < t._length → t.subscript i = some i)
    ∧ (t._length ≤ i → i % t._length < i ∧ t.subscript i = t.subscript (i % t._length)
        ∧ t.read i = t.read (i % t._length)) := by
  have hmod : i % t._length < t._length := Nat.mod_lt i hL
  have hsub : ∀ j, t.subscript j = some (j % t._length) := by
    intro j
    have hj : j % t._length < t._samples.length := by rw [hbuf]; exact Nat.mod_lt j hL
    simp [Tone.subscript, hL.ne', hj]
  have hread : ∀ j, t.read j = t._samples[j % t._length]? := by
    intro j
    simp [Tone.read, hsub j]
  refine ⟨hsub i, hmod, hread i, ?_, ?_, ?_⟩
  · rw [hread i, List.getElem?_eq_getElem (by rw [hbuf]; exact hmod)]
    rfl
  · intro hi
    rw [hsub i, Nat.mod_eq_of_lt hi]
  · intro hi
    refine ⟨lt_of_lt_of_le hmod hi, ?_, ?_⟩
    · rw [hsub i, hsub (i % t._length), Nat.mod_mod]
    · rw [hread i, hread (i % t._length), Nat.mod_mod]

/-- Witness of `subscript_wraps`: in a buffer of three samples index 7 denotes element 1. -/
theorem subscript_wraps_witness :
    (⟨3, [10, 20, 30]⟩ : Tone).subscript 7 = some (7 % 3)
    ∧ (⟨3, [10, 20, 30]⟩ : Tone).read 7 = some 20 :=
  have h := subscript_wraps ⟨3, [10, 20, 30]⟩ 7 rfl (by decide)
  ⟨h.1, h.2.2.1.trans (by decide)⟩

/-- C18: for a sample rate in [0, 2^31), a channel count and a bit depth in [0, 65535], a
sample count >= 0 and no overflow of the `int` products, the 44 bytes of `writeWavHeader`
decode to the arguments: the little-endian fields at offsets 22, 24 and 34 are numChannels,
sampleRate and bitsPerSample, and when blockAlign is in [1, 65535] the field at offset 40
divided by the field at offset 32 is numSamples. -/
theorem writeWavHeader_decode (sampleRate bitsPerSample numChannels numSamples : Int)
    (h1 : 0 ≤ sampleRate) (r1 : sampleRate < 2147483648)
    (h2 : 0 ≤ bitsPerSample) (r2 : bitsPerSample ≤ 65535)
    (h3 : 0 ≤ numChannels) (r3 : numChannels ≤ 65535) (h4 : 0 ≤ numSamples)
    (o1 : sampleRate * numChannels < 2147483648)
    (o2 : sampleRate * numChannels * bitsPerSample < 2147483648)
    (o3 : numChannels * bitsPerSample < 2147483648)
    (o4 : 36 + numSamples * (numChannels * bitsPerSample / 8) < 2147483648) :
    (writeWavHeader sampleRate bitsPerSample numChannels numSamples).length = 44
    ∧ (leValue (field (writeWavHeader sampleRate bitsPerSample numChannels numSamples) 22 2) : Int)
        = numChannels
    ∧ (leValue (field (writeWavHeader sampleRate bitsPerSample numChannels numSamples) 24 4) : Int)
        = sampleRate
    ∧ (leValue (field (writeWavHeader sampleRate bitsPerSample numChannels numSamples) 34 2) : Int)
        = bitsPerSample
    ∧ (1 ≤ (headerFields sampleRate bitsPerSample numChannels numSamples).blockAlign
        ∧ (headerFields sampleRate bitsPerSample numChannels numSamples).blockAlign ≤ 65535 →
      (leValue (field (writeWavHeader sampleRate bitsPerSample numChannels numSamples) 40 4) : Int)
        / (leValue (field (writeWavHeader sampleRate bitsPerSample numChannels numSamples) 32 2)
            : Int)
        = numSamples) := by
  have p3 : 0 ≤ numChannels * bitsPerSample := Int.mul_nonneg h3 h2
  have p4 : 0 ≤ numChannels * bitsPerSample / 8 := Int.ediv_nonneg p3 (by norm_num)
  have p5 : 0 ≤ numSamples * (numChannels * bitsPerSample / 8) := Int.mul_nonneg h4 p4
  obtain ⟨-, -, -, -, -, f22, f24, -, f32, f34, -, f40⟩ :=
    writeWavHeader_fields sampleRate bitsPerSample numChannels numSamples
  have hf := headerFields_of_no_overflow _ _ _ _ h1 h2 h3 h4 o1 o2 o3 o4
  rw [hf] at f32 f40
  simp only at f32 f40
  refine ⟨writeWavHeader_length _ _ _ _, ?_, ?_, ?_, ?_⟩
  · rw [f22, leValue_writeObject_4_2]; omega
  · rw [f24, leValue_writeObject_4_4]; omega
  · rw [f34, leValue_writeObject_4_2]; omega
  · rw [hf]
    simp only
    rintro ⟨b1, b2⟩
    rw [f40, f32, leValue_writeObject_4_4, leValue_writeObject_4_2,
      Int.emod_eq_of_lt p5 (by omega), Int.emod_eq_of_lt p4 (by omega)]
    exact Int.mul_ediv_cancel _ (by omega)

/-- Witness of `writeWavHeader_decode`: the header `main` writes for 441000 samples. -/
theorem writeWavHeader_decode_witness :
    (leValue (field (writeWavHeader 44100 16 1 441000) 22 2) : Int) = 1
    ∧ (leValue (field (writeWavHeader 44100 16 1 441000) 24 4) : Int) = 44100
    ∧ (leValue (field (writeWavHeader 44100 16 1 441000) 34 2) : Int) = 16
    ∧ (leValue (field (writeWavHeader 44100 16 1 441000) 40 4) : Int)
        / (leValue (field (writeWavHeader 44100 16 1 441000) 32 2) : Int) = 441000 :=
  have h := writeWavHeader_decode 44100 16 1 441000 (by decide) (by decide) (by decide)
    (by decide) (by decide) (by decide) (by decide) (by decide) (by decide) (by decide)
    (by decide)
  ⟨h.2.1, h.2.2.1, h.2.2.2.1, h.2.2.2.2 (by decide)⟩

end ToneGenerator
